import Mathlib

/-!
# Verification of the Huarong Path puzzle solver (`solver.py`)

A shallow embedding of the search core of `solver.py`:

* a board is a list of rows of characters (`'.'` = empty, anything else a
  piece label), exactly the `List[List[str]]` the Python class stores;
* Python dictionaries keyed by labels are association lists kept in
  insertion order, matching CPython's ordered dicts;
* Python exceptions (`KeyError` from a missing dictionary key, `IndexError`
  from list indexing) are modelled by `Option`: `none` means the call
  raises.  Python's negative-index wrap-around for list reads and writes is
  reproduced by `pyIdx`.
* reads of the form `board[r][c]` that the code performs only after an
  explicit bounds check are modelled by the total `cellAt` (whose `'.'`
  default is never reached under those checks); unchecked reads and all
  writes go through `pyIdx`/`pyGet`/`pySet` and can fail.

The breadth-first search loop of `solve_puzzle` is given explicit fuel;
`SolveResult.outOfFuel` is a modelling artefact that never occurs for any
run the Python program completes.
-/

namespace Huarong

abbrev Pos := Nat × Nat

abbrev Board := List (List Char)

/-- `self.height = len(board)` -/
def height (b : Board) : Nat := b.length

/-- `self.width = len(board[0])` (the constructor assumes a nonempty row list). -/
def width (b : Board) : Nat := (b.headD []).length

/-- Bounds-checked cell read `board[r][c]`; every call site in the Python
code reaches it only for `r < height` and `c < width`, where on a
rectangular board the `'.'` default is never used. -/
def cellAt (b : Board) (p : Pos) : Char := (b.getD p.1 []).getD p.2 '.'

/-- The row-major scan order `for r in range(height): for c in range(width)`. -/
def allCells (b : Board) : List Pos :=
  (List.range (height b)).flatMap (fun r => (List.range (width b)).map (fun c => (r, c)))

/-- One `pieces[cell].append((r, c))` update of the insertion-ordered
dictionary in `get_piece_info` (creating the key if absent). -/
def addPos (m : List (Char × List Pos)) (x : Char) (p : Pos) : List (Char × List Pos) :=
  match m with
  | [] => [(x, [p])]
  | (y, ps) :: rest => if y = x then (y, ps ++ [p]) :: rest else (y, ps) :: addPos rest x p

/-- The grouping fold of `get_piece_info`, generalised to an arbitrary
cell list so that it can be reasoned about by induction on the scan. -/
def infoAux (b : Board) (cells : List Pos) : List (Char × List Pos) :=
  cells.foldl (fun m p => if cellAt b p = '.' then m else addPos m (cellAt b p) p) []

/-- `PuzzleState.get_piece_info`: scan all cells row-major and group the
positions of every non-empty label, in first-occurrence order. -/
def get_piece_info (b : Board) : List (Char × List Pos) :=
  infoAux b (allCells b)

/-- The non-empty labels of a cell list in first-occurrence order (the key
sequence of the dictionary built by `get_piece_info`). -/
def labelsAux (b : Board) (cells : List Pos) : List Char :=
  cells.foldl
    (fun acc p => if cellAt b p = '.' ∨ cellAt b p ∈ acc then acc else acc ++ [cellAt b p]) []

/-- The labels occurring on the board, in first-occurrence order. -/
def labelsOf (b : Board) : List Char := labelsAux b (allCells b)

/-- The in-range cells carrying label `l`, in row-major order. -/
def cellsOf (b : Board) (l : Char) : List Pos :=
  (allCells b).filter (fun p => decide (cellAt b p = l))

/-- Dictionary lookup `pieces[piece]`; `none` is Python's `KeyError`. -/
def lookupPos : List (Char × List Pos) → Char → Option (List Pos)
  | [], _ => none
  | (y, ps) :: rest, x => if y = x then some ps else lookupPos rest x

def positionsOf (b : Board) (x : Char) : Option (List Pos) :=
  lookupPos (get_piece_info b) x

/-- Translation of one occupied cell by `(dr, dc)` (may leave `Nat` range). -/
def shift (d : Int × Int) (p : Pos) : Int × Int :=
  ((p.1 : Int) + d.1, (p.2 : Int) + d.2)

def toPos (q : Int × Int) : Pos := (q.1.toNat, q.2.toNat)

/-- The explicit bounds test of `can_move_piece`:
`not (r < 0 or r >= height or c < 0 or c >= width)`. -/
def inBoundsI (b : Board) (q : Int × Int) : Bool :=
  decide (0 ≤ q.1) && decide (q.1 < (height b : Int)) &&
    decide (0 ≤ q.2) && decide (q.2 < (width b : Int))

/-- `PuzzleState.can_move_piece`; `none` when the label is absent
(`KeyError` from `self.get_piece_info()[piece]`). -/
def can_move_piece (b : Board) (piece : Char) (d : Int × Int) : Option Bool :=
  (positionsOf b piece).map fun ps =>
    (ps.map (shift d)).all fun q =>
      inBoundsI b q && (cellAt b (toPos q) == '.' || cellAt b (toPos q) == piece)

/-- Python list index resolution: negative indices wrap once, anything out
of `[-n, n)` raises `IndexError` (`none`). -/
def pyIdx (n : Nat) (i : Int) : Option Nat :=
  if 0 ≤ i then (if i < (n : Int) then some i.toNat else none)
  else (if 0 ≤ i + (n : Int) then some (i + (n : Int)).toNat else none)

/-- Python read `board[r][c]` with full index semantics. -/
def pyGet (b : Board) (q : Int × Int) : Option Char := do
  let r ← pyIdx b.length q.1
  let c ← pyIdx (b.getD r []).length q.2
  some ((b.getD r []).getD c '.')

/-- Python write `board[r][c] = v` with full index semantics. -/
def pySet (b : Board) (q : Int × Int) (v : Char) : Option Board := do
  let r ← pyIdx b.length q.1
  let c ← pyIdx (b.getD r []).length q.2
  some (b.set r ((b.getD r []).set c v))

/-- In-range cell write (the shape every successful `pySet` reduces to). -/
def setCell (b : Board) (p : Pos) (v : Char) : Board :=
  b.set p.1 ((b.getD p.1 []).set p.2 v)

/-- `for r, c in piece_positions: new_state.board[r][c] = '.'` -/
def clearCells (b : Board) (ps : List Pos) : Option Board :=
  ps.foldlM (fun acc p => pySet acc ((p.1 : Int), (p.2 : Int)) '.') b

/-- `for r, c in piece_positions: new_state.board[r + dr][c + dc] = piece` -/
def writeCells (b : Board) (piece : Char) (d : Int × Int) (ps : List Pos) : Option Board :=
  ps.foldlM (fun acc p => pySet acc (shift d p) piece) b

/-- `PuzzleState.move_piece`: copy the board (a pure value here), clear the
old cells, then write the translated cells.  No feasibility check. -/
def move_piece (b : Board) (piece : Char) (d : Int × Int) : Option Board := do
  let ps ← positionsOf b piece
  let b1 ← clearCells b ps
  writeCells b1 piece d ps

/-- One `piece_counts[cell] = piece_counts.get(cell, 0) + 1` update. -/
def bump (m : List (Char × Nat)) (x : Char) : List (Char × Nat) :=
  match m with
  | [] => [(x, 1)]
  | (y, k) :: rest => if y = x then (y, k + 1) :: rest else (y, k) :: bump rest x

/-- The occupancy-count dictionary built at the top of `is_goal`. -/
def piece_counts (b : Board) : List (Char × Nat) :=
  (allCells b).foldl (fun m p => if cellAt b p = '.' then m else bump m (cellAt b p)) []

/-- The fixed `target_positions` of `is_goal` (`height` arithmetic is done
in `Int` because Python subtraction may go negative on tiny boards). -/
def goalTargets (b : Board) : List (Int × Int) :=
  [((height b : Int) - 2, 1), ((height b : Int) - 2, 2),
   ((height b : Int) - 1, 1), ((height b : Int) - 1, 2)]

/-- The final loop of `is_goal`: return `false` at the first target cell
not holding the piece, propagating an `IndexError` from the read. -/
def checkAll (b : Board) (t : Char) : List (Int × Int) → Option Bool
  | [] => some true
  | q :: rest => do
      let ch ← pyGet b q
      if ch ≠ t then some false else checkAll b t rest

/-- `PuzzleState.is_goal`: find the first label (in dictionary order) with
exactly four cells; with no such label return `false`; otherwise check the
four bottom-centre target cells. -/
def is_goal (b : Board) : Option Bool :=
  match (piece_counts b).find? (fun e => e.2 == 4) with
  | none => some false
  | some e => checkAll b e.1 (goalTargets b)

/-! ### Canonicalisation (`get_canonical_board`) -/

def rowsOf (ps : List Pos) : List Nat := ps.map Prod.fst

def colsOf (ps : List Pos) : List Nat := ps.map Prod.snd

/-- Python `min` over a nonempty list (the head default is never relevant:
`get_piece_info` values are nonempty). -/
def natMin (l : List Nat) : Nat := l.foldl min (l.headD 0)

def natMax (l : List Nat) : Nat := l.foldl max (l.headD 0)

/-- `shape = (width, height)` from the bounding box of the positions. -/
def shapeOf (ps : List Pos) : Nat × Nat :=
  (natMax (colsOf ps) - natMin (colsOf ps) + 1,
   natMax (rowsOf ps) - natMin (rowsOf ps) + 1)

/-- The four keys of the `shape_groups` dictionary. -/
def shapeTable : List (Nat × Nat) := [(2, 2), (1, 2), (2, 1), (1, 1)]

structure ShapeGroups where
  s22 : List (Char × List Pos)
  s12 : List (Char × List Pos)
  s21 : List (Char × List Pos)
  s11 : List (Char × List Pos)

/-- Distribute the pieces over the four fixed shape groups, in piece order.
A shape outside the table is Python's `KeyError` on
`shape_groups[shape].append(...)` (`none`): the raising run produces no
value, so filtering after an all-shapes test is observationally the same
as appending piece by piece. -/
def buildGroups (info : List (Char × List Pos)) : Option ShapeGroups :=
  if info.all (fun pc => decide (shapeOf pc.2 ∈ shapeTable)) then
    some { s22 := info.filter (fun pc => decide (shapeOf pc.2 = (2, 2)))
           s12 := info.filter (fun pc => decide (shapeOf pc.2 = (1, 2)))
           s21 := info.filter (fun pc => decide (shapeOf pc.2 = (2, 1)))
           s11 := info.filter (fun pc => decide (shapeOf pc.2 = (1, 1))) }
  else none

/-- Strict `<` on positions, i.e. Python's tuple comparison on `(r, c)`. -/
def posLtb (p q : Pos) : Bool := p.1 < q.1 || (p.1 == q.1 && p.2 < q.2)

def insertSorted (le : α → α → Bool) (a : α) : List α → List α
  | [] => [a]
  | b :: l => if le a b then a :: b :: l else b :: insertSorted le a l

/-- Comparison sort (the standard insertion sort); on the distinct keys
produced here it returns the unique ascending order, exactly as Python's
`list.sort(key=...)` does. -/
def sortByKey (le : α → α → Bool) : List α → List α
  | [] => []
  | a :: l => insertSorted le a (sortByKey le l)

/-- `sorted(x[1])`: the position list sorted in row-major order. -/
def sortPositions (ps : List Pos) : List Pos :=
  sortByKey (fun p q => posLtb p q || p == q) ps

/-- Python's lexicographic `<` on lists of position tuples. -/
def keyLt : List Pos → List Pos → Bool
  | [], [] => false
  | [], _ :: _ => true
  | _ :: _, [] => false
  | p :: ps, q :: qs => if p = q then keyLt ps qs else posLtb p q

/-- `key=lambda x: tuple(sorted(x[1]))` -/
def pieceKey (pc : Char × List Pos) : List Pos := sortPositions pc.2

def keyLe (a b : Char × List Pos) : Bool :=
  keyLt (pieceKey a) (pieceKey b) || (pieceKey a == pieceKey b)

/-- `shape_groups[shape].sort(key=lambda x: tuple(sorted(x[1])))` -/
def sortGroup (g : List (Char × List Pos)) : List (Char × List Pos) :=
  sortByKey keyLe g

/-- `labels[i] if i < len(labels) else labels[-1]` -/
def canonLabel (labels : List Char) (i : Nat) : Char :=
  if i < labels.length then labels.getD i '.' else labels.getLastD '.'

/-- Paint one piece's cells with its canonical label (always in range). -/
def paintOne (g : Board) (lab : Char) (ps : List Pos) : Board :=
  ps.foldl (fun acc p => setCell acc p lab) g

/-- `for i, (original_label, positions) in enumerate(pieces): ...` -/
def paintGroup (g : Board) (labels : List Char) (pieces : List (Char × List Pos)) : Board :=
  (pieces.enum).foldl (fun acc ie => paintOne acc (canonLabel labels ie.1) ie.2.2) g

/-- `[['.' for _ in range(width)] for _ in range(height)]` -/
def emptyGrid (h w : Nat) : Board := List.replicate h (List.replicate w '.')

/-- `PuzzleState.get_canonical_board`. -/
def get_canonical_board (b : Board) : Option Board := do
  let gs ← buildGroups (get_piece_info b)
  let g0 := emptyGrid (height b) (width b)
  let g1 := paintGroup g0 ['A'] (sortGroup gs.s22)
  let g2 := paintGroup g1 ['B', 'C', 'D', 'E'] (sortGroup gs.s12)
  let g3 := paintGroup g2 ['F'] (sortGroup gs.s21)
  some (paintGroup g3 ['G', 'H', 'I', 'J'] (sortGroup gs.s11))

/-- `PuzzleState.__eq__` (and the hash/equality route of the visited set):
equality of the two canonical boards; `none` when canonicalisation raises. -/
def stateEq (b1 b2 : Board) : Option Bool := do
  let c1 ← get_canonical_board b1
  let c2 ← get_canonical_board b2
  some (c1 == c2)

/-! ### Move generation and search -/

/-- `directions = [(-1, 0), (1, 0), (0, -1), (0, 1)]` -/
def directions : List (Int × Int) := [(-1, 0), (1, 0), (0, -1), (0, 1)]

def dirName (d : Int × Int) : String :=
  if d = (-1, 0) then "up"
  else if d = (1, 0) then "down"
  else if d = (0, -1) then "left"
  else "right"

/-- The inner direction loop of `get_all_moves` for one piece. -/
def movesFor (b : Board) (l : Char) : List (Int × Int) → Option (List (Char × String × Board))
  | [] => some []
  | d :: ds => do
      let can ← can_move_piece b l d
      if can then do
        let b2 ← move_piece b l d
        let rest ← movesFor b l ds
        some ((l, dirName d, b2) :: rest)
      else movesFor b l ds

/-- `sorted(pieces.keys())`. -/
def labelsSorted (b : Board) : List Char :=
  sortByKey (fun x y => decide (x ≤ y)) ((get_piece_info b).map Prod.fst)

def movesAll (b : Board) : List Char → Option (List (Char × String × Board))
  | [] => some []
  | l :: ls => do
      let ms ← movesFor b l directions
      let rest ← movesAll b ls
      some (ms ++ rest)

/-- `PuzzleState.get_all_moves`. -/
def get_all_moves (b : Board) : Option (List (Char × String × Board)) :=
  movesAll b (labelsSorted b)

structure Entry where
  state : Board
  path : List (Char × String × Board)
  deriving DecidableEq

inductive StepOut where
  | found (p : List (Char × String × Board))
  | next (visited : List Board) (adds : List Entry)
  | fail
  deriving DecidableEq

/-- The successor loop in the body of the BFS `while` loop: skip canonical
states already visited, mark the rest visited, return at the first goal,
otherwise collect the new queue entries. -/
def expand (path : List (Char × String × Board)) :
    List (Char × String × Board) → List Board → List Entry → StepOut
  | [], visited, adds => .next visited adds
  | (pc, dn, ns) :: rest, visited, adds =>
    match get_canonical_board ns with
    | none => .fail
    | some sg =>
      if sg ∈ visited then expand path rest visited adds
      else
        match is_goal ns with
        | none => .fail
        | some true => .found (path ++ [(pc, dn, ns)])
        | some false =>
            expand path rest (visited ++ [sg]) (adds ++ [⟨ns, path ++ [(pc, dn, ns)]⟩])

inductive SolveResult where
  | solution (p : List (Char × String × Board))
  | nosolution
  | err
  | outOfFuel
  deriving DecidableEq

/-- The BFS `while queue:` loop, with explicit fuel. -/
def solveLoop : Nat → List Entry → List Board → SolveResult
  | 0, _, _ => .outOfFuel
  | _ + 1, [], _ => .nosolution
  | fuel + 1, e :: queue, visited =>
    match get_all_moves e.state with
    | none => .err
    | some moves =>
      match expand e.path moves visited [] with
      | .fail => .err
      | .found p => .solution p
      | .next visited2 adds => solveLoop fuel (queue ++ adds) visited2

/-- `solve_puzzle`: print the canonical form of the initial state (which
computes it, and raises if it is undefined), return `[]` on an initial
goal, otherwise run BFS from a queue holding the initial state with the
visited set seeded with its canonical form. -/
def solve_puzzle (fuel : Nat) (b : Board) : SolveResult :=
  match get_canonical_board b with
  | none => .err
  | some sg =>
    match is_goal b with
    | none => .err
    | some true => .solution []
    | some false => solveLoop fuel [⟨b, []⟩] [sg]

/-- `PuzzleState.__init__` on a raw row list: `len(board[0])` raises
`IndexError` on an empty row list; otherwise every input is accepted
unchanged (the constructor performs no validation). -/
def constructState (rows : Board) : Option Board :=
  match rows with
  | [] => none
  | _ => some rows

/-! ### Specification-side vocabulary -/

/-- The board satisfies the goal test (and the test does not raise). -/
def isGoalT (b : Board) : Prop := is_goal b = some true

/-- One legal single-piece single-step move, as the spec defines moves:
one of the four unit directions, feasible by `can_move_piece`, realised by
`move_piece`. -/
def LegalMove (b : Board) (l : Char) (d : Int × Int) (b2 : Board) : Prop :=
  d ∈ directions ∧ can_move_piece b l d = some true ∧ move_piece b l d = some b2

def Step (b b2 : Board) : Prop := ∃ l d, LegalMove b l d b2

/-- `Reach n b b2`: some sequence of `n` legal moves turns `b` into `b2`. -/
inductive Reach : Nat → Board → Board → Prop
  | refl (b : Board) : Reach 0 b b
  | step {b b1 b2 : Board} {n : Nat} :
      Step b b1 → Reach n b1 b2 → Reach (n + 1) b b2

/-- `n` is the minimum length of a legal move sequence from `b` to a goal. -/
def GoalDist (b : Board) (n : Nat) : Prop :=
  (∃ g, Reach n b g ∧ isGoalT g) ∧ ∀ m g, Reach m b g → isGoalT g → n ≤ m

/-- Equal-length rows, as the spec's grid data model requires (`width` is
read off the first row, so the row list must be nonempty). -/
def Rect (b : Board) : Prop := b ≠ [] ∧ ∀ row ∈ b, row.length = width b

/-- A piece is geometrically valid: distinct cells filling its bounding box
(a solid axis-aligned rectangle) whose shape is one of the four classes. -/
def pieceOK (pc : Char × List Pos) : Prop :=
  pc.2.Nodup ∧ pc.2.length = (shapeOf pc.2).1 * (shapeOf pc.2).2 ∧ shapeOf pc.2 ∈ shapeTable

def countShape (b : Board) (s : Nat × Nat) : Nat :=
  ((get_piece_info b).filter (fun pc => decide (shapeOf pc.2 = s))).length

/-- A well-formed board of the puzzle family: a rectangular grid large
enough to contain the fixed goal region, every piece a solid rectangle of
one of the four shape classes, and no shape class over its label budget. -/
def wellFormed (b : Board) : Prop :=
  Rect b ∧ 2 ≤ height b ∧ 3 ≤ width b ∧
    (∀ pc ∈ get_piece_info b, pieceOK pc) ∧
    countShape b (2, 2) ≤ 1 ∧ countShape b (1, 2) ≤ 4 ∧
    countShape b (2, 1) ≤ 1 ∧ countShape b (1, 1) ≤ 4

instance (b : Board) : Decidable (Rect b) := by unfold Rect; infer_instance

instance (pc : Char × List Pos) : Decidable (pieceOK pc) := by unfold pieceOK; infer_instance

instance (b : Board) : Decidable (wellFormed b) := by unfold wellFormed; infer_instance

/-- The spec's in-bounds condition on a translated cell. -/
def InBounds (b : Board) (q : Int × Int) : Prop :=
  0 ≤ q.1 ∧ q.1 < (height b : Int) ∧ 0 ≤ q.2 ∧ q.2 < (width b : Int)

instance (b : Board) (q : Int × Int) : Decidable (InBounds b q) := by
  unfold InBounds; infer_instance

/-- The spec's wording of movement feasibility: every cell of the label,
translated by `d`, stays in bounds and lands on an empty cell or on a cell
of the same label. -/
def canMoveSpec (b : Board) (l : Char) (d : Int × Int) : Prop :=
  ∀ p ∈ allCells b, cellAt b p = l →
    InBounds b (shift d p) ∧
      (cellAt b (toPos (shift d p)) = '.' ∨ cellAt b (toPos (shift d p)) = l)

/-- The four goal cells, rows `{height-2, height-1}` × columns `{1, 2}`,
as grid coordinates. -/
def goalPosNat (b : Board) : List Pos :=
  [(height b - 2, 1), (height b - 2, 2), (height b - 1, 1), (height b - 1, 2)]

/-- The claim's wording of the goal condition: some piece occupies exactly
4 cells and those cells are exactly the four goal cells. -/
def goalSpec (b : Board) : Prop :=
  ∃ l ∈ labelsOf b, (cellsOf b l).length = 4 ∧ ∀ p, p ∈ cellsOf b l ↔ p ∈ goalPosNat b

/-- The cells of the moved label after translation by `d`. -/
def movedCells (b : Board) (l : Char) (d : Int × Int) : List Pos :=
  (cellsOf b l).map (fun p => toPos (shift d p))

/-! ### Concrete boards used to instantiate the claims -/

/-- A well-formed 3×2 board whose 2×2 piece sits one move left of the goal. -/
def demoStartBoard : Board := [['B', 'B', '.'], ['B', 'B', '.']]

/-- A well-formed 3×2 board with its 2×2 piece on the goal cells. -/
def demoGoalBoard : Board := [['.', 'B', 'B'], ['.', 'B', 'B']]

/-- A board whose piece `'A'` is an L-shape, not a solid rectangle. -/
def lShapeBoard : Board := [['A', 'A', '.'], ['A', '.', '.']]

/-- A board whose piece `'A'` has a 3-wide, 1-tall bounding box, a shape
outside the canonicalizer's table. -/
def wideBoard : Board := [['A', 'A', 'A'], ['.', '.', '.']]

/-- A 2×1 board on which `'A'` cannot legally move right (`'B'` blocks). -/
def twoCellBoard : Board := [['A', 'B']]

/-- Preset board 1 of the Python program. -/
def presetBoard1 : Board :=
  [['A', 'B', 'B', 'C'], ['A', 'B', 'B', 'C'], ['D', 'E', 'E', 'X'],
   ['D', 'Y', 'Z', 'X'], ['K', '.', '.', 'I']]

/-- Relabelling a board cell by cell. -/
def mapBoard (σ : Char → Char) (b : Board) : Board := b.map (List.map σ)

/-- Painting a list of already-labelled pieces, the flattened form of the
paint loop of `get_canonical_board`. -/
def paintList (g : Board) (l : List (Char × List Pos)) : Board :=
  l.foldl (fun acc e => paintOne acc e.1 e.2) g

/-- The canonical label/position pairs of one sorted shape group. -/
def zipLabels (labels : List Char) (pieces : List (Char × List Pos)) :
    List (Char × List Pos) :=
  pieces.enum.map (fun ie => (canonLabel labels ie.1, ie.2.2))

/-- All canonical label/position pairs painted by `get_canonical_board`,
in paint order. -/
def canonPieces (gs : ShapeGroups) : List (Char × List Pos) :=
  zipLabels ['A'] (sortGroup gs.s22) ++ zipLabels ['B', 'C', 'D', 'E'] (sortGroup gs.s12) ++
    zipLabels ['F'] (sortGroup gs.s21) ++ zipLabels ['G', 'H', 'I', 'J'] (sortGroup gs.s11)

/-- Two labelled cell lists occupy disjoint cells. -/
def PosDisj (e1 e2 : Char × List Pos) : Prop := ∀ p, p ∈ e1.2 → p ∈ e2.2 → False

/-- The transposition of two labels, a concrete shape-class bijection. -/
def swapChars (x y : Char) : Char → Char :=
  fun c => if c = x then y else if c = y then x else c

/-! ## Basic facts about the cell scan -/

theorem mem_allCells {b : Board} {p : Pos} :
    p ∈ allCells b ↔ p.1 < height b ∧ p.2 < width b := by
  unfold allCells
  constructor
  · intro h
    rcases List.mem_flatMap.1 h with ⟨r, hr, hp⟩
    rcases List.mem_map.1 hp with ⟨c, hc, rfl⟩
    exact ⟨List.mem_range.1 hr, List.mem_range.1 hc⟩
  · intro ⟨h1, h2⟩
    exact List.mem_flatMap.2 ⟨p.1, List.mem_range.2 h1,
      List.mem_map.2 ⟨p.2, List.mem_range.2 h2, rfl⟩⟩

theorem allCells_nodup (b : Board) : (allCells b).Nodup := by
  unfold allCells
  refine List.nodup_flatMap.2 ⟨fun r _ => ?_, ?_⟩
  · exact (List.nodup_range _).map (fun c c' h => congrArg Prod.snd h)
  · refine List.Pairwise.imp ?_ (List.pairwise_lt_range _)
    intro r r' hlt q hq hq'
    rcases List.mem_map.1 hq with ⟨c, _, rfl⟩
    rcases List.mem_map.1 hq' with ⟨c', _, h⟩
    exact absurd (congrArg Prod.fst h).symm (Nat.ne_of_lt hlt)

theorem mem_cellsOf {b : Board} {l : Char} {p : Pos} :
    p ∈ cellsOf b l ↔ p ∈ allCells b ∧ cellAt b p = l := by
  simp [cellsOf, List.mem_filter]

theorem cellsOf_nodup (b : Board) (l : Char) : (cellsOf b l).Nodup :=
  List.Nodup.filter _ (allCells_nodup b)

/-! ## Characterisation of `get_piece_info` -/

theorem addPos_map_mem {L : List Char} {F : Char → List Pos} (hnd : L.Nodup)
    {x : Char} (hx : x ∈ L) (p : Pos) :
    addPos (L.map fun l => (l, F l)) x p =
      L.map fun l => (l, if l = x then F l ++ [p] else F l) := by
  induction L with
  | nil => cases hx
  | cons a L ih =>
    simp only [List.map_cons, addPos]
    by_cases hax : a = x
    · subst hax
      simp only [if_pos rfl]
      refine congrArg _ (List.map_congr_left fun l hl => ?_)
      have : l ≠ a := fun h => (List.nodup_cons.1 hnd).1 (h ▸ hl)
      simp [this]
    · rw [if_neg hax, if_neg hax,
        ih (List.nodup_cons.1 hnd).2 ((List.mem_cons.1 hx).resolve_left fun h => hax h.symm)]

theorem addPos_map_notMem {L : List Char} {F : Char → List Pos}
    {x : Char} (hx : x ∉ L) (p : Pos) :
    addPos (L.map fun l => (l, F l)) x p = (L.map fun l => (l, F l)) ++ [(x, [p])] := by
  induction L with
  | nil => rfl
  | cons a L ih =>
    have hax : a ≠ x := fun h => hx (h ▸ List.mem_cons_self a L)
    simp only [List.map_cons, addPos, if_neg hax, List.cons_append]
    rw [ih (fun h => hx (List.mem_cons_of_mem a h))]

theorem labelsFold_mem (b : Board) (cells : List Pos) (L : List Char) (l : Char) :
    l ∈ cells.foldl
        (fun acc p => if cellAt b p = '.' ∨ cellAt b p ∈ acc then acc else acc ++ [cellAt b p])
        L ↔
      l ∈ L ∨ (l ≠ '.' ∧ ∃ q ∈ cells, cellAt b q = l) := by
  induction cells generalizing L with
  | nil => simp
  | cons p cells ih =>
    simp only [List.foldl_cons]
    by_cases h : cellAt b p = '.' ∨ cellAt b p ∈ L
    · rw [if_pos h, ih]
      constructor
      · rintro (hl | ⟨hl, q, hq, hcq⟩)
        · exact Or.inl hl
        · exact Or.inr ⟨hl, q, List.mem_cons_of_mem p hq, hcq⟩
      · rintro (hl | ⟨hl, q, hq, hcq⟩)
        · exact Or.inl hl
        · rcases List.mem_cons.1 hq with rfl | hq
          · rcases h with h | h
            · exact absurd (hcq ▸ h) hl
            · exact Or.inl (hcq ▸ h)
          · exact Or.inr ⟨hl, q, hq, hcq⟩
    · rw [if_neg h, ih]
      push_neg at h
      constructor
      · rintro (hl | ⟨hl, q, hq, hcq⟩)
        · rcases List.mem_append.1 hl with hl | hl
          · exact Or.inl hl
          · rcases List.mem_singleton.1 hl with rfl
            exact Or.inr ⟨h.1, p, List.mem_cons_self p cells, rfl⟩
        · exact Or.inr ⟨hl, q, List.mem_cons_of_mem p hq, hcq⟩
      · rintro (hl | ⟨hl, q, hq, hcq⟩)
        · exact Or.inl (List.mem_append_left _ hl)
        · rcases List.mem_cons.1 hq with rfl | hq
          · exact Or.inl (List.mem_append_right _ (List.mem_singleton.2 hcq.symm))
          · exact Or.inr ⟨hl, q, hq, hcq⟩

theorem labelsFold_ne_dot (b : Board) (cells : List Pos) (L : List Char)
    (hL : ∀ l ∈ L, l ≠ '.') :
    ∀ l ∈ cells.foldl
        (fun acc p => if cellAt b p = '.' ∨ cellAt b p ∈ acc then acc else acc ++ [cellAt b p])
        L, l ≠ '.' := by
  intro l hl
  rcases (labelsFold_mem b cells L l).1 hl with h | h
  · exact hL l h
  · exact h.1

theorem labelsFold_nodup (b : Board) (cells : List Pos) (L : List Char)
    (hL : L.Nodup) :
    (cells.foldl
        (fun acc p => if cellAt b p = '.' ∨ cellAt b p ∈ acc then acc else acc ++ [cellAt b p])
        L).Nodup := by
  induction cells generalizing L with
  | nil => exact hL
  | cons p cells ih =>
    simp only [List.foldl_cons]
    by_cases h : cellAt b p = '.' ∨ cellAt b p ∈ L
    · rw [if_pos h]; exact ih L hL
    · rw [if_neg h]
      push_neg at h
      exact ih _ (List.Nodup.append hL (List.nodup_singleton _)
        (fun l hl hl' => h.2 ((List.mem_singleton.1 hl') ▸ hl)))

theorem infoAux_general (b : Board) (cells : List Pos) :
    ∀ (L : List Char) (F : Char → List Pos), L.Nodup → (∀ l ∈ L, l ≠ '.') →
      (∀ l, l ∉ L → F l = []) →
      cells.foldl (fun m p => if cellAt b p = '.' then m else addPos m (cellAt b p) p)
          (L.map fun l => (l, F l)) =
        (cells.foldl
            (fun acc p =>
              if cellAt b p = '.' ∨ cellAt b p ∈ acc then acc else acc ++ [cellAt b p]) L).map
          (fun l => (l, F l ++ cells.filter (fun p => decide (cellAt b p = l)))) := by
  induction cells with
  | nil =>
    intro L F _ _ _
    simp
  | cons p cells ih =>
    intro L F hnd hdot hF
    simp only [List.foldl_cons]
    by_cases hdotp : cellAt b p = '.'
    · rw [if_pos hdotp, if_pos (Or.inl hdotp), ih L F hnd hdot hF]
      refine List.map_congr_left fun l hl => ?_
      have hlne : l ≠ '.' := labelsFold_ne_dot b cells L hdot l hl
      have : cellAt b p ≠ l := fun h => hlne (h ▸ hdotp)
      simp [List.filter_cons, this]
    · rw [if_neg hdotp]
      by_cases hmem : cellAt b p ∈ L
      · rw [if_pos (Or.inr hmem)]
        rw [addPos_map_mem hnd hmem p]
        have hrw : (L.map fun l => (l, if l = cellAt b p then F l ++ [p] else F l)) =
            L.map fun l => (l, (fun l' => if l' = cellAt b p then F l' ++ [p] else F l') l) := rfl
        rw [hrw, ih L _ hnd hdot
          (fun l hl => by
            have : l ≠ cellAt b p := fun h => hl (h ▸ hmem)
            simp [this, hF l hl])]
        refine List.map_congr_left fun l hl => ?_
        by_cases hlp : l = cellAt b p
        · subst hlp
          simp [List.filter_cons]
        · have : cellAt b p ≠ l := fun h => hlp h.symm
          simp [List.filter_cons, hlp, this]
      · rw [if_neg (fun h => h.elim hdotp hmem)]
        rw [addPos_map_notMem hmem p]
        have hrw : (L.map fun l => (l, F l)) ++ [(cellAt b p, [p])] =
            (L ++ [cellAt b p]).map fun l =>
              (l, (fun l' => if l' = cellAt b p then [p] else F l') l) := by
          rw [List.map_append]
          refine congrArg₂ _ (List.map_congr_left fun l hl => ?_) (by simp)
          have : l ≠ cellAt b p := fun h => hmem (h ▸ hl)
          simp [this]
        rw [hrw, ih (L ++ [cellAt b p]) _
          (List.Nodup.append hnd (List.nodup_singleton _)
            (fun l hl hl' => hmem ((List.mem_singleton.1 hl') ▸ hl)))
          (fun l hl => by
            rcases List.mem_append.1 hl with hl | hl
            · exact hdot l hl
            · exact (List.mem_singleton.1 hl) ▸ hdotp)
          (fun l hl => by
            have h1 : l ≠ cellAt b p := fun h => hl (List.mem_append_right _ (by simp [h]))
            have h2 : l ∉ L := fun h => hl (List.mem_append_left _ h)
            simp [h1, hF l h2])]
        refine List.map_congr_left fun l hl => ?_
        by_cases hlp : l = cellAt b p
        · subst hlp
          simp [List.filter_cons, hF _ hmem]
        · have : cellAt b p ≠ l := fun h => hlp h.symm
          simp [List.filter_cons, hlp, this]

theorem info_char (b : Board) :
    get_piece_info b = (labelsOf b).map (fun l => (l, cellsOf b l)) := by
  have h := infoAux_general b (allCells b) [] (fun _ => []) List.nodup_nil
    (by intro l hl; cases hl) (fun _ _ => rfl)
  simpa [get_piece_info, infoAux, labelsOf, labelsAux, cellsOf] using h

theorem labelsOf_nodup (b : Board) : (labelsOf b).Nodup :=
  labelsFold_nodup b (allCells b) [] List.nodup_nil

theorem labelsOf_ne_dot (b : Board) : ∀ l ∈ labelsOf b, l ≠ '.' :=
  labelsFold_ne_dot b (allCells b) [] (by intro l hl; cases hl)

theorem mem_labelsOf {b : Board} {l : Char} :
    l ∈ labelsOf b ↔ l ≠ '.' ∧ ∃ p ∈ allCells b, cellAt b p = l := by
  rw [labelsOf, labelsAux, labelsFold_mem]
  simp

theorem lookupPos_map (L : List Char) (F : Char → List Pos) (x : Char) :
    lookupPos (L.map fun l => (l, F l)) x = if x ∈ L then some (F x) else none := by
  induction L with
  | nil => rfl
  | cons a L ih =>
    simp only [List.map_cons, lookupPos]
    by_cases hax : a = x
    · subst hax
      simp
    · rw [if_neg hax, ih]
      by_cases hx : x ∈ L
      · rw [if_pos hx, if_pos (List.mem_cons_of_mem a hx)]
      · rw [if_neg hx, if_neg (by simp [hax, hx, Ne.symm hax])]

theorem positionsOf_eq (b : Board) (l : Char) :
    positionsOf b l = if l ∈ labelsOf b then some (cellsOf b l) else none := by
  rw [positionsOf, info_char, lookupPos_map]

theorem positionsOf_eq_some {b : Board} {l : Char} (h : l ∈ labelsOf b) :
    positionsOf b l = some (cellsOf b l) := by
  rw [positionsOf_eq, if_pos h]

theorem mem_info {b : Board} {pc : Char × List Pos} :
    pc ∈ get_piece_info b ↔ pc.1 ∈ labelsOf b ∧ pc.2 = cellsOf b pc.1 := by
  rw [info_char]
  constructor
  · intro h
    rcases List.mem_map.1 h with ⟨l, hl, rfl⟩
    exact ⟨hl, rfl⟩
  · intro ⟨h1, h2⟩
    exact List.mem_map.2 ⟨pc.1, h1, by rw [← h2]⟩

/-! ## Movement feasibility (`can_move_piece`) -/

theorem can_move_piece_eq_all (b : Board) (l : Char) (d : Int × Int) (h : l ∈ labelsOf b) :
    can_move_piece b l d =
      some (((cellsOf b l).map (shift d)).all fun q =>
        inBoundsI b q && (cellAt b (toPos q) == '.' || cellAt b (toPos q) == l)) := by
  rw [can_move_piece, positionsOf_eq_some h]
  rfl

theorem can_move_check_iff (b : Board) (l : Char) (q : Int × Int) :
    (inBoundsI b q && (cellAt b (toPos q) == '.' || cellAt b (toPos q) == l)) = true ↔
      InBounds b q ∧ (cellAt b (toPos q) = '.' ∨ cellAt b (toPos q) = l) := by
  simp [inBoundsI, InBounds, and_assoc]

/-- Claim C3: for a label present on the board, `can_move_piece` returns a
boolean (it does not raise), and returns `true` exactly when translating
every cell of the label by the direction keeps every resulting cell inside
the grid and lands only on empty cells or cells of the same label. -/
theorem can_move_piece_iff_spec (b : Board) (l : Char) (d : Int × Int)
    (h : l ∈ labelsOf b) :
    ∃ r, can_move_piece b l d = some r ∧ (r = true ↔ canMoveSpec b l d) := by
  refine ⟨_, can_move_piece_eq_all b l d h, ?_⟩
  rw [List.all_eq_true]
  constructor
  · intro hall p hp hcell
    exact (can_move_check_iff b l _).1
      (hall (shift d p) (List.mem_map.2 ⟨p, mem_cellsOf.2 ⟨hp, hcell⟩, rfl⟩))
  · intro hspec q hq
    rcases List.mem_map.1 hq with ⟨p, hp, rfl⟩
    rcases mem_cellsOf.1 hp with ⟨hpin, hpc⟩
    exact (can_move_check_iff b l _).2 (hspec p hpin hpc)

/-- Witness for the claim C3 theorem at a concrete board and move. -/
theorem can_move_piece_iff_spec_witness :
    'B' ∈ labelsOf demoStartBoard ∧
      ∃ r, can_move_piece demoStartBoard 'B' (0, 1) = some r ∧
        (r = true ↔ canMoveSpec demoStartBoard 'B' (0, 1)) :=
  ⟨by decide, can_move_piece_iff_spec demoStartBoard 'B' (0, 1) (by decide)⟩

/-! ## Occupancy counts and the goal test -/

theorem bump_map_mem {L : List Char} {F : Char → Nat} (hnd : L.Nodup)
    {x : Char} (hx : x ∈ L) :
    bump (L.map fun l => (l, F l)) x = L.map fun l => (l, if l = x then F l + 1 else F l) := by
  induction L with
  | nil => cases hx
  | cons a L ih =>
    simp only [List.map_cons, bump]
    by_cases hax : a = x
    · subst hax
      simp only [if_pos rfl]
      refine congrArg _ (List.map_congr_left fun l hl => ?_)
      have : l ≠ a := fun h => (List.nodup_cons.1 hnd).1 (h ▸ hl)
      simp [this]
    · rw [if_neg hax, if_neg hax,
        ih (List.nodup_cons.1 hnd).2 ((List.mem_cons.1 hx).resolve_left fun h => hax h.symm)]

theorem bump_map_notMem {L : List Char} {F : Char → Nat} {x : Char} (hx : x ∉ L) :
    bump (L.map fun l => (l, F l)) x = (L.map fun l => (l, F l)) ++ [(x, 1)] := by
  induction L with
  | nil => rfl
  | cons a L ih =>
    have hax : a ≠ x := fun h => hx (h ▸ List.mem_cons_self a L)
    simp only [List.map_cons, bump, if_neg hax, List.cons_append]
    rw [ih (fun h => hx (List.mem_cons_of_mem a h))]

theorem countsAux_general (b : Board) (cells : List Pos) :
    ∀ (L : List Char) (F : Char → Nat), L.Nodup → (∀ l ∈ L, l ≠ '.') →
      (∀ l, l ∉ L → F l = 0) →
      cells.foldl (fun m p => if cellAt b p = '.' then m else bump m (cellAt b p))
          (L.map fun l => (l, F l)) =
        (cells.foldl
            (fun acc p =>
              if cellAt b p = '.' ∨ cellAt b p ∈ acc then acc else acc ++ [cellAt b p]) L).map
          (fun l => (l, F l + cells.countP (fun p => decide (cellAt b p = l)))) := by
  induction cells with
  | nil =>
    intro L F _ _ _
    simp
  | cons p cells ih =>
    intro L F hnd hdot hF
    simp only [List.foldl_cons]
    by_cases hdotp : cellAt b p = '.'
    · rw [if_pos hdotp, if_pos (Or.inl hdotp), ih L F hnd hdot hF]
      refine List.map_congr_left fun l hl => ?_
      have hlne : l ≠ '.' := labelsFold_ne_dot b cells L hdot l hl
      have : cellAt b p ≠ l := fun h => hlne (h ▸ hdotp)
      simp [List.countP_cons, this]
    · rw [if_neg hdotp]
      by_cases hmem : cellAt b p ∈ L
      · rw [if_pos (Or.inr hmem)]
        rw [bump_map_mem hnd hmem]
        have hrw : (L.map fun l => (l, if l = cellAt b p then F l + 1 else F l)) =
            L.map fun l => (l, (fun l' => if l' = cellAt b p then F l' + 1 else F l') l) := rfl
        rw [hrw, ih L _ hnd hdot
          (fun l hl => by
            have : l ≠ cellAt b p := fun h => hl (h ▸ hmem)
            simp [this, hF l hl])]
        refine List.map_congr_left fun l hl => ?_
        by_cases hlp : l = cellAt b p
        · subst hlp
          simp only [Prod.mk.injEq, true_and]
          simp [List.countP_cons]
          omega
        · have : cellAt b p ≠ l := fun h => hlp h.symm
          simp [List.countP_cons, hlp, this]
      · rw [if_neg (fun h => h.elim hdotp hmem)]
        rw [bump_map_notMem hmem]
        have hrw : (L.map fun l => (l, F l)) ++ [(cellAt b p, 1)] =
            (L ++ [cellAt b p]).map fun l =>
              (l, (fun l' => if l' = cellAt b p then 1 else F l') l) := by
          rw [List.map_append]
          refine congrArg₂ _ (List.map_congr_left fun l hl => ?_) (by simp)
          have : l ≠ cellAt b p := fun h => hmem (h ▸ hl)
          simp [this]
        rw [hrw, ih (L ++ [cellAt b p]) _
          (List.Nodup.append hnd (List.nodup_singleton _)
            (fun l hl hl' => hmem ((List.mem_singleton.1 hl') ▸ hl)))
          (fun l hl => by
            rcases List.mem_append.1 hl with hl | hl
            · exact hdot l hl
            · exact (List.mem_singleton.1 hl) ▸ hdotp)
          (fun l hl => by
            have h1 : l ≠ cellAt b p := fun h => hl (List.mem_append_right _ (by simp [h]))
            have h2 : l ∉ L := fun h => hl (List.mem_append_left _ h)
            simp [h1, hF l h2])]
        refine List.map_congr_left fun l hl => ?_
        by_cases hlp : l = cellAt b p
        · subst hlp
          simp only [Prod.mk.injEq, true_and]
          simp [List.countP_cons, hF _ hmem]
          omega
        · have : cellAt b p ≠ l := fun h => hlp h.symm
          simp [List.countP_cons, hlp, this]

theorem piece_counts_char (b : Board) :
    piece_counts b = (labelsOf b).map (fun l => (l, (cellsOf b l).length)) := by
  have h := countsAux_general b (allCells b) [] (fun _ => 0) List.nodup_nil
    (by intro l hl; cases hl) (fun _ _ => rfl)
  simp only [List.map_nil] at h
  rw [piece_counts, h]
  refine List.map_congr_left fun l _ => ?_
  simp only [Prod.mk.injEq, true_and, Nat.zero_add]
  rw [cellsOf, List.countP_eq_length_filter]

theorem pyIdx_of_nonneg_lt {n : Nat} {i : Int} (h0 : 0 ≤ i) (h1 : i < (n : Int)) :
    pyIdx n i = some i.toNat := by
  unfold pyIdx
  rw [if_pos h0, if_pos h1]

theorem rect_row_length {b : Board} (hRect : Rect b) {r : Nat} (hr : r < b.length) :
    (b.getD r []).length = width b := by
  rw [List.getD_eq_getElem b [] hr]
  exact hRect.2 _ (List.getElem_mem hr)

theorem pyGet_in_range {b : Board} (hRect : Rect b) {q : Int × Int}
    (h : InBounds b q) : pyGet b q = some (cellAt b (toPos q)) := by
  obtain ⟨h1, h2, h3, h4⟩ := h
  have hr : q.1.toNat < b.length := by
    unfold height at h2; omega
  have h2' : q.1 < (b.length : Int) := h2
  have hrow : (b.getD q.1.toNat []).length = width b := rect_row_length hRect hr
  have h4' : q.2 < ((b.getD q.1.toNat []).length : Int) := by rw [hrow]; exact h4
  rw [pyGet, pyIdx_of_nonneg_lt h1 h2']
  simp only [Option.bind_eq_bind, Option.some_bind]
  rw [pyIdx_of_nonneg_lt h3 h4']
  simp only [Option.bind_eq_bind, Option.some_bind]
  rfl

theorem checkAll_in_range {b : Board} (hRect : Rect b) (t : Char)
    (qs : List (Int × Int)) (hqs : ∀ q ∈ qs, InBounds b q) :
    checkAll b t qs = some (qs.all fun q => cellAt b (toPos q) == t) := by
  induction qs with
  | nil => rfl
  | cons q qs ih =>
    rw [checkAll, pyGet_in_range hRect (hqs q (List.mem_cons_self q qs))]
    simp only [Option.bind_eq_bind, Option.some_bind]
    by_cases hq : cellAt b (toPos q) = t
    · rw [if_neg (by simp [hq])]
      rw [ih (fun q' hq' => hqs q' (List.mem_cons_of_mem q hq'))]
      simp [hq]
    · rw [if_pos (by simp [hq])]
      simp [List.all_cons, hq]

theorem goalTargets_inBounds {b : Board} (hh : 2 ≤ height b) (hw : 3 ≤ width b) :
    ∀ q ∈ goalTargets b, InBounds b q := by
  intro q hq
  simp only [goalTargets, List.mem_cons, List.not_mem_nil, or_false] at hq
  unfold InBounds
  rcases hq with rfl | rfl | rfl | rfl <;>
    refine ⟨by omega, by omega, by omega, by omega⟩

theorem toPos_goalTargets {b : Board} (hh : 2 ≤ height b) :
    (goalTargets b).map toPos = goalPosNat b := by
  unfold goalTargets goalPosNat toPos
  simp only [List.map_cons, List.map_nil]
  have e1 : ((height b : Int) - 2).toNat = height b - 2 := by omega
  have e2 : ((height b : Int) - 1).toNat = height b - 1 := by omega
  rw [e1, e2]
  rfl

theorem goalPosNat_mem_allCells {b : Board} (hh : 2 ≤ height b) (hw : 3 ≤ width b) :
    ∀ p ∈ goalPosNat b, p ∈ allCells b := by
  intro p hp
  rw [mem_allCells]
  simp only [goalPosNat, List.mem_cons, List.not_mem_nil, or_false] at hp
  rcases hp with rfl | rfl | rfl | rfl <;> exact ⟨by omega, by omega⟩

theorem goalPosNat_nodup {b : Board} (hh : 2 ≤ height b) :
    (goalPosNat b).Nodup := by
  unfold goalPosNat
  have : height b - 2 ≠ height b - 1 := by omega
  simp [List.nodup_cons, Prod.ext_iff, this]

/-- Any label with exactly four cells on a well-formed board has shape
`(2, 2)`: the other three table shapes have 1 or 2 cells. -/
theorem shape_of_four {b : Board} (hwf : wellFormed b) {l : Char}
    (hl : l ∈ labelsOf b) (h4 : (cellsOf b l).length = 4) :
    shapeOf (cellsOf b l) = (2, 2) := by
  have hok : pieceOK (l, cellsOf b l) :=
    hwf.2.2.2.1 _ (mem_info.2 ⟨hl, rfl⟩)
  obtain ⟨-, hlen, hshape⟩ := hok
  dsimp only at hlen hshape
  simp only [shapeTable, List.mem_cons, List.not_mem_nil, or_false] at hshape
  rcases hshape with h | h | h | h
  · exact h
  all_goals (exfalso; rw [h] at hlen; simp at hlen; omega)

/-- On a well-formed board at most one label has exactly four cells. -/
theorem four_cell_unique {b : Board} (hwf : wellFormed b) {l t : Char}
    (hl : l ∈ labelsOf b) (ht : t ∈ labelsOf b)
    (h4l : (cellsOf b l).length = 4) (h4t : (cellsOf b t).length = 4) : l = t := by
  by_contra hne
  have h22 : countShape b (2, 2) ≤ 1 := hwf.2.2.2.2.1
  have hcount : countShape b (2, 2) =
      ((labelsOf b).filter (fun l' => decide (shapeOf (cellsOf b l') = (2, 2)))).length := by
    unfold countShape
    rw [info_char, List.filter_map]
    simp only [List.length_map]
    rfl
  set L := (labelsOf b).filter (fun l' => decide (shapeOf (cellsOf b l') = (2, 2))) with hL
  have hlL : l ∈ L := List.mem_filter.2 ⟨hl, by simp [shape_of_four hwf hl h4l]⟩
  have htL : t ∈ L := List.mem_filter.2 ⟨ht, by simp [shape_of_four hwf ht h4t]⟩
  have hsub : ({l, t} : Finset Char) ⊆ L.toFinset := by
    intro x hx
    rcases Finset.mem_insert.1 hx with rfl | hx
    · exact List.mem_toFinset.2 hlL
    · exact List.mem_toFinset.2 ((Finset.mem_singleton.1 hx) ▸ htL)
  have hpair : ({l, t} : Finset Char).card = 2 := by
    rw [Finset.card_insert_of_not_mem (by simp [hne]), Finset.card_singleton]
  have hcard : 2 ≤ L.toFinset.card := hpair ▸ Finset.card_le_card hsub
  have hle : L.toFinset.card ≤ L.length := List.toFinset_card_le L
  omega

/-- On a well-formed board `is_goal` returns a boolean (it does not
raise), true exactly when some piece occupies exactly 4 cells and those
cells are exactly rows `{height-2, height-1}` × columns `{1, 2}`; with no
4-cell piece the returned boolean is `false`. -/
theorem is_goal_char (b : Board) (hwf : wellFormed b) :
    ∃ r, is_goal b = some r ∧ (r = true ↔ goalSpec b) := by
  obtain ⟨hRect, hh, hw, hpieces, h22, h12, h21, h11⟩ := hwf
  have hwf' : wellFormed b := ⟨hRect, hh, hw, hpieces, h22, h12, h21, h11⟩
  have hfind : (piece_counts b).find? (fun e => e.2 == 4) =
      ((labelsOf b).find? (fun l => (cellsOf b l).length == 4)).map
        (fun l => (l, (cellsOf b l).length)) := by
    rw [piece_counts_char, List.find?_map]
    rfl
  cases hfind2 : (labelsOf b).find? (fun l => (cellsOf b l).length == 4) with
  | none =>
    refine ⟨false, ?_, ?_⟩
    · rw [is_goal, hfind, hfind2]
      rfl
    · constructor
      · intro h
        exact absurd h Bool.false_ne_true
      · rintro ⟨l, hl, hlen, -⟩
        have := List.find?_eq_none.1 hfind2 l hl
        simp [hlen] at this
  | some t =>
    have htmem : t ∈ labelsOf b := List.mem_of_find?_eq_some hfind2
    have ht4 : (cellsOf b t).length = 4 := by
      have := List.find?_some hfind2
      simpa using this
    have hgt : is_goal b = checkAll b t (goalTargets b) := by
      rw [is_goal, hfind, hfind2]
      rfl
    rw [hgt, checkAll_in_range hRect t _ (goalTargets_inBounds hh hw)]
    refine ⟨_, rfl, ?_⟩
    rw [List.all_eq_true]
    constructor
    · intro hall
      have hsub : ∀ p' ∈ goalPosNat b, p' ∈ cellsOf b t := by
        intro p' hp'
        have hp'' : p' ∈ (goalTargets b).map toPos := by
          rw [toPos_goalTargets hh]; exact hp'
        rcases List.mem_map.1 hp'' with ⟨q, hq, rfl⟩
        have hc := hall q hq
        rw [beq_iff_eq] at hc
        exact mem_cellsOf.2 ⟨goalPosNat_mem_allCells hh hw _ hp', hc⟩
      have hTC : (goalPosNat b).toFinset ⊆ (cellsOf b t).toFinset := fun x hx =>
        List.mem_toFinset.2 (hsub x (List.mem_toFinset.1 hx))
      have hCcard : (cellsOf b t).toFinset.card = 4 := by
        rw [List.toFinset_card_of_nodup (cellsOf_nodup b t), ht4]
      have hTcard : (goalPosNat b).toFinset.card = 4 := by
        rw [List.toFinset_card_of_nodup (goalPosNat_nodup hh)]
        rfl
      have hEq : (goalPosNat b).toFinset = (cellsOf b t).toFinset :=
        Finset.eq_of_subset_of_card_le hTC (by omega)
      refine ⟨t, htmem, ht4, fun p => ⟨fun hp => ?_, fun hp => hsub p hp⟩⟩
      have hp' : p ∈ (cellsOf b t).toFinset := List.mem_toFinset.2 hp
      rw [← hEq] at hp'
      exact List.mem_toFinset.1 hp'
    · rintro ⟨l, hl, hlen, hiff⟩
      rcases four_cell_unique hwf' hl htmem hlen ht4 with rfl
      intro q hq
      rw [beq_iff_eq]
      have hq' : toPos q ∈ goalPosNat b := by
        rw [← toPos_goalTargets hh]
        exact List.mem_map.2 ⟨q, hq, rfl⟩
      exact (mem_cellsOf.1 ((hiff (toPos q)).2 hq')).2

/-- Claim C5: on a well-formed board the goal test returns a Boolean, and
it returns `true` exactly when some label occupies exactly four cells and
those cells are exactly the four bottom-centre goal cells. -/
theorem is_goal_iff_goalSpec (b : Board) (hwf : wellFormed b) :
    ∃ r, is_goal b = some r ∧ (r = true ↔ goalSpec b) :=
  is_goal_char b hwf

/-- Witness for the claim C5 theorem at a concrete goal board. -/
theorem is_goal_iff_goalSpec_witness :
    wellFormed demoGoalBoard ∧
      ∃ r, is_goal demoGoalBoard = some r ∧ (r = true ↔ goalSpec demoGoalBoard) :=
  ⟨by decide, is_goal_iff_goalSpec demoGoalBoard (by decide)⟩

/-! ## Canonicalisation totality on well-formed boards, and the claims
about construction, the solver's empty-path case, and partiality -/

theorem sig_some_of_wf (b : Board) (hwf : wellFormed b) :
    ∃ cb, get_canonical_board b = some cb := by
  have hall : ((get_piece_info b).all fun pc => decide (shapeOf pc.2 ∈ shapeTable)) = true :=
    List.all_eq_true.2 fun pc hpc => decide_eq_true (hwf.2.2.2.1 pc hpc).2.2
  rw [get_canonical_board, buildGroups, if_pos hall]
  exact ⟨_, rfl⟩

/-- Claim C9: on a well-formed board that already satisfies the goal test,
`solve_puzzle` returns the empty move list, for every fuel value — in
particular with zero fuel, i.e. without a single search expansion. -/
theorem solve_on_goal_returns_empty (b : Board) (fuel : Nat)
    (hwf : wellFormed b) (hg : is_goal b = some true) :
    solve_puzzle fuel b = SolveResult.solution [] := by
  obtain ⟨cb, hcb⟩ := sig_some_of_wf b hwf
  rw [solve_puzzle, hcb, hg]

/-- Witness for the claim C9 theorem: an already-solved board returns the
empty solution even with zero fuel. -/
theorem solve_on_goal_returns_empty_witness :
    wellFormed demoGoalBoard ∧ is_goal demoGoalBoard = some true ∧
      solve_puzzle 0 demoGoalBoard = SolveResult.solution [] :=
  ⟨by decide, by decide,
    solve_on_goal_returns_empty demoGoalBoard 0 (by decide) (by decide)⟩

/-- Claim C10: a board with a 3-wide 1-tall piece is accepted by
construction, yet canonicalisation fails with a lookup error, so
hashing/equality through canonical boards and `solve_puzzle` fail on it. -/
theorem canonicalisation_partial_on_wide_piece :
    constructState wideBoard = some wideBoard ∧
      get_canonical_board wideBoard = none ∧
      stateEq wideBoard wideBoard = none ∧
      ∀ fuel, solve_puzzle fuel wideBoard = SolveResult.err := by
  refine ⟨rfl, by decide, by decide, fun fuel => ?_⟩
  rw [solve_puzzle, (by decide : get_canonical_board wideBoard = none)]

/-- Counterexample to claim C6 as stated: a board whose piece `'A'` is an
L-shape (not a solid rectangle) is accepted by state construction instead
of failing. -/
theorem construction_accepts_nonrectangular_piece :
    constructState lShapeBoard = some lShapeBoard ∧
      ('A', cellsOf lShapeBoard 'A') ∈ get_piece_info lShapeBoard ∧
      ¬ pieceOK ('A', cellsOf lShapeBoard 'A') :=
  ⟨rfl, by decide, by decide⟩

/-- Claim C6 amended: state construction performs no validation at all; it
fails only on an empty row list (`len(board[0])` raises) and accepts every
other input — unequal row lengths, non-rectangular pieces and shape-class
overflow included. -/
theorem constructState_total_on_nonempty (rows : Board) (h : rows ≠ []) :
    constructState rows = some rows := by
  cases rows with
  | nil => exact absurd rfl h
  | cons r rs => rfl

/-- Witness for the amended claim C6 theorem. -/
theorem constructState_total_on_nonempty_witness :
    lShapeBoard ≠ [] ∧ constructState lShapeBoard = some lShapeBoard :=
  ⟨by decide, constructState_total_on_nonempty lShapeBoard (by decide)⟩

/-- Counterexample to claim C7 as stated: with `can_move_piece` false,
`move_piece` does not fail — it silently returns a board (here overwriting
piece `'B'`). -/
theorem move_piece_silent_when_infeasible :
    can_move_piece twoCellBoard 'A' (0, 1) = some false ∧
      move_piece twoCellBoard 'A' (0, 1) = some [['.', 'A']] :=
  ⟨by decide, by decide⟩

/-! ## The effect of `move_piece` on the grid -/

theorem getD_set_self (l : List α) (i : Nat) (a d : α) (h : i < l.length) :
    (l.set i a).getD i d = a := by
  rw [List.getD_eq_getElem _ _ (by rw [List.length_set]; exact h)]
  exact List.getElem_set_self _

theorem getD_set_ne (l : List α) (i j : Nat) (a d : α) (h : i ≠ j) :
    (l.set i a).getD j d = l.getD j d := by
  rcases Nat.lt_or_ge j l.length with hj | hj
  · rw [List.getD_eq_getElem _ _ (by rw [List.length_set]; exact hj),
      List.getD_eq_getElem _ _ hj]
    exact List.getElem_set_ne h _
  · rw [List.getD_eq_default _ _ (by rw [List.length_set]; exact hj),
      List.getD_eq_default _ _ hj]

theorem length_setCell (b : Board) (p : Pos) (v : Char) :
    (setCell b p v).length = b.length := List.length_set ..

theorem rowlen_setCell (b : Board) (p : Pos) (v : Char) (r : Nat) :
    ((setCell b p v).getD r []).length = (b.getD r []).length := by
  unfold setCell
  by_cases hr : p.1 = r
  · subst hr
    by_cases hlt : p.1 < b.length
    · rw [getD_set_self _ _ _ _ hlt, List.length_set]
    · rw [List.getD_eq_default _ _ (by rw [List.length_set]; omega),
        List.getD_eq_default _ _ (by omega)]
  · rw [getD_set_ne _ _ _ _ _ hr]

theorem cellAt_setCell (b : Board) (p q : Pos) (v : Char)
    (hp1 : p.1 < b.length) (hp2 : p.2 < (b.getD p.1 []).length) :
    cellAt (setCell b p v) q = if q = p then v else cellAt b q := by
  unfold cellAt setCell
  by_cases h1 : q.1 = p.1
  · rw [h1, getD_set_self _ _ _ _ hp1]
    by_cases h2 : q.2 = p.2
    · rw [h2, getD_set_self _ _ _ _ hp2, if_pos (Prod.ext h1 h2)]
    · rw [getD_set_ne _ _ _ _ _ (fun hh => h2 hh.symm),
        if_neg (fun hh => h2 (congrArg Prod.snd hh))]
  · rw [getD_set_ne _ _ _ _ _ (fun hh => h1 hh.symm),
      if_neg (fun hh => h1 (congrArg Prod.fst hh))]

theorem cellAt_foldl_setCell (v : Char) :
    ∀ (ps : List Pos) (g : Board),
      (∀ p ∈ ps, p.1 < g.length ∧ p.2 < (g.getD p.1 []).length) →
      ∀ q, cellAt (ps.foldl (fun acc p => setCell acc p v) g) q =
        if q ∈ ps then v else cellAt g q := by
  intro ps
  induction ps with
  | nil => intro g _ q; simp
  | cons p ps ih =>
    intro g hin q
    rw [List.foldl_cons]
    have hg : ∀ p' ∈ ps,
        p'.1 < (setCell g p v).length ∧ p'.2 < ((setCell g p v).getD p'.1 []).length := by
      intro p' hp'
      rw [length_setCell, rowlen_setCell]
      exact hin p' (List.mem_cons_of_mem p hp')
    rw [ih (setCell g p v) hg q]
    have hp := hin p (List.mem_cons_self p ps)
    rw [cellAt_setCell g p q v hp.1 hp.2]
    by_cases hq : q ∈ ps
    · rw [if_pos hq, if_pos (List.mem_cons_of_mem p hq)]
    · rw [if_neg hq]
      by_cases hqp : q = p
      · rw [if_pos hqp, if_pos (hqp ▸ List.mem_cons_self p ps)]
      · rw [if_neg hqp, if_neg (by simp [hq, hqp])]

theorem length_foldl_setCell (v : Char) (ps : List Pos) (g : Board) :
    (ps.foldl (fun acc p => setCell acc p v) g).length = g.length := by
  induction ps generalizing g with
  | nil => rfl
  | cons p ps ih => rw [List.foldl_cons, ih, length_setCell]

theorem rowlen_foldl_setCell (v : Char) (ps : List Pos) (g : Board) (r : Nat) :
    ((ps.foldl (fun acc p => setCell acc p v) g).getD r []).length =
      (g.getD r []).length := by
  induction ps generalizing g with
  | nil => rfl
  | cons p ps ih => rw [List.foldl_cons, ih, rowlen_setCell]

theorem foldlM_option_success {α β : Type} (f : β → α → Option β) (g : β → α → β)
    (P : β → Prop) :
    ∀ (l : List α) (b0 : β), P b0 →
      (∀ bb a, P bb → a ∈ l → f bb a = some (g bb a) ∧ P (g bb a)) →
      l.foldlM f b0 = some (l.foldl g b0) := by
  intro l
  induction l with
  | nil => intro b0 _ _; rfl
  | cons a l ih =>
    intro b0 hP h
    rw [List.foldlM_cons]
    obtain ⟨hf, hP'⟩ := h b0 a hP (List.mem_cons_self a l)
    rw [hf]
    simp only [Option.bind_eq_bind, Option.some_bind]
    rw [List.foldl_cons]
    exact ih (g b0 a) hP' (fun bb a' hbb ha' => h bb a' hbb (List.mem_cons_of_mem a ha'))

theorem pySet_in_range (b : Board) (q : Int × Int) (v : Char)
    (h1 : 0 ≤ q.1) (h2 : q.1 < (b.length : Int))
    (h3 : 0 ≤ q.2) (h4 : q.2 < ((b.getD q.1.toNat []).length : Int)) :
    pySet b q v = some (setCell b (toPos q) v) := by
  rw [pySet, pyIdx_of_nonneg_lt h1 h2]
  simp only [Option.bind_eq_bind, Option.some_bind]
  rw [pyIdx_of_nonneg_lt h3 h4]
  simp only [Option.bind_eq_bind, Option.some_bind]
  rfl

theorem toPos_natCast (p : Pos) : toPos ((p.1 : Int), (p.2 : Int)) = p := by
  unfold toPos
  simp

theorem toPos_mem_allCells {b : Board} {q : Int × Int} (h : InBounds b q) :
    toPos q ∈ allCells b := by
  obtain ⟨h1, h2, h3, h4⟩ := h
  rw [mem_allCells]
  constructor
  · show q.1.toNat < height b
    omega
  · show q.2.toNat < width b
    omega

theorem cellAt_not_mem {b : Board} (hRect : Rect b) {q : Pos}
    (hq : q ∉ allCells b) : cellAt b q = '.' := by
  rw [mem_allCells] at hq
  push_neg at hq
  by_cases h1 : q.1 < height b
  · have h2 : width b ≤ q.2 := hq h1
    have h1' : q.1 < b.length := h1
    unfold cellAt
    apply List.getD_eq_default
    rw [rect_row_length hRect h1']
    exact h2
  · have h1' : b.length ≤ q.1 := by
      have hd : height b = b.length := rfl
      omega
    unfold cellAt
    rw [List.getD_eq_default _ _ h1']
    rfl

theorem clearCells_eq (b : Board) (hRect : Rect b) (ps : List Pos)
    (hps : ∀ p ∈ ps, p ∈ allCells b) :
    clearCells b ps = some (ps.foldl (fun acc p => setCell acc p '.') b) := by
  unfold clearCells
  refine foldlM_option_success _ _
    (fun acc => acc.length = b.length ∧
      ∀ r, (acc.getD r []).length = (b.getD r []).length)
    ps b ⟨rfl, fun _ => rfl⟩ ?_
  intro bb p hbb hp
  have hmem := mem_allCells.1 (hps p hp)
  have hp1 : p.1 < b.length := hmem.1
  have hlen : p.1 < bb.length := by rw [hbb.1]; exact hp1
  have hrow : p.2 < (bb.getD p.1 []).length := by
    rw [hbb.2 p.1, rect_row_length hRect hp1]
    exact hmem.2
  constructor
  · rw [pySet_in_range bb ((p.1 : Int), (p.2 : Int)) '.'
      (show (0 : Int) ≤ (p.1 : Int) by omega)
      (show (p.1 : Int) < (bb.length : Int) by exact_mod_cast hlen)
      (show (0 : Int) ≤ (p.2 : Int) by omega)
      (show (p.2 : Int) < ((bb.getD p.1 []).length : Int) by exact_mod_cast hrow)]
    rw [toPos_natCast]
  · exact ⟨by rw [length_setCell]; exact hbb.1,
      fun r => by rw [rowlen_setCell]; exact hbb.2 r⟩

theorem writeCells_eq (b base : Board) (l : Char) (d : Int × Int) (ps : List Pos)
    (hRect : Rect b) (hlen : base.length = b.length)
    (hrowlen : ∀ r, (base.getD r []).length = (b.getD r []).length)
    (hin : ∀ p ∈ ps, InBounds b (shift d p)) :
    writeCells base l d ps =
      some (ps.foldl (fun acc p => setCell acc (toPos (shift d p)) l) base) := by
  unfold writeCells
  refine foldlM_option_success _ _
    (fun acc => acc.length = b.length ∧
      ∀ r, (acc.getD r []).length = (b.getD r []).length)
    ps base ⟨hlen, hrowlen⟩ ?_
  intro bb p hbb hp
  obtain ⟨hc1, hc2, hc3, hc4⟩ := hin p hp
  have hh : (height b : Int) = (b.length : Int) := rfl
  have hrownat : (shift d p).1.toNat < b.length := by omega
  constructor
  · apply pySet_in_range
    · exact hc1
    · rw [hbb.1]
      exact hc2
    · exact hc3
    · rw [hbb.2, rect_row_length hRect hrownat]
      exact hc4
  · exact ⟨by rw [length_setCell]; exact hbb.1,
      fun r => by rw [rowlen_setCell]; exact hbb.2 r⟩

theorem foldl_setCell_map (ps : List Pos) (h : Pos → Pos) (g : Board) (v : Char) :
    ps.foldl (fun acc p => setCell acc (h p) v) g =
      (ps.map h).foldl (fun acc p => setCell acc p v) g :=
  (List.foldl_map h (fun acc p => setCell acc p v) ps g).symm

/-- The full effect of `move_piece` whenever every translated cell is in
bounds (feasibility of the move is NOT required): the translated cells get
the label, the vacated cells become empty, everything else is unchanged. -/
theorem move_effect (b : Board) (l : Char) (d : Int × Int) (hRect : Rect b)
    (hl : l ∈ labelsOf b) (hin : ∀ p ∈ cellsOf b l, InBounds b (shift d p)) :
    ∃ b2, move_piece b l d = some b2 ∧
      b2.length = b.length ∧ (∀ r, (b2.getD r []).length = (b.getD r []).length) ∧
      (∀ q ∈ movedCells b l d, cellAt b2 q = l) ∧
      (∀ q ∈ cellsOf b l, q ∉ movedCells b l d → cellAt b2 q = '.') ∧
      (∀ q, q ∉ movedCells b l d → q ∉ cellsOf b l → cellAt b2 q = cellAt b q) := by
  have hps : ∀ p ∈ cellsOf b l, p ∈ allCells b := fun p hp => (mem_cellsOf.1 hp).1
  have hmove : move_piece b l d =
      writeCells ((cellsOf b l).foldl (fun acc p => setCell acc p '.') b) l d
        (cellsOf b l) := by
    rw [move_piece, positionsOf_eq_some hl]
    simp only [Option.bind_eq_bind, Option.some_bind]
    rw [clearCells_eq b hRect (cellsOf b l) hps]
    simp only [Option.bind_eq_bind, Option.some_bind]
  set b1 := (cellsOf b l).foldl (fun acc p => setCell acc p '.') b with hb1def
  have hb1len : b1.length = b.length := length_foldl_setCell _ _ _
  have hb1row : ∀ r, (b1.getD r []).length = (b.getD r []).length :=
    rowlen_foldl_setCell _ _ _
  have hb1cell : ∀ q, cellAt b1 q = if q ∈ cellsOf b l then '.' else cellAt b q := by
    intro q
    refine cellAt_foldl_setCell '.' (cellsOf b l) b ?_ q
    intro p hp
    have hm := mem_allCells.1 (hps p hp)
    exact ⟨hm.1, by rw [rect_row_length hRect hm.1]; exact hm.2⟩
  rw [hmove, writeCells_eq b b1 l d (cellsOf b l) hRect hb1len hb1row hin]
  set b2 := (cellsOf b l).foldl (fun acc p => setCell acc (toPos (shift d p)) l) b1
    with hb2def
  have hb2map : b2 = (movedCells b l d).foldl (fun acc p => setCell acc p l) b1 := by
    rw [hb2def, movedCells, foldl_setCell_map]
  have hb2len : b2.length = b.length := by
    rw [hb2map, length_foldl_setCell, hb1len]
  have hb2row : ∀ r, (b2.getD r []).length = (b.getD r []).length := by
    intro r
    rw [hb2map, rowlen_foldl_setCell, hb1row]
  have hb2cell : ∀ q, cellAt b2 q =
      if q ∈ movedCells b l d then l else cellAt b1 q := by
    intro q
    rw [hb2map]
    refine cellAt_foldl_setCell l (movedCells b l d) b1 ?_ q
    intro p hp
    rcases List.mem_map.1 hp with ⟨p0, hp0, rfl⟩
    have hm := mem_allCells.1 (toPos_mem_allCells (hin p0 hp0))
    refine ⟨by rw [hb1len]; exact hm.1, ?_⟩
    rw [hb1row, rect_row_length hRect hm.1]
    exact hm.2
  refine ⟨b2, rfl, hb2len, hb2row, ?_, ?_, ?_⟩
  · intro q hq
    rw [hb2cell, if_pos hq]
  · intro q hq hq2
    rw [hb2cell, if_neg hq2, hb1cell, if_pos hq]
  · intro q hq1 hq2
    rw [hb2cell, if_neg hq1, hb1cell, if_neg hq2]

theorem can_move_true_iff {b : Board} {l : Char} {d : Int × Int} (h : l ∈ labelsOf b) :
    can_move_piece b l d = some true ↔ canMoveSpec b l d := by
  rw [can_move_piece_eq_all b l d h, Option.some_inj, List.all_eq_true]
  constructor
  · intro hall p hp hcell
    exact (can_move_check_iff b l _).1
      (hall (shift d p) (List.mem_map.2 ⟨p, mem_cellsOf.2 ⟨hp, hcell⟩, rfl⟩))
  · intro hspec q hq
    rcases List.mem_map.1 hq with ⟨p, hp, rfl⟩
    rcases mem_cellsOf.1 hp with ⟨hpin, hpc⟩
    exact (can_move_check_iff b l _).2 (hspec p hpin hpc)

theorem width_eq_getD (b : Board) : width b = (b.getD 0 []).length := by
  cases b <;> rfl

theorem rect_of_dims {b b2 : Board} (hRect : Rect b) (hlen : b2.length = b.length)
    (hrow : ∀ r, (b2.getD r []).length = (b.getD r []).length) :
    Rect b2 ∧ height b2 = height b ∧ width b2 = width b := by
  have hh : height b2 = height b := hlen
  have hw : width b2 = width b := by
    rw [width_eq_getD, width_eq_getD, hrow 0]
  refine ⟨⟨?_, ?_⟩, hh, hw⟩
  · intro hnil
    apply hRect.1
    rw [hnil] at hlen
    exact List.length_eq_zero.1 hlen.symm
  · intro row hrowmem
    rcases List.mem_iff_getElem.1 hrowmem with ⟨i, hi, rfl⟩
    have hi' : i < b.length := by rw [← hlen]; exact hi
    rw [hw, ← List.getD_eq_getElem b2 [] hi, hrow i, rect_row_length hRect hi']

theorem allCells_congr {b b2 : Board} (hh : height b2 = height b)
    (hw : width b2 = width b) : allCells b2 = allCells b := by
  unfold allCells
  rw [hh, hw]

theorem row_ext {r1 r2 : List Char} (hlen : r1.length = r2.length)
    (h : ∀ c, r1.getD c '.' = r2.getD c '.') : r1 = r2 := by
  apply List.ext_getElem hlen
  intro i h1 h2
  have hi := h i
  rw [List.getD_eq_getElem r1 '.' h1, List.getD_eq_getElem r2 '.' h2] at hi
  exact hi

theorem board_ext {b1 b2 : Board} (hlen : b1.length = b2.length)
    (hrow : ∀ r, (b1.getD r []).length = (b2.getD r []).length)
    (hcell : ∀ q, cellAt b1 q = cellAt b2 q) : b1 = b2 := by
  apply List.ext_getElem hlen
  intro r h1 h2
  rw [← List.getD_eq_getElem b1 [] h1, ← List.getD_eq_getElem b2 [] h2]
  exact row_ext (hrow r) (fun c => hcell (r, c))

theorem shift_neg_toPos (d : Int × Int) (p : Pos)
    (h1 : 0 ≤ (shift d p).1) (h2 : 0 ≤ (shift d p).2) :
    shift (-d.1, -d.2) (toPos (shift d p)) = ((p.1 : Int), (p.2 : Int)) := by
  simp only [shift] at h1 h2
  simp only [shift, toPos, Prod.mk.injEq]
  constructor <;> omega

theorem toPos_shift_neg (d : Int × Int) (p : Pos)
    (h1 : 0 ≤ (shift d p).1) (h2 : 0 ≤ (shift d p).2) :
    toPos (shift (-d.1, -d.2) (toPos (shift d p))) = p := by
  rw [shift_neg_toPos d p h1 h2, toPos_natCast]

/-- The combined specification of a feasible `move_piece`: success, grid
dimensions preserved, the label afterwards occupies exactly the translated
cells, vacated cells are empty, everything else is untouched. -/
theorem move_result_spec (b : Board) (l : Char) (d : Int × Int)
    (hRect : Rect b) (hl : l ∈ labelsOf b)
    (hcan : can_move_piece b l d = some true) :
    ∃ b2, move_piece b l d = some b2 ∧
      b2.length = b.length ∧ (∀ r, (b2.getD r []).length = (b.getD r []).length) ∧
      (∀ q, cellAt b2 q = l ↔ q ∈ movedCells b l d) ∧
      (∀ q ∈ cellsOf b l, q ∉ movedCells b l d → cellAt b2 q = '.') ∧
      (∀ q, q ∉ movedCells b l d → q ∉ cellsOf b l → cellAt b2 q = cellAt b q) := by
  have hspec := (can_move_true_iff hl).1 hcan
  have hin : ∀ p ∈ cellsOf b l, InBounds b (shift d p) := fun p hp =>
    (hspec p (mem_cellsOf.1 hp).1 (mem_cellsOf.1 hp).2).1
  obtain ⟨b2, hmv, hlen, hrow, hA, hB, hC⟩ := move_effect b l d hRect hl hin
  have hldot : l ≠ '.' := labelsOf_ne_dot b l hl
  refine ⟨b2, hmv, hlen, hrow, ?_, hB, hC⟩
  intro q
  constructor
  · intro hq
    by_contra hq2
    by_cases hq3 : q ∈ cellsOf b l
    · rw [hB q hq3 hq2] at hq
      exact hldot hq.symm
    · rw [hC q hq2 hq3] at hq
      by_cases hq4 : q ∈ allCells b
      · exact hq3 (mem_cellsOf.2 ⟨hq4, hq⟩)
      · rw [cellAt_not_mem hRect hq4] at hq
        exact hldot hq.symm
  · exact hA q

/-- Claim C8: when `can_move_piece` holds, `move_piece` returns a new
board in which the label occupies exactly the translated cells, the
vacated cells are empty, and every other cell is unchanged.  The source
board itself is left unmodified: boards in this embedding are immutable
values, matching the fact that the Python method writes only to the fresh
copy produced by `self.copy()`. -/
theorem move_piece_frame (b : Board) (l : Char) (d : Int × Int)
    (hRect : Rect b) (hl : l ∈ labelsOf b)
    (hcan : can_move_piece b l d = some true) :
    ∃ b2, move_piece b l d = some b2 ∧
      (∀ q, cellAt b2 q = l ↔ q ∈ movedCells b l d) ∧
      (∀ q ∈ cellsOf b l, q ∉ movedCells b l d → cellAt b2 q = '.') ∧
      (∀ q, q ∉ movedCells b l d → q ∉ cellsOf b l → cellAt b2 q = cellAt b q) := by
  obtain ⟨b2, hmv, -, -, hIff, hB, hC⟩ := move_result_spec b l d hRect hl hcan
  exact ⟨b2, hmv, hIff, hB, hC⟩

/-- Witness for the claim C8 theorem at a concrete feasible move. -/
theorem move_piece_frame_witness :
    (Rect demoStartBoard ∧ 'B' ∈ labelsOf demoStartBoard ∧
        can_move_piece demoStartBoard 'B' (0, 1) = some true) ∧
      ∃ b2, move_piece demoStartBoard 'B' (0, 1) = some b2 ∧
        (∀ q, cellAt b2 q = 'B' ↔ q ∈ movedCells demoStartBoard 'B' (0, 1)) ∧
        (∀ q ∈ cellsOf demoStartBoard 'B',
          q ∉ movedCells demoStartBoard 'B' (0, 1) → cellAt b2 q = '.') ∧
        (∀ q, q ∉ movedCells demoStartBoard 'B' (0, 1) →
          q ∉ cellsOf demoStartBoard 'B' → cellAt b2 q = cellAt demoStartBoard q) :=
  ⟨⟨by decide, by decide, by decide⟩,
    move_piece_frame demoStartBoard 'B' (0, 1) (by decide) (by decide) (by decide)⟩

/-- Claim C7 amended: `move_piece` performs no feasibility check and has
no dedicated move error: whenever the label is present and every
translated cell is in bounds, it returns a board even if `can_move_piece`
is false (silently overwriting any occupant); an infeasible move can fail
only with an out-of-range `IndexError` on a write, never an
`InvalidMove`. -/
theorem move_piece_total_of_inbounds (b : Board) (l : Char) (d : Int × Int)
    (hRect : Rect b) (hl : l ∈ labelsOf b)
    (hin : ∀ p ∈ cellsOf b l, InBounds b (shift d p)) :
    ∃ b2, move_piece b l d = some b2 := by
  obtain ⟨b2, hmv, -⟩ := move_effect b l d hRect hl hin
  exact ⟨b2, hmv⟩

/-- Witness for the amended claim C7 theorem, at a move that is infeasible
(the target cell holds another piece) yet returns a board. -/
theorem move_piece_total_of_inbounds_witness :
    (Rect twoCellBoard ∧ 'A' ∈ labelsOf twoCellBoard ∧
        (∀ p ∈ cellsOf twoCellBoard 'A', InBounds twoCellBoard (shift (0, 1) p))) ∧
      ∃ b2, move_piece twoCellBoard 'A' (0, 1) = some b2 :=
  ⟨⟨by decide, by decide, by decide⟩,
    move_piece_total_of_inbounds twoCellBoard 'A' (0, 1) (by decide) (by decide) (by decide)⟩

/-- Claim C4: a feasible move is reversible: on the board it produces, the
opposite direction is feasible for the same label, and applying it yields
a board whose canonical signature is that of the original (the proof shows
the stronger fact that the original board itself is restored). -/
theorem move_piece_reversible (b : Board) (l : Char) (d : Int × Int)
    (hRect : Rect b) (hl : l ∈ labelsOf b)
    (hcan : can_move_piece b l d = some true) :
    ∃ b2, move_piece b l d = some b2 ∧
      can_move_piece b2 l (-d.1, -d.2) = some true ∧
      ∃ b3, move_piece b2 l (-d.1, -d.2) = some b3 ∧
        get_canonical_board b3 = get_canonical_board b := by
  have hspec := (can_move_true_iff hl).1 hcan
  have hin : ∀ p ∈ cellsOf b l, InBounds b (shift d p) := fun p hp =>
    (hspec p (mem_cellsOf.1 hp).1 (mem_cellsOf.1 hp).2).1
  obtain ⟨b2, hmv, hlen2, hrow2, hIff, hB, hC⟩ := move_result_spec b l d hRect hl hcan
  obtain ⟨hRect2, hh2, hw2⟩ := rect_of_dims hRect hlen2 hrow2
  have hAC : allCells b2 = allCells b := allCells_congr hh2 hw2
  have hldot : l ≠ '.' := labelsOf_ne_dot b l hl
  obtain ⟨-, p0, hp0in, hp0c⟩ := mem_labelsOf.1 hl
  have hp0 : p0 ∈ cellsOf b l := mem_cellsOf.2 ⟨hp0in, hp0c⟩
  have hl2 : l ∈ labelsOf b2 := by
    rw [mem_labelsOf]
    refine ⟨hldot, toPos (shift d p0), ?_, ?_⟩
    · rw [hAC]
      exact toPos_mem_allCells (hin p0 hp0)
    · exact (hIff _).2 (List.mem_map.2 ⟨p0, hp0, rfl⟩)
  have hcells2 : ∀ q, q ∈ cellsOf b2 l ↔ q ∈ movedCells b l d := by
    intro q
    rw [mem_cellsOf, hAC]
    constructor
    · rintro ⟨-, hq⟩
      exact (hIff q).1 hq
    · intro hq
      refine ⟨?_, (hIff q).2 hq⟩
      rcases List.mem_map.1 hq with ⟨p, hp, rfl⟩
      exact toPos_mem_allCells (hin p hp)
  have hspec2 : canMoveSpec b2 l (-d.1, -d.2) := by
    intro q hq hql
    have hqm : q ∈ movedCells b l d := (hIff q).1 hql
    rcases List.mem_map.1 hqm with ⟨p, hp, rfl⟩
    have hinp := hin p hp
    have hpin := mem_allCells.1 (mem_cellsOf.1 hp).1
    have hback : shift (-d.1, -d.2) (toPos (shift d p)) = ((p.1 : Int), (p.2 : Int)) :=
      shift_neg_toPos d p hinp.1 hinp.2.2.1
    rw [hback]
    constructor
    · refine ⟨?_, ?_, ?_, ?_⟩
      · show (0 : Int) ≤ (p.1 : Int)
        omega
      · show (p.1 : Int) < (height b2 : Int)
        rw [hh2]
        exact_mod_cast hpin.1
      · show (0 : Int) ≤ (p.2 : Int)
        omega
      · show (p.2 : Int) < (width b2 : Int)
        rw [hw2]
        exact_mod_cast hpin.2
    · rw [toPos_natCast]
      by_cases hpm : p ∈ movedCells b l d
      · exact Or.inr ((hIff p).2 hpm)
      · exact Or.inl (hB p hp hpm)
  have hcan2 : can_move_piece b2 l (-d.1, -d.2) = some true :=
    (can_move_true_iff hl2).2 hspec2
  obtain ⟨b3, hmv3, hlen3, hrow3, hIff3, hB3, hC3⟩ :=
    move_result_spec b2 l (-d.1, -d.2) hRect2 hl2 hcan2
  have hM2 : ∀ q', q' ∈ movedCells b2 l (-d.1, -d.2) ↔ q' ∈ cellsOf b l := by
    intro q'
    constructor
    · intro hq'
      rcases List.mem_map.1 hq' with ⟨p2, hp2, rfl⟩
      rcases List.mem_map.1 ((hcells2 p2).1 hp2) with ⟨p, hp, rfl⟩
      have hinp := hin p hp
      rw [toPos_shift_neg d p hinp.1 hinp.2.2.1]
      exact hp
    · intro hq'
      have hinq := hin q' hq'
      refine List.mem_map.2 ⟨toPos (shift d q'), ?_, ?_⟩
      · exact (hcells2 _).2 (List.mem_map.2 ⟨q', hq', rfl⟩)
      · exact toPos_shift_neg d q' hinq.1 hinq.2.2.1
  refine ⟨b2, hmv, hcan2, b3, hmv3, ?_⟩
  have hb3 : b3 = b := by
    refine board_ext (by rw [hlen3, hlen2]) (fun r => by rw [hrow3 r, hrow2 r]) ?_
    intro q
    by_cases hq1 : q ∈ cellsOf b l
    · rw [(hIff3 q).2 ((hM2 q).2 hq1), (mem_cellsOf.1 hq1).2]
    · by_cases hq2 : q ∈ cellsOf b2 l
      · rw [hB3 q hq2 (fun hc => hq1 ((hM2 q).1 hc))]
        have hqm : q ∈ movedCells b l d := (hcells2 q).1 hq2
        rcases List.mem_map.1 hqm with ⟨p, hp, rfl⟩
        rcases (hspec p (mem_cellsOf.1 hp).1 (mem_cellsOf.1 hp).2).2 with hdot | hlab
        · rw [hdot]
        · exfalso
          apply hq1
          exact mem_cellsOf.2 ⟨toPos_mem_allCells (hin p hp), hlab⟩
      · rw [hC3 q (fun hc => hq1 ((hM2 q).1 hc)) hq2]
        exact hC q (fun hc => hq2 ((hcells2 q).2 hc)) hq1
  rw [hb3]

/-- Witness for the claim C4 theorem at a concrete feasible move. -/
theorem move_piece_reversible_witness :
    (Rect demoStartBoard ∧ 'B' ∈ labelsOf demoStartBoard ∧
        can_move_piece demoStartBoard 'B' (0, 1) = some true) ∧
      ∃ b2, move_piece demoStartBoard 'B' (0, 1) = some b2 ∧
        can_move_piece b2 'B' (-(0 : Int), -(1 : Int)) = some true ∧
        ∃ b3, move_piece b2 'B' (-(0 : Int), -(1 : Int)) = some b3 ∧
          get_canonical_board b3 = get_canonical_board demoStartBoard :=
  ⟨⟨by decide, by decide, by decide⟩,
    move_piece_reversible demoStartBoard 'B' (0, 1) (by decide) (by decide) (by decide)⟩

/-! ## Canonical stability under relabelling (claim C2) -/

theorem getD_map {α β : Type} (f : α → β) (l : List α) (i : Nat) (d : α) :
    (l.map f).getD i (f d) = f (l.getD i d) := by
  rcases Nat.lt_or_ge i l.length with h | h
  · rw [List.getD_eq_getElem _ _ (by rw [List.length_map]; exact h),
      List.getD_eq_getElem _ _ h]
    exact List.getElem_map f
  · rw [List.getD_eq_default _ _ (by rw [List.length_map]; exact h),
      List.getD_eq_default _ _ h]

theorem cellAt_mapBoard (σ : Char → Char) (hdot : σ '.' = '.') (b : Board) (p : Pos) :
    cellAt (mapBoard σ b) p = σ (cellAt b p) := by
  unfold cellAt mapBoard
  have h1 : (b.map (List.map σ)).getD p.1 [] = List.map σ (b.getD p.1 []) := by
    have h := getD_map (List.map σ) b p.1 []
    simpa using h
  rw [h1]
  conv_lhs => rw [show ('.' : Char) = σ '.' from hdot.symm]
  exact getD_map σ _ p.2 '.'

theorem height_mapBoard (σ : Char → Char) (b : Board) :
    height (mapBoard σ b) = height b := List.length_map ..

theorem width_mapBoard (σ : Char → Char) (b : Board) :
    width (mapBoard σ b) = width b := by
  rw [width_eq_getD, width_eq_getD]
  have h := getD_map (List.map σ) b 0 []
  simp only [List.map_nil] at h
  rw [show (mapBoard σ b).getD 0 [] = List.map σ (b.getD 0 []) from h, List.length_map]

theorem allCells_mapBoard (σ : Char → Char) (b : Board) :
    allCells (mapBoard σ b) = allCells b :=
  allCells_congr (height_mapBoard σ b) (width_mapBoard σ b)

theorem labelsFold_map (σ : Char → Char) (hinj : Function.Injective σ)
    (hdot : σ '.' = '.') (b : Board) (cells : List Pos) :
    ∀ acc : List Char,
      cells.foldl (fun acc p =>
          if σ (cellAt b p) = '.' ∨ σ (cellAt b p) ∈ acc then acc
          else acc ++ [σ (cellAt b p)]) (acc.map σ) =
        (cells.foldl (fun acc p =>
          if cellAt b p = '.' ∨ cellAt b p ∈ acc then acc else acc ++ [cellAt b p]) acc).map σ := by
  induction cells with
  | nil => intro acc; rfl
  | cons p cells ih =>
    intro acc
    simp only [List.foldl_cons]
    have hcond : (σ (cellAt b p) = '.' ∨ σ (cellAt b p) ∈ acc.map σ) ↔
        (cellAt b p = '.' ∨ cellAt b p ∈ acc) := by
      constructor
      · rintro (h | h)
        · exact Or.inl (hinj (h.trans hdot.symm))
        · right
          rcases List.mem_map.1 h with ⟨a, ha, he⟩
          exact hinj he ▸ ha
      · rintro (h | h)
        · exact Or.inl (by rw [h, hdot])
        · exact Or.inr (List.mem_map_of_mem σ h)
    by_cases hc : cellAt b p = '.' ∨ cellAt b p ∈ acc
    · rw [if_pos (hcond.2 hc), if_pos hc]
      exact ih acc
    · rw [if_neg (fun hh => hc (hcond.1 hh)), if_neg hc]
      have happ : acc.map σ ++ [σ (cellAt b p)] = (acc ++ [cellAt b p]).map σ := by simp
      rw [happ]
      exact ih (acc ++ [cellAt b p])

theorem foldl_funcongr {α β : Type} (f g : β → α → β) :
    ∀ (l : List α) (a : β), (∀ acc x, x ∈ l → f acc x = g acc x) →
      l.foldl f a = l.foldl g a := by
  intro l
  induction l with
  | nil => intro a _; rfl
  | cons x l ih =>
    intro a h
    rw [List.foldl_cons, List.foldl_cons, h a x (List.mem_cons_self x l)]
    exact ih _ (fun acc y hy => h acc y (List.mem_cons_of_mem x hy))

theorem labelsOf_mapBoard (σ : Char → Char) (hinj : Function.Injective σ)
    (hdot : σ '.' = '.') (b : Board) :
    labelsOf (mapBoard σ b) = (labelsOf b).map σ := by
  unfold labelsOf labelsAux
  rw [allCells_mapBoard σ b]
  have h := labelsFold_map σ hinj hdot b (allCells b) []
  simp only [List.map_nil] at h
  rw [← h]
  refine foldl_funcongr _ _ _ _ ?_
  intro acc p _
  rw [cellAt_mapBoard σ hdot]

theorem cellsOf_mapBoard (σ : Char → Char) (hinj : Function.Injective σ)
    (hdot : σ '.' = '.') (b : Board) (l : Char) :
    cellsOf (mapBoard σ b) (σ l) = cellsOf b l := by
  unfold cellsOf
  rw [allCells_mapBoard σ b]
  refine List.filter_congr ?_
  intro p _
  rw [cellAt_mapBoard σ hdot]
  simp [hinj.eq_iff]

theorem info_mapBoard (σ : Char → Char) (hinj : Function.Injective σ)
    (hdot : σ '.' = '.') (b : Board) :
    get_piece_info (mapBoard σ b) =
      (get_piece_info b).map (fun pc => (σ pc.1, pc.2)) := by
  rw [info_char, info_char, labelsOf_mapBoard σ hinj hdot b, List.map_map, List.map_map]
  refine List.map_congr_left fun l _ => ?_
  simp only [Function.comp]
  rw [cellsOf_mapBoard σ hinj hdot b l]

theorem buildGroups_map (info : List (Char × List Pos))
    (f : Char × List Pos → Char × List Pos) (hf : ∀ pc, (f pc).2 = pc.2) :
    buildGroups (info.map f) =
      (buildGroups info).map fun gs =>
        ⟨gs.s22.map f, gs.s12.map f, gs.s21.map f, gs.s11.map f⟩ := by
  unfold buildGroups
  have hall : ((info.map f).all fun pc => decide (shapeOf pc.2 ∈ shapeTable)) =
      (info.all fun pc => decide (shapeOf pc.2 ∈ shapeTable)) := by
    rw [List.all_map]
    refine congrArg _ ?_
    funext pc
    simp [Function.comp, hf pc]
  rw [hall]
  have hfil : ∀ s : Nat × Nat,
      (info.map f).filter (fun pc => decide (shapeOf pc.2 = s)) =
        (info.filter (fun pc => decide (shapeOf pc.2 = s))).map f := by
    intro s
    rw [List.filter_map]
    refine congrArg _ (List.filter_congr fun pc _ => ?_)
    simp [Function.comp, hf pc]
  by_cases h : (info.all fun pc => decide (shapeOf pc.2 ∈ shapeTable)) = true
  · rw [if_pos h, if_pos h, Option.map_some']
    refine congrArg some ?_
    rw [hfil, hfil, hfil, hfil]
  · rw [if_neg h, if_neg h]
    rfl

theorem insertSorted_map {α β : Type} (f : α → β) (le : α → α → Bool)
    (le' : β → β → Bool) (hle : ∀ a b, le' (f a) (f b) = le a b) (a : α) :
    ∀ l : List α, insertSorted le' (f a) (l.map f) = (insertSorted le a l).map f := by
  intro l
  induction l with
  | nil => rfl
  | cons x l ih =>
    simp only [List.map_cons, insertSorted, hle]
    by_cases h : le a x
    · rw [if_pos h, if_pos h]
      rfl
    · rw [if_neg h, if_neg h, List.map_cons, ih]

theorem sortByKey_map {α β : Type} (f : α → β) (le : α → α → Bool)
    (le' : β → β → Bool) (hle : ∀ a b, le' (f a) (f b) = le a b) :
    ∀ l : List α, sortByKey le' (l.map f) = (sortByKey le l).map f := by
  intro l
  induction l with
  | nil => rfl
  | cons x l ih =>
    simp only [List.map_cons, sortByKey]
    rw [ih]
    exact insertSorted_map f le le' hle x (sortByKey le l)

theorem sortGroup_map (f : Char × List Pos → Char × List Pos)
    (hf : ∀ pc, (f pc).2 = pc.2) (g : List (Char × List Pos)) :
    sortGroup (g.map f) = (sortGroup g).map f := by
  refine sortByKey_map f keyLe keyLe ?_ g
  intro a b
  unfold keyLe pieceKey
  rw [hf a, hf b]

theorem paintGroup_map (g : Board) (labels : List Char)
    (pieces : List (Char × List Pos)) (f : Char × List Pos → Char × List Pos)
    (hf : ∀ pc, (f pc).2 = pc.2) :
    paintGroup g labels (pieces.map f) = paintGroup g labels pieces := by
  unfold paintGroup
  rw [List.enum_map, List.foldl_map]
  refine foldl_funcongr _ _ _ _ ?_
  intro acc ie _
  simp [Prod.map, hf]

theorem canonical_mapBoard (σ : Char → Char) (hinj : Function.Injective σ)
    (hdot : σ '.' = '.') (b : Board) :
    get_canonical_board (mapBoard σ b) = get_canonical_board b := by
  unfold get_canonical_board
  rw [info_mapBoard σ hinj hdot b,
    buildGroups_map (get_piece_info b) (fun pc => (σ pc.1, pc.2)) (fun pc => rfl)]
  cases hbg : buildGroups (get_piece_info b) with
  | none => rfl
  | some gs =>
    simp only [Option.map_some', Option.bind_eq_bind, Option.some_bind]
    rw [height_mapBoard, width_mapBoard]
    rw [sortGroup_map (fun pc => (σ pc.1, pc.2)) (fun pc => rfl) gs.s22,
      sortGroup_map (fun pc => (σ pc.1, pc.2)) (fun pc => rfl) gs.s12,
      sortGroup_map (fun pc => (σ pc.1, pc.2)) (fun pc => rfl) gs.s21,
      sortGroup_map (fun pc => (σ pc.1, pc.2)) (fun pc => rfl) gs.s11]
    rw [paintGroup_map _ _ _ (fun pc => (σ pc.1, pc.2)) (fun pc => rfl),
      paintGroup_map _ _ _ (fun pc => (σ pc.1, pc.2)) (fun pc => rfl),
      paintGroup_map _ _ _ (fun pc => (σ pc.1, pc.2)) (fun pc => rfl),
      paintGroup_map _ _ _ (fun pc => (σ pc.1, pc.2)) (fun pc => rfl)]

theorem swapChars_injective (x y : Char) : Function.Injective (swapChars x y) := by
  intro a b h
  unfold swapChars at h
  split_ifs at h <;> simp_all

/-- Claim C2: relabelling the pieces of a well-formed board by a bijection
on labels that fixes the empty cell — in particular any bijection within
each shape class, which leaves every piece's occupied cells unchanged —
yields a board with the same canonical signature.  (The proof shows the
stronger fact that any injective relabelling works, shape classes being
determined by the unchanged cells.) -/
theorem canonical_stable_under_relabel (b : Board) (σ : Char → Char)
    (_hwf : wellFormed b) (hinj : Function.Injective σ) (hdot : σ '.' = '.') :
    get_canonical_board (mapBoard σ b) = get_canonical_board b :=
  canonical_mapBoard σ hinj hdot b

/-- Witness for the claim C2 theorem: swapping the two 1×1 pieces `'Y'`
and `'Z'` of preset board 1. -/
theorem canonical_stable_under_relabel_witness :
    (wellFormed presetBoard1 ∧ Function.Injective (swapChars 'Y' 'Z') ∧
        swapChars 'Y' 'Z' '.' = '.') ∧
      get_canonical_board (mapBoard (swapChars 'Y' 'Z') presetBoard1) =
        get_canonical_board presetBoard1 :=
  ⟨⟨by decide, swapChars_injective 'Y' 'Z', by decide⟩,
    canonical_stable_under_relabel presetBoard1 (swapChars 'Y' 'Z') (by decide)
      (swapChars_injective 'Y' 'Z') (by decide)⟩

/-! ## Legal moves preserve well-formedness (towards claim C1) -/

theorem labelsOf_of_canMove {b : Board} {l : Char} {d : Int × Int}
    (h : can_move_piece b l d = some true) : l ∈ labelsOf b := by
  by_contra hl
  rw [can_move_piece, positionsOf_eq, if_neg hl] at h
  simp at h

theorem cellsOf_ne_nil {b : Board} {l : Char} (hl : l ∈ labelsOf b) :
    cellsOf b l ≠ [] := by
  obtain ⟨-, p, hp, hc⟩ := mem_labelsOf.1 hl
  exact List.ne_nil_of_mem (mem_cellsOf.2 ⟨hp, hc⟩)

theorem foldl_min_le (l : List Nat) :
    ∀ a, l.foldl min a ≤ a ∧ ∀ x ∈ l, l.foldl min a ≤ x := by
  induction l with
  | nil => exact fun a => ⟨le_refl a, fun x hx => absurd hx (List.not_mem_nil x)⟩
  | cons y l ih =>
    intro a
    rw [List.foldl_cons]
    refine ⟨le_trans (ih (min a y)).1 (min_le_left a y), ?_⟩
    intro x hx
    rcases List.mem_cons.1 hx with rfl | hx
    · exact le_trans (ih (min a x)).1 (min_le_right a x)
    · exact (ih (min a y)).2 x hx

theorem foldl_min_mem (l : List Nat) :
    ∀ a, l.foldl min a = a ∨ l.foldl min a ∈ l := by
  induction l with
  | nil => exact fun a => Or.inl rfl
  | cons y l ih =>
    intro a
    rw [List.foldl_cons]
    rcases ih (min a y) with he | hm
    · rw [he]
      rcases le_total a y with h | h
      · exact Or.inl (min_eq_left h)
      · exact Or.inr (by rw [min_eq_right h]; exact List.mem_cons_self y l)
    · exact Or.inr (List.mem_cons_of_mem y hm)

theorem foldl_max_ge (l : List Nat) :
    ∀ a, a ≤ l.foldl max a ∧ ∀ x ∈ l, x ≤ l.foldl max a := by
  induction l with
  | nil => exact fun a => ⟨le_refl a, fun x hx => absurd hx (List.not_mem_nil x)⟩
  | cons y l ih =>
    intro a
    rw [List.foldl_cons]
    refine ⟨le_trans (le_max_left a y) (ih (max a y)).1, ?_⟩
    intro x hx
    rcases List.mem_cons.1 hx with rfl | hx
    · exact le_trans (le_max_right a x) (ih (max a x)).1
    · exact (ih (max a y)).2 x hx

theorem foldl_max_mem (l : List Nat) :
    ∀ a, l.foldl max a = a ∨ l.foldl max a ∈ l := by
  induction l with
  | nil => exact fun a => Or.inl rfl
  | cons y l ih =>
    intro a
    rw [List.foldl_cons]
    rcases ih (max a y) with he | hm
    · rw [he]
      rcases le_total a y with h | h
      · exact Or.inr (by rw [max_eq_right h]; exact List.mem_cons_self y l)
      · exact Or.inl (max_eq_left h)
    · exact Or.inr (List.mem_cons_of_mem y hm)

theorem natMin_le {l : List Nat} {x : Nat} (hx : x ∈ l) : natMin l ≤ x :=
  (foldl_min_le l _).2 x hx

theorem natMin_mem {l : List Nat} (h : l ≠ []) : natMin l ∈ l := by
  cases l with
  | nil => exact absurd rfl h
  | cons a t =>
    rcases foldl_min_mem (a :: t) ((a :: t).headD 0) with he | hm
    · rw [natMin, he]
      exact List.mem_cons_self a t
    · exact hm

theorem natMax_ge {l : List Nat} {x : Nat} (hx : x ∈ l) : x ≤ natMax l :=
  (foldl_max_ge l _).2 x hx

theorem natMax_mem {l : List Nat} (h : l ≠ []) : natMax l ∈ l := by
  cases l with
  | nil => exact absurd rfl h
  | cons a t =>
    rcases foldl_max_mem (a :: t) ((a :: t).headD 0) with he | hm
    · rw [natMax, he]
      exact List.mem_cons_self a t
    · exact hm

theorem natMin_congr {l1 l2 : List Nat} (h1 : l1 ≠ []) (h2 : l2 ≠ [])
    (hm : ∀ x, x ∈ l1 ↔ x ∈ l2) : natMin l1 = natMin l2 :=
  le_antisymm (natMin_le ((hm _).2 (natMin_mem h2)))
    (natMin_le ((hm _).1 (natMin_mem h1)))

theorem natMax_congr {l1 l2 : List Nat} (h1 : l1 ≠ []) (h2 : l2 ≠ [])
    (hm : ∀ x, x ∈ l1 ↔ x ∈ l2) : natMax l1 = natMax l2 :=
  le_antisymm (natMax_ge ((hm _).1 (natMax_mem h1)))
    (natMax_ge ((hm _).2 (natMax_mem h2)))

theorem shapeOf_congr {ps qs : List Pos} (hps : ps ≠ []) (hqs : qs ≠ [])
    (hm : ∀ p, p ∈ ps ↔ p ∈ qs) : shapeOf ps = shapeOf qs := by
  have hrow : ∀ x, x ∈ rowsOf ps ↔ x ∈ rowsOf qs := by
    intro x
    unfold rowsOf
    constructor
    · intro hx
      rcases List.mem_map.1 hx with ⟨p, hp, rfl⟩
      exact List.mem_map_of_mem _ ((hm p).1 hp)
    · intro hx
      rcases List.mem_map.1 hx with ⟨p, hp, rfl⟩
      exact List.mem_map_of_mem _ ((hm p).2 hp)
  have hcol : ∀ x, x ∈ colsOf ps ↔ x ∈ colsOf qs := by
    intro x
    unfold colsOf
    constructor
    · intro hx
      rcases List.mem_map.1 hx with ⟨p, hp, rfl⟩
      exact List.mem_map_of_mem _ ((hm p).1 hp)
    · intro hx
      rcases List.mem_map.1 hx with ⟨p, hp, rfl⟩
      exact List.mem_map_of_mem _ ((hm p).2 hp)
  have hrne : rowsOf ps ≠ [] := by
    intro h
    exact hps (List.map_eq_nil_iff.1 h)
  have hrne2 : rowsOf qs ≠ [] := by
    intro h
    exact hqs (List.map_eq_nil_iff.1 h)
  have hcne : colsOf ps ≠ [] := by
    intro h
    exact hps (List.map_eq_nil_iff.1 h)
  have hcne2 : colsOf qs ≠ [] := by
    intro h
    exact hqs (List.map_eq_nil_iff.1 h)
  unfold shapeOf
  rw [natMin_congr hrne hrne2 hrow, natMax_congr hrne hrne2 hrow,
    natMin_congr hcne hcne2 hcol, natMax_congr hcne hcne2 hcol]

theorem natMinMax_shift (f g : Pos → Nat) (δ : Int) (ps : List Pos) (hne : ps ≠ [])
    (hshift : ∀ p ∈ ps, ((g p : Nat) : Int) = (f p : Int) + δ) :
    natMax (ps.map g) - natMin (ps.map g) = natMax (ps.map f) - natMin (ps.map f) := by
  have hgne : ps.map g ≠ [] := fun h => hne (List.map_eq_nil_iff.1 h)
  have hfne : ps.map f ≠ [] := fun h => hne (List.map_eq_nil_iff.1 h)
  rcases List.mem_map.1 (natMin_mem hfne) with ⟨pm, hpm, hfm⟩
  rcases List.mem_map.1 (natMax_mem hfne) with ⟨pM, hpM, hfM⟩
  rcases List.mem_map.1 (natMin_mem hgne) with ⟨pm', hpm', hgm⟩
  rcases List.mem_map.1 (natMax_mem hgne) with ⟨pM', hpM', hgM⟩
  have h1 : natMin (ps.map g) ≤ g pm := natMin_le (List.mem_map_of_mem g hpm)
  have h2 : natMin (ps.map f) ≤ f pm' := natMin_le (List.mem_map_of_mem f hpm')
  have h3 : g pM ≤ natMax (ps.map g) := natMax_ge (List.mem_map_of_mem g hpM)
  have h4 : f pM' ≤ natMax (ps.map f) := natMax_ge (List.mem_map_of_mem f hpM')
  have h5 := hshift pm hpm
  have h6 := hshift pM hpM
  have h7 := hshift pm' hpm'
  have h8 := hshift pM' hpM'
  have h9 : natMin (ps.map f) ≤ natMax (ps.map f) :=
    le_trans (natMin_le (List.mem_map_of_mem f hpM)) (natMax_ge (List.mem_map_of_mem f hpM))
  omega

theorem movedCells_ne_nil {b : Board} {l : Char} {d : Int × Int}
    (hl : l ∈ labelsOf b) : movedCells b l d ≠ [] := by
  intro h
  exact cellsOf_ne_nil hl (List.map_eq_nil_iff.1 h)

theorem shapeOf_movedCells {b : Board} {l : Char} {d : Int × Int}
    (hl : l ∈ labelsOf b) (hin : ∀ p ∈ cellsOf b l, InBounds b (shift d p)) :
    shapeOf (movedCells b l d) = shapeOf (cellsOf b l) := by
  unfold shapeOf
  have hrows : rowsOf (movedCells b l d) =
      (cellsOf b l).map (fun p => (toPos (shift d p)).1) := by
    unfold rowsOf movedCells
    rw [List.map_map]
    rfl
  have hcols : colsOf (movedCells b l d) =
      (cellsOf b l).map (fun p => (toPos (shift d p)).2) := by
    unfold colsOf movedCells
    rw [List.map_map]
    rfl
  have hrowsOf : rowsOf (cellsOf b l) = (cellsOf b l).map Prod.fst := rfl
  have hcolsOf : colsOf (cellsOf b l) = (cellsOf b l).map Prod.snd := rfl
  rw [hrows, hcols, hrowsOf, hcolsOf,
    natMinMax_shift Prod.fst (fun p => (toPos (shift d p)).1) d.1 (cellsOf b l)
      (cellsOf_ne_nil hl)
      (fun p hp => by
        have h := (hin p hp).1
        simp only [shift] at h
        show (((p.1 : Int) + d.1).toNat : Int) = (p.1 : Int) + d.1
        omega),
    natMinMax_shift Prod.snd (fun p => (toPos (shift d p)).2) d.2 (cellsOf b l)
      (cellsOf_ne_nil hl)
      (fun p hp => by
        have h := (hin p hp).2.2.1
        simp only [shift] at h
        show (((p.2 : Int) + d.2).toNat : Int) = (p.2 : Int) + d.2
        omega)]

theorem movedCells_nodup {b : Board} {l : Char} {d : Int × Int}
    (hin : ∀ p ∈ cellsOf b l, InBounds b (shift d p)) :
    (movedCells b l d).Nodup := by
  unfold movedCells
  refine List.Nodup.map_on ?_ (cellsOf_nodup b l)
  intro x hx y hy he
  have hx' := hin x hx
  have hy' := hin y hy
  simp only [shift] at hx' hy'
  unfold InBounds at hx' hy'
  simp only [toPos, shift, Prod.mk.injEq] at he
  have e1 : x.1 = y.1 := by omega
  have e2 : x.2 = y.2 := by omega
  exact Prod.ext e1 e2

theorem length_eq_of_nodup_mem_iff {α : Type} [DecidableEq α] {l1 l2 : List α}
    (h1 : l1.Nodup) (h2 : l2.Nodup) (hm : ∀ x, x ∈ l1 ↔ x ∈ l2) :
    l1.length = l2.length := by
  rw [← List.toFinset_card_of_nodup h1, ← List.toFinset_card_of_nodup h2]
  congr 1
  ext x
  simp only [List.mem_toFinset]
  exact hm x

theorem countShape_eq (b : Board) (s : Nat × Nat) :
    countShape b s =
      ((labelsOf b).filter (fun x => decide (shapeOf (cellsOf b x) = s))).length := by
  unfold countShape
  rw [info_char, List.filter_map]
  simp only [List.length_map]
  rfl

/-- All structural facts carried from a board to the result of one
feasible move. -/
theorem move_cells_facts {b b2 : Board} {l : Char} {d : Int × Int}
    (hRect : Rect b) (hl : l ∈ labelsOf b)
    (hcan : can_move_piece b l d = some true)
    (hmv : move_piece b l d = some b2) :
    b2.length = b.length ∧ (∀ r, (b2.getD r []).length = (b.getD r []).length) ∧
      (∀ q, q ∈ cellsOf b2 l ↔ q ∈ movedCells b l d) ∧
      (∀ x, x ≠ l → x ≠ '.' → cellsOf b2 x = cellsOf b x) ∧
      (∀ x, x ∈ labelsOf b2 ↔ x ∈ labelsOf b) := by
  have hspec := (can_move_true_iff hl).1 hcan
  have hin : ∀ p ∈ cellsOf b l, InBounds b (shift d p) := fun p hp =>
    (hspec p (mem_cellsOf.1 hp).1 (mem_cellsOf.1 hp).2).1
  obtain ⟨b2', hmv', hlen, hrow, hIff, hB, hC⟩ := move_result_spec b l d hRect hl hcan
  rw [hmv] at hmv'
  rcases Option.some.inj hmv' with rfl
  obtain ⟨hRect2, hh2, hw2⟩ := rect_of_dims hRect hlen hrow
  have hAC : allCells b2 = allCells b := allCells_congr hh2 hw2
  have hldot : l ≠ '.' := labelsOf_ne_dot b l hl
  have hcells2 : ∀ q, q ∈ cellsOf b2 l ↔ q ∈ movedCells b l d := by
    intro q
    rw [mem_cellsOf, hAC]
    constructor
    · rintro ⟨-, hq⟩
      exact (hIff q).1 hq
    · intro hq
      refine ⟨?_, (hIff q).2 hq⟩
      rcases List.mem_map.1 hq with ⟨p, hp, rfl⟩
      exact toPos_mem_allCells (hin p hp)
  have hcellsx : ∀ x, x ≠ l → x ≠ '.' → cellsOf b2 x = cellsOf b x := by
    intro x hxl hxdot
    unfold cellsOf
    rw [hAC]
    refine List.filter_congr fun p hp => ?_
    refine decide_eq_decide.mpr ?_
    constructor
    · intro hcx
      by_cases hpm : p ∈ movedCells b l d
      · exact absurd (hcx.symm.trans ((hIff p).2 hpm)) hxl
      · by_cases hpc : p ∈ cellsOf b l
        · exact absurd (hcx.symm.trans (hB p hpc hpm)) hxdot
        · rw [← hC p hpm hpc]
          exact hcx
    · intro hcx
      have hpc : p ∉ cellsOf b l := fun hc => hxl (hcx.symm.trans (mem_cellsOf.1 hc).2)
      have hpm : p ∉ movedCells b l d := by
        intro hm
        rcases List.mem_map.1 hm with ⟨p0, hp0, rfl⟩
        rcases (hspec p0 (mem_cellsOf.1 hp0).1 (mem_cellsOf.1 hp0).2).2 with hdot | hlab
        · exact hxdot (hcx.symm.trans hdot)
        · exact hxl (hcx.symm.trans hlab)
      rw [hC p hpm hpc]
      exact hcx
  refine ⟨hlen, hrow, hcells2, hcellsx, ?_⟩
  intro x
  rw [mem_labelsOf, mem_labelsOf, hAC]
  constructor
  · rintro ⟨hxdot, p, hp, hcx⟩
    refine ⟨hxdot, ?_⟩
    by_cases hpm : p ∈ movedCells b l d
    · have hxeq : x = l := by rw [← hcx, (hIff p).2 hpm]
      obtain ⟨-, p0, hp0, hc0⟩ := mem_labelsOf.1 hl
      exact ⟨p0, hp0, by rw [hc0, ← hxeq]⟩
    · by_cases hpc : p ∈ cellsOf b l
      · exfalso
        apply hxdot
        rw [← hcx]
        exact hB p hpc hpm
      · exact ⟨p, hp, by rw [← hC p hpm hpc]; exact hcx⟩
  · rintro ⟨hxdot, p, hp, hcx⟩
    refine ⟨hxdot, ?_⟩
    by_cases hxl : x = l
    · have hpc : p ∈ cellsOf b l := mem_cellsOf.2 ⟨hp, by rw [← hxl]; exact hcx⟩
      refine ⟨toPos (shift d p), toPos_mem_allCells (hin p hpc), ?_⟩
      rw [hxl]
      exact (hIff _).2 (List.mem_map.2 ⟨p, hpc, rfl⟩)
    · have hpc : p ∉ cellsOf b l := fun hc => hxl (hcx.symm.trans (mem_cellsOf.1 hc).2)
      have hpm : p ∉ movedCells b l d := by
        intro hm
        rcases List.mem_map.1 hm with ⟨p0, hp0, rfl⟩
        rcases (hspec p0 (mem_cellsOf.1 hp0).1 (mem_cellsOf.1 hp0).2).2 with hdot | hlab
        · exact hxdot (hcx.symm.trans hdot)
        · exact hxl (hcx.symm.trans hlab)
      exact ⟨p, hp, by rw [hC p hpm hpc]; exact hcx⟩

/-- One legal move preserves well-formedness and grid dimensions. -/
theorem step_wf {b b2 : Board} (hwf : wellFormed b) (hstep : Step b b2) :
    wellFormed b2 ∧ height b2 = height b ∧ width b2 = width b := by
  obtain ⟨l, d, -, hcan, hmv⟩ := hstep
  have hl := labelsOf_of_canMove hcan
  have hspec := (can_move_true_iff hl).1 hcan
  have hin : ∀ p ∈ cellsOf b l, InBounds b (shift d p) := fun p hp =>
    (hspec p (mem_cellsOf.1 hp).1 (mem_cellsOf.1 hp).2).1
  obtain ⟨hlen, hrow, hcl, hcx, hlab⟩ := move_cells_facts hwf.1 hl hcan hmv
  obtain ⟨hRect2, hh2, hw2⟩ := rect_of_dims hwf.1 hlen hrow
  have hne2 : cellsOf b2 l ≠ [] := by
    obtain ⟨q, hq⟩ := List.exists_mem_of_ne_nil _ (movedCells_ne_nil (d := d) hl)
    exact List.ne_nil_of_mem ((hcl q).2 hq)
  have hshape_l : shapeOf (cellsOf b2 l) = shapeOf (cellsOf b l) :=
    (shapeOf_congr hne2 (movedCells_ne_nil hl) hcl).trans (shapeOf_movedCells hl hin)
  have hlen_l : (cellsOf b2 l).length = (cellsOf b l).length := by
    have h1 := length_eq_of_nodup_mem_iff (cellsOf_nodup b2 l) (movedCells_nodup hin) hcl
    rw [h1, movedCells, List.length_map]
  have hshape_all : ∀ x, x ∈ labelsOf b2 →
      shapeOf (cellsOf b2 x) = shapeOf (cellsOf b x) := by
    intro x hx
    by_cases hxl : x = l
    · rw [hxl, hshape_l]
    · rw [hcx x hxl (labelsOf_ne_dot b2 x hx)]
  have hlen_all : ∀ x, x ∈ labelsOf b2 →
      (cellsOf b2 x).length = (cellsOf b x).length := by
    intro x hx
    by_cases hxl : x = l
    · rw [hxl, hlen_l]
    · rw [hcx x hxl (labelsOf_ne_dot b2 x hx)]
  have hcount : ∀ s, countShape b2 s = countShape b s := by
    intro s
    rw [countShape_eq, countShape_eq]
    refine length_eq_of_nodup_mem_iff (List.Nodup.filter _ (labelsOf_nodup b2))
      (List.Nodup.filter _ (labelsOf_nodup b)) ?_
    intro x
    rw [List.mem_filter, List.mem_filter]
    constructor
    · rintro ⟨hx, hpx⟩
      refine ⟨(hlab x).1 hx, ?_⟩
      simp only [decide_eq_true_eq] at hpx ⊢
      rw [← hshape_all x hx]
      exact hpx
    · rintro ⟨hx, hpx⟩
      have hx2 := (hlab x).2 hx
      refine ⟨hx2, ?_⟩
      simp only [decide_eq_true_eq] at hpx ⊢
      rw [hshape_all x hx2]
      exact hpx
  refine ⟨⟨hRect2, by rw [hh2]; exact hwf.2.1, by rw [hw2]; exact hwf.2.2.1,
    ?_, ?_, ?_, ?_, ?_⟩, hh2, hw2⟩
  · rintro ⟨x, ps⟩ hpc
    rcases mem_info.1 hpc with ⟨hx, he⟩
    dsimp only at hx he
    subst he
    have hxb : x ∈ labelsOf b := (hlab x).1 hx
    obtain ⟨-, hoklen, hokshape⟩ := hwf.2.2.2.1 (x, cellsOf b x) (mem_info.2 ⟨hxb, rfl⟩)
    dsimp only at hoklen hokshape
    refine ⟨cellsOf_nodup b2 x, ?_, ?_⟩
    · dsimp only
      rw [hlen_all x hx, hshape_all x hx]
      exact hoklen
    · dsimp only
      rw [hshape_all x hx]
      exact hokshape
  · rw [hcount]
    exact hwf.2.2.2.2.1
  · rw [hcount]
    exact hwf.2.2.2.2.2.1
  · rw [hcount]
    exact hwf.2.2.2.2.2.2.1
  · rw [hcount]
    exact hwf.2.2.2.2.2.2.2

/-- Reachability preserves well-formedness. -/
theorem reach_wf {n : Nat} {b b2 : Board} (hwf : wellFormed b)
    (h : Reach n b b2) : wellFormed b2 := by
  induction h with
  | refl b => exact hwf
  | step hs _ ih => exact ih (step_wf hwf hs).1

/-! ## The canonical board as a flat paint (towards claim C1) -/

theorem paintGroup_eq_paintList (g : Board) (labels : List Char)
    (pieces : List (Char × List Pos)) :
    paintGroup g labels pieces = paintList g (zipLabels labels pieces) := by
  unfold paintGroup paintList zipLabels
  rw [List.foldl_map]

theorem paintList_append (g : Board) (l1 l2 : List (Char × List Pos)) :
    paintList g (l1 ++ l2) = paintList (paintList g l1) l2 := by
  unfold paintList
  rw [List.foldl_append]

theorem sig_eq_paint {b : Board} {gs : ShapeGroups}
    (hbg : buildGroups (get_piece_info b) = some gs) :
    get_canonical_board b =
      some (paintList (emptyGrid (height b) (width b)) (canonPieces gs)) := by
  rw [get_canonical_board, hbg]
  simp only [Option.bind_eq_bind, Option.some_bind]
  rw [paintGroup_eq_paintList, paintGroup_eq_paintList, paintGroup_eq_paintList,
    paintGroup_eq_paintList, canonPieces, paintList_append, paintList_append,
    paintList_append]

theorem length_paintOne (g : Board) (lab : Char) (ps : List Pos) :
    (paintOne g lab ps).length = g.length := length_foldl_setCell lab ps g

theorem rowlen_paintOne (g : Board) (lab : Char) (ps : List Pos) (r : Nat) :
    ((paintOne g lab ps).getD r []).length = (g.getD r []).length :=
  rowlen_foldl_setCell lab ps g r

theorem cellAt_paintOne (g : Board) (lab : Char) (ps : List Pos)
    (hin : ∀ p ∈ ps, p.1 < g.length ∧ p.2 < (g.getD p.1 []).length) (q : Pos) :
    cellAt (paintOne g lab ps) q = if q ∈ ps then lab else cellAt g q :=
  cellAt_foldl_setCell lab ps g hin q

theorem length_paintList (g : Board) (CP : List (Char × List Pos)) :
    (paintList g CP).length = g.length := by
  induction CP generalizing g with
  | nil => rfl
  | cons e CP ih =>
    show (paintList (paintOne g e.1 e.2) CP).length = g.length
    rw [ih, length_paintOne]

theorem rowlen_paintList (g : Board) (CP : List (Char × List Pos)) (r : Nat) :
    ((paintList g CP).getD r []).length = (g.getD r []).length := by
  induction CP generalizing g with
  | nil => rfl
  | cons e CP ih =>
    show ((paintList (paintOne g e.1 e.2) CP).getD r []).length = _
    rw [ih, rowlen_paintOne]

theorem cellAt_paintList (g : Board) :
    ∀ CP : List (Char × List Pos),
      (∀ e ∈ CP, ∀ p ∈ e.2, p.1 < g.length ∧ p.2 < (g.getD p.1 []).length) →
      CP.Pairwise PosDisj →
      ∀ q, cellAt (paintList g CP) q =
        match CP.find? (fun e => decide (q ∈ e.2)) with
        | some e => e.1
        | none => cellAt g q := by
  intro CP
  induction CP generalizing g with
  | nil => intro _ _ q; rfl
  | cons e CP ih =>
    intro hin hdisj q
    have hing : ∀ p ∈ e.2, p.1 < g.length ∧ p.2 < (g.getD p.1 []).length :=
      hin e (List.mem_cons_self e CP)
    have hpaint : ∀ q', cellAt (paintOne g e.1 e.2) q' =
        if q' ∈ e.2 then e.1 else cellAt g q' :=
      cellAt_paintOne g e.1 e.2 hing
    have hin' : ∀ e' ∈ CP, ∀ p ∈ e'.2,
        p.1 < (paintOne g e.1 e.2).length ∧
          p.2 < ((paintOne g e.1 e.2).getD p.1 []).length := by
      intro e' he' p hp
      have h := hin e' (List.mem_cons_of_mem e he') p hp
      constructor
      · rw [length_paintOne]
        exact h.1
      · rw [rowlen_paintOne]
        exact h.2
    have hmain := ih (paintOne g e.1 e.2) hin' (List.pairwise_cons.1 hdisj).2 q
    show cellAt (paintList (paintOne g e.1 e.2) CP) q = _
    rw [hmain]
    by_cases hq : q ∈ e.2
    · rw [List.find?_cons_of_pos _ (by simp [hq])]
      have hnone : CP.find? (fun e' => decide (q ∈ e'.2)) = none := by
        rw [List.find?_eq_none]
        intro e' he'
        simp only [decide_eq_true_eq]
        exact fun hq' => (List.pairwise_cons.1 hdisj).1 e' he' q hq hq'
      rw [hnone, hpaint, if_pos hq]
    · rw [List.find?_cons_of_neg _ (by simp [hq])]
      cases hf : CP.find? (fun e' => decide (q ∈ e'.2)) with
      | none => rw [hpaint, if_neg hq]
      | some e' => rfl

theorem emptyGrid_length (h w : Nat) : (emptyGrid h w).length = h :=
  List.length_replicate ..

theorem emptyGrid_getD {h : Nat} (w : Nat) {r : Nat} (hr : r < h) :
    (emptyGrid h w).getD r [] = List.replicate w '.' := by
  unfold emptyGrid
  rw [List.getD_eq_getElem _ _ (by rw [List.length_replicate]; exact hr)]
  exact List.getElem_replicate ..

theorem cellAt_emptyGrid (h w : Nat) (q : Pos) : cellAt (emptyGrid h w) q = '.' := by
  unfold cellAt
  by_cases hr : q.1 < h
  · rw [emptyGrid_getD w hr]
    by_cases hc : q.2 < w
    · rw [List.getD_eq_getElem _ _ (by rw [List.length_replicate]; exact hc)]
      exact List.getElem_replicate ..
    · rw [List.getD_eq_default _ _ (by rw [List.length_replicate]; omega)]
  · rw [List.getD_eq_default (emptyGrid h w) [] (by rw [emptyGrid_length]; omega)]
    rfl

theorem find?_entry {CP : List (Char × List Pos)} (hdisj : CP.Pairwise PosDisj)
    {e : Char × List Pos} (he : e ∈ CP) {q : Pos} (hq : q ∈ e.2) :
    CP.find? (fun e' => decide (q ∈ e'.2)) = some e := by
  induction CP with
  | nil => cases he
  | cons e0 CP ih =>
    rcases List.mem_cons.1 he with rfl | he'
    · exact List.find?_cons_of_pos _ (by simp [hq])
    · have hne : q ∉ e0.2 := fun hq0 => (List.pairwise_cons.1 hdisj).1 e he' q hq0 hq
      rw [List.find?_cons_of_neg _ (by simp [hne])]
      exact ih (List.pairwise_cons.1 hdisj).2 he'

theorem insertSorted_perm (le : α → α → Bool) (a : α) :
    ∀ l, List.Perm (insertSorted le a l) (a :: l) := by
  intro l
  induction l with
  | nil => exact List.Perm.refl _
  | cons b l ih =>
    unfold insertSorted
    by_cases h : le a b
    · rw [if_pos h]
    · rw [if_neg h]
      exact (List.Perm.cons b ih).trans (List.Perm.swap a b l)

theorem sortByKey_perm (le : α → α → Bool) :
    ∀ l, List.Perm (sortByKey le l) l := by
  intro l
  induction l with
  | nil => exact List.Perm.refl _
  | cons a l ih =>
    unfold sortByKey
    exact (insertSorted_perm le a (sortByKey le l)).trans (List.Perm.cons a ih)

theorem sortGroup_perm (g : List (Char × List Pos)) :
    List.Perm (sortGroup g) g := sortByKey_perm keyLe g

theorem buildGroups_some_spec {info : List (Char × List Pos)} {gs : ShapeGroups}
    (h : buildGroups info = some gs) :
    gs.s22 = info.filter (fun pc => decide (shapeOf pc.2 = (2, 2))) ∧
      gs.s12 = info.filter (fun pc => decide (shapeOf pc.2 = (1, 2))) ∧
      gs.s21 = info.filter (fun pc => decide (shapeOf pc.2 = (2, 1))) ∧
      gs.s11 = info.filter (fun pc => decide (shapeOf pc.2 = (1, 1))) ∧
      ∀ pc ∈ info, shapeOf pc.2 ∈ shapeTable := by
  unfold buildGroups at h
  by_cases hc : (info.all fun pc => decide (shapeOf pc.2 ∈ shapeTable)) = true
  · rw [if_pos hc] at h
    obtain rfl := Option.some.inj h
    refine ⟨rfl, rfl, rfl, rfl, ?_⟩
    intro pc hpc
    exact of_decide_eq_true (List.all_eq_true.1 hc pc hpc)
  · rw [if_neg hc] at h
    cases h

theorem mem_zipLabels_snd {labels : List Char} {pieces : List (Char × List Pos)}
    {e : Char × List Pos} (h : e ∈ zipLabels labels pieces) :
    ∃ pc ∈ pieces, e.2 = pc.2 := by
  rcases List.mem_map.1 h with ⟨ie, hie, rfl⟩
  exact ⟨ie.2, List.snd_mem_of_mem_enum hie, rfl⟩

theorem info_pairwise_disj (b : Board) : (get_piece_info b).Pairwise PosDisj := by
  rw [info_char, List.pairwise_map]
  refine List.Pairwise.imp ?_ (labelsOf_nodup b)
  intro x y hne p hp1 hp2
  exact hne ((mem_cellsOf.1 hp1).2.symm.trans (mem_cellsOf.1 hp2).2)

theorem zipLabels_pairwise_disj {labels : List Char} {pieces : List (Char × List Pos)}
    (h : pieces.Pairwise PosDisj) :
    (zipLabels labels pieces).Pairwise PosDisj := by
  unfold zipLabels
  rw [List.pairwise_map]
  have h2 : List.Pairwise (fun (a b : Nat × (Char × List Pos)) => PosDisj a.2 b.2)
      pieces.enum := by
    have h3 := h
    rw [← List.enum_map_snd pieces] at h3
    exact List.pairwise_map.1 h3
  exact List.Pairwise.imp (fun hd => hd) h2

theorem getLastD_mem_of_ne_nil :
    ∀ (l : List α), l ≠ [] → ∀ d, l.getLastD d ∈ l := by
  intro l
  induction l with
  | nil => intro h d; exact absurd rfl h
  | cons a t ih =>
    intro _ d
    rw [List.getLastD_cons d a t]
    cases t with
    | nil => exact List.mem_cons_self a []
    | cons b t' =>
      exact List.mem_cons_of_mem a (ih (by simp) a)

theorem canonLabel_mem {labels : List Char} (h : labels ≠ []) (i : Nat) :
    canonLabel labels i ∈ labels := by
  unfold canonLabel
  by_cases hi : i < labels.length
  · rw [if_pos hi, List.getD_eq_getElem _ _ hi]
    exact List.getElem_mem hi
  · rw [if_neg hi]
    exact getLastD_mem_of_ne_nil labels h '.'

theorem mem_enumFrom_of_mem {l : List α} {a : α} (h : a ∈ l) :
    ∀ n, ∃ i, (i, a) ∈ List.enumFrom n l := by
  induction l with
  | nil => cases h
  | cons x l ih =>
    intro n
    rcases List.mem_cons.1 h with rfl | h'
    · exact ⟨n, by rw [List.enumFrom_cons]; exact List.mem_cons_self _ _⟩
    · obtain ⟨i, hi⟩ := ih h' (n + 1)
      exact ⟨i, by rw [List.enumFrom_cons]; exact List.mem_cons_of_mem _ hi⟩

theorem mem_enum_of_mem {l : List α} {a : α} (h : a ∈ l) :
    ∃ i, (i, a) ∈ l.enum := mem_enumFrom_of_mem h 0

theorem mem_zipLabels_of_mem {pieces : List (Char × List Pos)}
    {pc : Char × List Pos} (h : pc ∈ pieces) (labels : List Char) :
    ∃ L, (L, pc.2) ∈ zipLabels labels pieces := by
  obtain ⟨i, hi⟩ := mem_enum_of_mem h
  exact ⟨canonLabel labels i, List.mem_map.2 ⟨(i, pc), hi, rfl⟩⟩

theorem mem_zipLabels_fst {labels : List Char} {pieces : List (Char × List Pos)}
    {e : Char × List Pos} (h : e ∈ zipLabels labels pieces) (hne : labels ≠ []) :
    e.1 ∈ labels := by
  rcases List.mem_map.1 h with ⟨ie, -, rfl⟩
  exact canonLabel_mem hne ie.1

theorem enumFrom_fst_ge (l : List α) :
    ∀ n, ∀ b ∈ List.enumFrom n l, n ≤ b.1 := by
  induction l with
  | nil => intro n b hb; cases hb
  | cons x l ih =>
    intro n b hb
    rw [List.enumFrom_cons] at hb
    rcases List.mem_cons.1 hb with rfl | hb'
    · exact le_refl n
    · exact le_trans (Nat.le_succ n) (ih (n + 1) b hb')

theorem enumFrom_pairwise_lt (l : List α) :
    ∀ n, (List.enumFrom n l).Pairwise (fun a b => a.1 < b.1) := by
  induction l with
  | nil => intro n; exact List.Pairwise.nil
  | cons x l ih =>
    intro n
    rw [List.enumFrom_cons]
    refine List.pairwise_cons.2 ⟨?_, ih (n + 1)⟩
    intro b hb
    have := enumFrom_fst_ge l (n + 1) b hb
    show n < b.1
    omega

theorem enum_pairwise_lt (l : List α) : l.enum.Pairwise (fun a b => a.1 < b.1) :=
  enumFrom_pairwise_lt l 0

theorem zipLabels_labels_distinct {labels : List Char} (hnd : labels.Nodup)
    {pieces : List (Char × List Pos)} (hlen : pieces.length ≤ labels.length) :
    (zipLabels labels pieces).Pairwise (fun e1 e2 => e1.1 ≠ e2.1) := by
  unfold zipLabels
  rw [List.pairwise_map]
  refine (enum_pairwise_lt pieces).imp_of_mem ?_
  intro a b ha hb hab
  have hia : a.1 < pieces.length := List.fst_lt_of_mem_enum ha
  have hib : b.1 < pieces.length := List.fst_lt_of_mem_enum hb
  show canonLabel labels a.1 ≠ canonLabel labels b.1
  unfold canonLabel
  rw [if_pos (lt_of_lt_of_le hia hlen), if_pos (lt_of_lt_of_le hib hlen),
    List.getD_eq_getElem _ _ (lt_of_lt_of_le hia hlen),
    List.getD_eq_getElem _ _ (lt_of_lt_of_le hib hlen)]
  intro he
  exact absurd (hnd.getElem_inj_iff.1 he) (Nat.ne_of_lt hab)

theorem pairwise_ne_inj {α β : Type} {f : α → β} {l : List α}
    (h : l.Pairwise (fun a b => f a ≠ f b)) :
    ∀ {e e'}, e ∈ l → e' ∈ l → f e = f e' → e = e' := by
  induction l with
  | nil => intro e e' he; cases he
  | cons a l ih =>
    intro e e' he he' hf
    rcases List.mem_cons.1 he with rfl | he2
    · rcases List.mem_cons.1 he' with rfl | he2'
      · rfl
      · exact absurd hf ((List.pairwise_cons.1 h).1 e' he2')
    · rcases List.mem_cons.1 he' with rfl | he2'
      · exact absurd hf.symm ((List.pairwise_cons.1 h).1 e he2)
      · exact ih (List.pairwise_cons.1 h).2 he2 he2' hf

theorem mem_zipGroup_char {b : Board} {labels : List Char} {s : Nat × Nat}
    {group : List (Char × List Pos)}
    (hg : group = (get_piece_info b).filter (fun pc => decide (shapeOf pc.2 = s)))
    {e : Char × List Pos} (he : e ∈ zipLabels labels (sortGroup group)) :
    ∃ x ∈ labelsOf b, e.2 = cellsOf b x ∧ shapeOf (cellsOf b x) = s := by
  obtain ⟨pc, hpc, he2⟩ := mem_zipLabels_snd he
  have hpc2 : pc ∈ group := ((sortGroup_perm group).mem_iff).1 hpc
  rw [hg] at hpc2
  obtain ⟨hpci, hpcs⟩ := List.mem_filter.1 hpc2
  obtain ⟨hx, hxe⟩ := mem_info.1 hpci
  refine ⟨pc.1, hx, by rw [he2, hxe], ?_⟩
  rw [← hxe]
  exact of_decide_eq_true hpcs

theorem canonPieces_mem_char {b : Board} {gs : ShapeGroups}
    (hbg : buildGroups (get_piece_info b) = some gs) :
    ∀ e ∈ canonPieces gs, ∃ x ∈ labelsOf b, e.2 = cellsOf b x := by
  obtain ⟨h22, h12, h21, h11, -⟩ := buildGroups_some_spec hbg
  intro e he
  unfold canonPieces at he
  simp only [List.mem_append] at he
  rcases he with ((h1 | h2) | h3) | h4
  · obtain ⟨x, hx, he2, -⟩ := mem_zipGroup_char h22 h1
    exact ⟨x, hx, he2⟩
  · obtain ⟨x, hx, he2, -⟩ := mem_zipGroup_char h12 h2
    exact ⟨x, hx, he2⟩
  · obtain ⟨x, hx, he2, -⟩ := mem_zipGroup_char h21 h3
    exact ⟨x, hx, he2⟩
  · obtain ⟨x, hx, he2, -⟩ := mem_zipGroup_char h11 h4
    exact ⟨x, hx, he2⟩

theorem canonPieces_disj {b : Board} {gs : ShapeGroups}
    (hbg : buildGroups (get_piece_info b) = some gs) :
    (canonPieces gs).Pairwise PosDisj := by
  obtain ⟨h22, h12, h21, h11, -⟩ := buildGroups_some_spec hbg
  have hinfo := info_pairwise_disj b
  have hgroup : ∀ (labels : List Char) (s : Nat × Nat)
      (group : List (Char × List Pos)),
      group = (get_piece_info b).filter (fun pc => decide (shapeOf pc.2 = s)) →
      (zipLabels labels (sortGroup group)).Pairwise PosDisj := by
    intro labels s group hg
    apply zipLabels_pairwise_disj
    refine ((sortGroup_perm group).pairwise_iff
      (fun h p hp1 hp2 => h p hp2 hp1)).2 ?_
    rw [hg]
    exact hinfo.filter _
  have hcross : ∀ {s1 s2 : Nat × Nat}, s1 ≠ s2 → ∀ {e1 : Char × List Pos},
      (∃ x ∈ labelsOf b, e1.2 = cellsOf b x ∧ shapeOf (cellsOf b x) = s1) →
      ∀ {e2 : Char × List Pos},
        (∃ y ∈ labelsOf b, e2.2 = cellsOf b y ∧ shapeOf (cellsOf b y) = s2) →
        PosDisj e1 e2 := by
    rintro s1 s2 hne e1 ⟨x, hx, he1, hs1⟩ e2 ⟨y, hy, he2, hs2⟩ p hp1 hp2
    rw [he1] at hp1
    rw [he2] at hp2
    have hxy : x = y := (mem_cellsOf.1 hp1).2.symm.trans (mem_cellsOf.1 hp2).2
    rw [hxy] at hs1
    exact hne (hs1.symm.trans hs2)
  unfold canonPieces
  rw [List.pairwise_append, List.pairwise_append, List.pairwise_append]
  refine ⟨⟨⟨hgroup _ _ _ h22, hgroup _ _ _ h12, ?_⟩, hgroup _ _ _ h21, ?_⟩,
    hgroup _ _ _ h11, ?_⟩
  · intro e1 he1 e2 he2
    exact hcross (by decide) (mem_zipGroup_char h22 he1) (mem_zipGroup_char h12 he2)
  · intro e1 he1 e2 he2
    rcases List.mem_append.1 he1 with h1 | h2
    · exact hcross (by decide) (mem_zipGroup_char h22 h1) (mem_zipGroup_char h21 he2)
    · exact hcross (by decide) (mem_zipGroup_char h12 h2) (mem_zipGroup_char h21 he2)
  · intro e1 he1 e2 he2
    rcases List.mem_append.1 he1 with h12' | h3
    · rcases List.mem_append.1 h12' with h1 | h2
      · exact hcross (by decide) (mem_zipGroup_char h22 h1) (mem_zipGroup_char h11 he2)
      · exact hcross (by decide) (mem_zipGroup_char h12 h2) (mem_zipGroup_char h11 he2)
    · exact hcross (by decide) (mem_zipGroup_char h21 h3) (mem_zipGroup_char h11 he2)

theorem canonPieces_labels_distinct {b : Board} {gs : ShapeGroups}
    (hwf : wellFormed b) (hbg : buildGroups (get_piece_info b) = some gs) :
    (canonPieces gs).Pairwise (fun e1 e2 => e1.1 ≠ e2.1) := by
  obtain ⟨h22, h12, h21, h11, -⟩ := buildGroups_some_spec hbg
  have hlen : ∀ (s : Nat × Nat) (group : List (Char × List Pos)),
      group = (get_piece_info b).filter (fun pc => decide (shapeOf pc.2 = s)) →
      (sortGroup group).length = countShape b s := by
    intro s group hg
    rw [(sortGroup_perm group).length_eq, hg]
    rfl
  have hw22 : (sortGroup gs.s22).length ≤ 1 := by
    rw [hlen _ _ h22]
    exact hwf.2.2.2.2.1
  have hw12 : (sortGroup gs.s12).length ≤ 4 := by
    rw [hlen _ _ h12]
    exact hwf.2.2.2.2.2.1
  have hw21 : (sortGroup gs.s21).length ≤ 1 := by
    rw [hlen _ _ h21]
    exact hwf.2.2.2.2.2.2.1
  have hw11 : (sortGroup gs.s11).length ≤ 4 := by
    rw [hlen _ _ h11]
    exact hwf.2.2.2.2.2.2.2
  have hA := @zipLabels_labels_distinct ['A'] (by decide) (sortGroup gs.s22) hw22
  have hB := @zipLabels_labels_distinct ['B', 'C', 'D', 'E'] (by decide) (sortGroup gs.s12) hw12
  have hF := @zipLabels_labels_distinct ['F'] (by decide) (sortGroup gs.s21) hw21
  have hG := @zipLabels_labels_distinct ['G', 'H', 'I', 'J'] (by decide) (sortGroup gs.s11) hw11
  have hcross : ∀ (L1 L2 : List Char), (∀ c1 ∈ L1, ∀ c2 ∈ L2, c1 ≠ c2) →
      L1 ≠ [] → L2 ≠ [] →
      ∀ {p1 p2 : List (Char × List Pos)}, ∀ e1 ∈ zipLabels L1 p1, ∀ e2 ∈ zipLabels L2 p2,
        e1.1 ≠ e2.1 := by
    intro L1 L2 hne hn1 hn2 p1 p2 e1 he1 e2 he2
    exact hne _ (mem_zipLabels_fst he1 hn1) _ (mem_zipLabels_fst he2 hn2)
  unfold canonPieces
  rw [List.pairwise_append, List.pairwise_append, List.pairwise_append]
  refine ⟨⟨⟨hA, hB, ?_⟩, hF, ?_⟩, hG, ?_⟩
  · exact hcross ['A'] ['B', 'C', 'D', 'E'] (by decide) (by decide) (by decide)
  · intro e1 he1 e2 he2
    rcases List.mem_append.1 he1 with h1 | h2
    · exact hcross ['A'] ['F'] (by decide) (by decide) (by decide) e1 h1 e2 he2
    · exact hcross ['B', 'C', 'D', 'E'] ['F'] (by decide) (by decide) (by decide) e1 h2 e2 he2
  · intro e1 he1 e2 he2
    rcases List.mem_append.1 he1 with h12' | h3
    · rcases List.mem_append.1 h12' with h1 | h2
      · exact hcross ['A'] ['G', 'H', 'I', 'J'] (by decide) (by decide) (by decide) e1 h1 e2 he2
      · exact hcross ['B', 'C', 'D', 'E'] ['G', 'H', 'I', 'J'] (by decide) (by decide) (by decide)
          e1 h2 e2 he2
    · exact hcross ['F'] ['G', 'H', 'I', 'J'] (by decide) (by decide) (by decide) e1 h3 e2 he2

theorem canonPieces_labels_ne_dot {gs : ShapeGroups} :
    ∀ e ∈ canonPieces gs, e.1 ≠ '.' := by
  intro e he
  unfold canonPieces at he
  have hone : ∀ (L : List Char), (∀ c ∈ L, c ≠ '.') → L ≠ [] →
      ∀ {p : List (Char × List Pos)}, e ∈ zipLabels L p → e.1 ≠ '.' := by
    intro L hL hn p hmem
    exact hL _ (mem_zipLabels_fst hmem hn)
  simp only [List.mem_append] at he
  rcases he with ((h1 | h2) | h3) | h4
  · exact hone ['A'] (by decide) (by decide) h1
  · exact hone ['B', 'C', 'D', 'E'] (by decide) (by decide) h2
  · exact hone ['F'] (by decide) (by decide) h3
  · exact hone ['G', 'H', 'I', 'J'] (by decide) (by decide) h4

theorem canonPieces_cover {b : Board} {gs : ShapeGroups}
    (hbg : buildGroups (get_piece_info b) = some gs) :
    ∀ x ∈ labelsOf b, ∃ L, (L, cellsOf b x) ∈ canonPieces gs := by
  obtain ⟨h22, h12, h21, h11, hall⟩ := buildGroups_some_spec hbg
  intro x hx
  have hpci : (x, cellsOf b x) ∈ get_piece_info b := mem_info.2 ⟨hx, rfl⟩
  have hshape := hall _ hpci
  have hingroup : ∀ (s : Nat × Nat) (group : List (Char × List Pos)) (labels : List Char),
      group = (get_piece_info b).filter (fun pc => decide (shapeOf pc.2 = s)) →
      shapeOf (cellsOf b x) = s →
      ∃ L, (L, cellsOf b x) ∈ zipLabels labels (sortGroup group) := by
    intro s group labels hg hs
    have hmem : (x, cellsOf b x) ∈ sortGroup group := by
      rw [(sortGroup_perm group).mem_iff, hg, List.mem_filter]
      exact ⟨hpci, by simp [hs]⟩
    exact mem_zipLabels_of_mem hmem labels
  simp only [shapeTable, List.mem_cons, List.not_mem_nil, or_false] at hshape
  unfold canonPieces
  rcases hshape with hs | hs | hs | hs
  · obtain ⟨L, hL⟩ := hingroup _ _ ['A'] h22 hs
    exact ⟨L, List.mem_append_left _ (List.mem_append_left _ (List.mem_append_left _ hL))⟩
  · obtain ⟨L, hL⟩ := hingroup _ _ ['B', 'C', 'D', 'E'] h12 hs
    exact ⟨L, List.mem_append_left _ (List.mem_append_left _ (List.mem_append_right _ hL))⟩
  · obtain ⟨L, hL⟩ := hingroup _ _ ['F'] h21 hs
    exact ⟨L, List.mem_append_left _ (List.mem_append_right _ hL)⟩
  · obtain ⟨L, hL⟩ := hingroup _ _ ['G', 'H', 'I', 'J'] h11 hs
    exact ⟨L, List.mem_append_right _ hL⟩

theorem cellAt_cb_char {b : Board} {gs : ShapeGroups} {cb : Board}
    (hbg : buildGroups (get_piece_info b) = some gs)
    (hcb : get_canonical_board b = some cb) :
    ∀ q, cellAt cb q =
      match (canonPieces gs).find? (fun e => decide (q ∈ e.2)) with
      | some e => e.1
      | none => '.' := by
  have hpaint := sig_eq_paint hbg
  rw [hpaint] at hcb
  obtain rfl := Option.some.inj hcb
  intro q
  rw [cellAt_paintList (emptyGrid (height b) (width b)) (canonPieces gs)
    ?_ (canonPieces_disj hbg) q]
  · cases hf : (canonPieces gs).find? (fun e => decide (q ∈ e.2)) with
    | some e => rfl
    | none => exact cellAt_emptyGrid ..
  · intro e he p hp
    obtain ⟨x, hx, he2⟩ := canonPieces_mem_char hbg e he
    rw [he2] at hp
    have hm := mem_allCells.1 (mem_cellsOf.1 hp).1
    constructor
    · rw [emptyGrid_length]
      exact hm.1
    · rw [emptyGrid_getD _ hm.1, List.length_replicate]
      exact hm.2

theorem cellAt_cb_entry {b : Board} {gs : ShapeGroups} {cb : Board}
    (hbg : buildGroups (get_piece_info b) = some gs)
    (hcb : get_canonical_board b = some cb) {e : Char × List Pos}
    (he : e ∈ canonPieces gs) {q : Pos} (hq : q ∈ e.2) :
    cellAt cb q = e.1 := by
  rw [cellAt_cb_char hbg hcb q, find?_entry (canonPieces_disj hbg) he hq]

theorem cellAt_cb_unocc {b : Board} {gs : ShapeGroups} {cb : Board}
    (hbg : buildGroups (get_piece_info b) = some gs)
    (hcb : get_canonical_board b = some cb) {q : Pos}
    (hq : ∀ x ∈ labelsOf b, q ∉ cellsOf b x) :
    cellAt cb q = '.' := by
  rw [cellAt_cb_char hbg hcb q]
  have hnone : (canonPieces gs).find? (fun e => decide (q ∈ e.2)) = none := by
    rw [List.find?_eq_none]
    intro e he
    simp only [decide_eq_true_eq]
    obtain ⟨x, hx, he2⟩ := canonPieces_mem_char hbg e he
    rw [he2]
    exact hq x hx
  rw [hnone]

theorem cellAt_cb_label {b : Board} {gs : ShapeGroups} {cb : Board}
    (hwf : wellFormed b) (hbg : buildGroups (get_piece_info b) = some gs)
    (hcb : get_canonical_board b = some cb) {e : Char × List Pos}
    (he : e ∈ canonPieces gs) :
    ∀ q, cellAt cb q = e.1 ↔ q ∈ e.2 := by
  intro q
  constructor
  · intro hq
    rw [cellAt_cb_char hbg hcb q] at hq
    cases hf : (canonPieces gs).find? (fun e' => decide (q ∈ e'.2)) with
    | none =>
      rw [hf] at hq
      exact absurd hq.symm (canonPieces_labels_ne_dot e he)
    | some e' =>
      rw [hf] at hq
      have he' : e' ∈ canonPieces gs := List.mem_of_find?_eq_some hf
      have heq : e' = e :=
        pairwise_ne_inj (canonPieces_labels_distinct hwf hbg) he' he hq
      have hfs := List.find?_some hf
      have hqe' : q ∈ e'.2 := of_decide_eq_true hfs
      rw [← heq]
      exact hqe'
  · exact cellAt_cb_entry hbg hcb he

theorem cb_dims {b : Board} {gs : ShapeGroups} {cb : Board}
    (hbg : buildGroups (get_piece_info b) = some gs)
    (hcb : get_canonical_board b = some cb) :
    cb.length = height b ∧ ∀ r, r < height b → (cb.getD r []).length = width b := by
  rw [sig_eq_paint hbg] at hcb
  obtain rfl := Option.some.inj hcb
  constructor
  · rw [length_paintList, emptyGrid_length]
  · intro r hr
    rw [rowlen_paintList, emptyGrid_getD _ hr, List.length_replicate]

theorem buildGroups_of_sig {b : Board} {cb : Board}
    (h : get_canonical_board b = some cb) :
    ∃ gs, buildGroups (get_piece_info b) = some gs := by
  rw [get_canonical_board] at h
  cases hbg : buildGroups (get_piece_info b) with
  | none =>
    rw [hbg] at h
    simp only [Option.bind_eq_bind, Option.none_bind] at h
    exact Option.noConfusion h
  | some gs => exact ⟨gs, rfl⟩

theorem occupied_cb {b : Board} {gs : ShapeGroups} {cb : Board}
    (hbg : buildGroups (get_piece_info b) = some gs)
    (hcb : get_canonical_board b = some cb) {q : Pos} (hq : q ∈ allCells b) :
    cellAt b q = '.' ↔ cellAt cb q = '.' := by
  constructor
  · intro hdot
    apply cellAt_cb_unocc hbg hcb
    intro x hx hqx
    exact labelsOf_ne_dot b x hx ((mem_cellsOf.1 hqx).2.symm.trans hdot)
  · intro hdot
    by_contra hne
    have hx : cellAt b q ∈ labelsOf b := mem_labelsOf.2 ⟨hne, q, hq, rfl⟩
    obtain ⟨L, hL⟩ := canonPieces_cover hbg _ hx
    have hqc : q ∈ cellsOf b (cellAt b q) := mem_cellsOf.2 ⟨hq, rfl⟩
    have hent := cellAt_cb_entry hbg hcb hL hqc
    exact canonPieces_labels_ne_dot _ hL (hent.symm.trans hdot)

theorem dims_of_sig {b1 b2 : Board} {cb : Board}
    (hh1 : 0 < height b1) (hh2 : 0 < height b2)
    (h1 : get_canonical_board b1 = some cb) (h2 : get_canonical_board b2 = some cb) :
    height b2 = height b1 ∧ width b2 = width b1 := by
  obtain ⟨gs1, hbg1⟩ := buildGroups_of_sig h1
  obtain ⟨gs2, hbg2⟩ := buildGroups_of_sig h2
  obtain ⟨hl1, hr1⟩ := cb_dims hbg1 h1
  obtain ⟨hl2, hr2⟩ := cb_dims hbg2 h2
  have hh : height b2 = height b1 := by rw [← hl1, ← hl2]
  have hh2' : 0 < height b2 := hh2
  refine ⟨hh, ?_⟩
  have w1 := hr1 0 hh1
  have w2 := hr2 0 hh2'
  rw [← w1, ← w2]

/-- Two well-formed boards with the same canonical signature carry the
same pieces: every label of the first has a partner label of the second
occupying exactly the same cells. -/
theorem partner {b1 b2 : Board} {cb : Board}
    (hwf1 : wellFormed b1) (hwf2 : wellFormed b2)
    (h1 : get_canonical_board b1 = some cb) (h2 : get_canonical_board b2 = some cb) :
    ∀ x ∈ labelsOf b1, ∃ y ∈ labelsOf b2, cellsOf b2 y = cellsOf b1 x := by
  obtain ⟨gs1, hbg1⟩ := buildGroups_of_sig h1
  obtain ⟨gs2, hbg2⟩ := buildGroups_of_sig h2
  have hh1 : 0 < height b1 := by have := hwf1.2.1; omega
  have hh2 : 0 < height b2 := by have := hwf2.2.1; omega
  obtain ⟨hh, hw⟩ := dims_of_sig hh1 hh2 h1 h2
  have hAC : allCells b2 = allCells b1 := allCells_congr hh hw
  intro x hx
  obtain ⟨q0, hq0⟩ := List.exists_mem_of_ne_nil _ (cellsOf_ne_nil hx)
  obtain ⟨L, hL⟩ := canonPieces_cover hbg1 x hx
  have hcbq0 : cellAt cb q0 = L := cellAt_cb_entry hbg1 h1 hL hq0
  have hLdot : L ≠ '.' := canonPieces_labels_ne_dot _ hL
  have hq0A1 : q0 ∈ allCells b1 := (mem_cellsOf.1 hq0).1
  have hq0A2 : q0 ∈ allCells b2 := by rw [hAC]; exact hq0A1
  have hb2occ : cellAt b2 q0 ≠ '.' := by
    intro hdot
    exact hLdot (hcbq0.symm.trans ((occupied_cb hbg2 h2 hq0A2).1 hdot))
  have hymem : cellAt b2 q0 ∈ labelsOf b2 := mem_labelsOf.2 ⟨hb2occ, q0, hq0A2, rfl⟩
  obtain ⟨L', hL'⟩ := canonPieces_cover hbg2 _ hymem
  have hq0y : q0 ∈ cellsOf b2 (cellAt b2 q0) := mem_cellsOf.2 ⟨hq0A2, rfl⟩
  have hcbq0' : cellAt cb q0 = L' := cellAt_cb_entry hbg2 h2 hL' hq0y
  have hLL : L' = L := hcbq0'.symm.trans hcbq0
  refine ⟨cellAt b2 q0, hymem, ?_⟩
  unfold cellsOf
  rw [hAC]
  refine List.filter_congr fun p hp => ?_
  refine decide_eq_decide.mpr ?_
  constructor
  · intro hpy
    have hpcy : p ∈ cellsOf b2 (cellAt b2 q0) :=
      mem_cellsOf.2 ⟨by rw [hAC]; exact hp, hpy⟩
    have hcp : cellAt cb p = L' := cellAt_cb_entry hbg2 h2 hL' hpcy
    have hpx : p ∈ cellsOf b1 x :=
      (cellAt_cb_label hwf1 hbg1 h1 hL p).1 (by rw [hcp, hLL])
    exact (mem_cellsOf.1 hpx).2
  · intro hpx
    have hpcx : p ∈ cellsOf b1 x := mem_cellsOf.2 ⟨hp, hpx⟩
    have hcp : cellAt cb p = L := cellAt_cb_entry hbg1 h1 hL hpcx
    have hpy : p ∈ cellsOf b2 (cellAt b2 q0) :=
      (cellAt_cb_label hwf2 hbg2 h2 hL' p).1 (by rw [hcp, ← hLL])
    exact (mem_cellsOf.1 hpy).2

theorem goalPosNat_congr {b1 b2 : Board} (hh : height b2 = height b1) :
    goalPosNat b2 = goalPosNat b1 := by
  unfold goalPosNat
  rw [hh]

/-- Two well-formed boards with the same canonical signature agree on the
goal test. -/
theorem goal_transfer {b1 b2 : Board} {cb : Board}
    (hwf1 : wellFormed b1) (hwf2 : wellFormed b2)
    (h1 : get_canonical_board b1 = some cb) (h2 : get_canonical_board b2 = some cb) :
    is_goal b1 = is_goal b2 := by
  obtain ⟨r1, hr1, hiff1⟩ := is_goal_char b1 hwf1
  obtain ⟨r2, hr2, hiff2⟩ := is_goal_char b2 hwf2
  have hh1 : 0 < height b1 := by have := hwf1.2.1; omega
  have hh2 : 0 < height b2 := by have := hwf2.2.1; omega
  obtain ⟨hh, hw⟩ := dims_of_sig hh1 hh2 h1 h2
  have hgp : goalPosNat b2 = goalPosNat b1 := goalPosNat_congr hh
  have hgiff : goalSpec b1 ↔ goalSpec b2 := by
    constructor
    · rintro ⟨l, hl, hlen, hiff⟩
      obtain ⟨y, hy, hcells⟩ := partner hwf1 hwf2 h1 h2 l hl
      refine ⟨y, hy, by rw [hcells]; exact hlen, fun p => ?_⟩
      rw [hcells, hgp]
      exact hiff p
    · rintro ⟨l, hl, hlen, hiff⟩
      obtain ⟨y, hy, hcells⟩ := partner hwf2 hwf1 h2 h1 l hl
      refine ⟨y, hy, by rw [hcells]; exact hlen, fun p => ?_⟩
      rw [hcells, ← hgp]
      exact hiff p
  have hrr : r1 = r2 := by
    by_cases hg : goalSpec b1
    · rw [hiff1.2 hg, hiff2.2 (hgiff.1 hg)]
    · cases r1 with
      | true => exact absurd (hiff1.1 rfl) hg
      | false =>
        cases r2 with
        | true => exact absurd (hgiff.2 (hiff2.1 rfl)) hg
        | false => rfl
  rw [hr1, hr2, hrr]

/-! ## The canonical board is determined by the multiset of piece cell
lists: order theory for the sort keys -/

theorem posLtb_iff {p q : Pos} :
    posLtb p q = true ↔ (p.1 < q.1 ∨ (p.1 = q.1 ∧ p.2 < q.2)) := by
  simp [posLtb]

theorem posLtb_asymm {p q : Pos} (h1 : posLtb p q = true) (h2 : posLtb q p = true) :
    False := by
  rw [posLtb_iff] at h1 h2
  omega

theorem posLtb_trans {p q r : Pos} (h1 : posLtb p q = true) (h2 : posLtb q r = true) :
    posLtb p r = true := by
  rw [posLtb_iff] at h1 h2 ⊢
  omega

theorem posLtb_trichotomy (p q : Pos) :
    posLtb p q = true ∨ p = q ∨ posLtb q p = true := by
  by_cases h1 : p.1 < q.1
  · exact Or.inl (posLtb_iff.2 (Or.inl h1))
  · by_cases h2 : q.1 < p.1
    · exact Or.inr (Or.inr (posLtb_iff.2 (Or.inl h2)))
    · have he : p.1 = q.1 := by omega
      by_cases h3 : p.2 < q.2
      · exact Or.inl (posLtb_iff.2 (Or.inr ⟨he, h3⟩))
      · by_cases h4 : q.2 < p.2
        · exact Or.inr (Or.inr (posLtb_iff.2 (Or.inr ⟨he.symm, h4⟩)))
        · exact Or.inr (Or.inl (Prod.ext_iff.2 ⟨he, by omega⟩))

theorem keyLt_asymm : ∀ {k1 k2 : List Pos}, keyLt k1 k2 = true → keyLt k2 k1 = true → False
  | [], [], h1, _ => by simp [keyLt] at h1
  | [], _ :: _, _, h2 => by simp [keyLt] at h2
  | _ :: _, [], h1, _ => by simp [keyLt] at h1
  | p :: ps, q :: qs, h1, h2 => by
    simp only [keyLt] at h1 h2
    by_cases hpq : p = q
    · subst hpq
      rw [if_pos rfl] at h1 h2
      exact keyLt_asymm h1 h2
    · rw [if_neg hpq] at h1
      rw [if_neg (fun he => hpq he.symm)] at h2
      exact posLtb_asymm h1 h2

theorem keyLt_trans : ∀ {k1 k2 k3 : List Pos},
    keyLt k1 k2 = true → keyLt k2 k3 = true → keyLt k1 k3 = true
  | [], [], _, h1, _ => by simp [keyLt] at h1
  | [], _ :: _, [], _, h2 => by simp [keyLt] at h2
  | [], _ :: _, _ :: _, _, _ => by simp [keyLt]
  | _ :: _, [], _, h1, _ => by simp [keyLt] at h1
  | _ :: _, _ :: _, [], _, h2 => by simp [keyLt] at h2
  | p :: ps, q :: qs, r :: rs, h1, h2 => by
    simp only [keyLt] at h1 h2 ⊢
    by_cases hpq : p = q
    · subst hpq
      rw [if_pos rfl] at h1
      by_cases hqr : p = r
      · subst hqr
        rw [if_pos rfl] at h2 ⊢
        exact keyLt_trans h1 h2
      · rw [if_neg hqr] at h2 ⊢
        exact h2
    · rw [if_neg hpq] at h1
      by_cases hqr : q = r
      · subst hqr
        rw [if_neg hpq]
        exact h1
      · rw [if_neg hqr] at h2
        have hne : p ≠ r := by
          intro he
          subst he
          exact posLtb_asymm h1 h2
        rw [if_neg hne]
        exact posLtb_trans h1 h2

theorem keyLt_trichotomy : ∀ (k1 k2 : List Pos),
    keyLt k1 k2 = true ∨ k1 = k2 ∨ keyLt k2 k1 = true
  | [], [] => Or.inr (Or.inl rfl)
  | [], _ :: _ => Or.inl (by simp [keyLt])
  | _ :: _, [] => Or.inr (Or.inr (by simp [keyLt]))
  | p :: ps, q :: qs => by
    rcases posLtb_trichotomy p q with h | he | h
    · have hne : p ≠ q := fun he => posLtb_asymm h (he ▸ h)
      left
      simp only [keyLt]
      rw [if_neg hne]
      exact h
    · subst he
      rcases keyLt_trichotomy ps qs with h | h | h
      · left
        simpa [keyLt] using h
      · right; left
        rw [h]
      · right; right
        simpa [keyLt] using h
    · have hne : q ≠ p := fun he => posLtb_asymm h (he ▸ h)
      right; right
      simp only [keyLt]
      rw [if_neg hne]
      exact h

theorem keyLe_total (a b : Char × List Pos) : keyLe a b = true ∨ keyLe b a = true := by
  unfold keyLe
  rcases keyLt_trichotomy (pieceKey a) (pieceKey b) with h | h | h
  · left
    rw [h, Bool.true_or]
  · left
    rw [beq_iff_eq.2 h, Bool.or_true]
  · right
    rw [h, Bool.true_or]

theorem keyLe_trans {a b c : Char × List Pos}
    (h1 : keyLe a b = true) (h2 : keyLe b c = true) : keyLe a c = true := by
  unfold keyLe at h1 h2 ⊢
  simp only [Bool.or_eq_true, beq_iff_eq] at h1 h2 ⊢
  rcases h1 with h1 | h1 <;> rcases h2 with h2 | h2
  · exact Or.inl (keyLt_trans h1 h2)
  · exact Or.inl (h2 ▸ h1)
  · exact Or.inl (h1 ▸ h2)
  · exact Or.inr (h1.trans h2)

theorem insertSorted_eq_orderedInsert {α : Type} (le : α → α → Bool) (a : α) :
    ∀ l : List α, insertSorted le a l = List.orderedInsert (fun x y => le x y = true) a l
  | [] => rfl
  | b :: l => by
    simp only [insertSorted, List.orderedInsert]
    by_cases h : le a b = true
    · rw [if_pos h, if_pos h]
    · rw [if_neg h, if_neg h, insertSorted_eq_orderedInsert le a l]

theorem sortByKey_eq_insertionSort {α : Type} (le : α → α → Bool) :
    ∀ l : List α, sortByKey le l = List.insertionSort (fun x y => le x y = true) l
  | [] => rfl
  | a :: l => by
    simp only [sortByKey, List.insertionSort]
    rw [sortByKey_eq_insertionSort le l, insertSorted_eq_orderedInsert]

theorem sortGroup_sorted (g : List (Char × List Pos)) :
    (sortGroup g).Pairwise (fun a b => keyLe a b = true) := by
  haveI : IsTotal (Char × List Pos) (fun a b => keyLe a b = true) := ⟨keyLe_total⟩
  haveI : IsTrans (Char × List Pos) (fun a b => keyLe a b = true) :=
    ⟨fun _ _ _ => keyLe_trans⟩
  have h := List.sorted_insertionSort (fun a b => keyLe a b = true) g
  rw [sortGroup, sortByKey_eq_insertionSort]
  exact h

theorem allCells_pairwise (b : Board) :
    (allCells b).Pairwise (fun p q => posLtb p q = true) := by
  unfold allCells
  rw [List.pairwise_flatMap]
  constructor
  · intro r hr
    rw [List.pairwise_map]
    refine List.Pairwise.imp ?_ (List.pairwise_lt_range _)
    intro c1 c2 hc
    exact posLtb_iff.2 (Or.inr ⟨rfl, hc⟩)
  · refine List.Pairwise.imp ?_ (List.pairwise_lt_range _)
    intro r1 r2 hr p hp q hq
    rcases List.mem_map.1 hp with ⟨c1, -, rfl⟩
    rcases List.mem_map.1 hq with ⟨c2, -, rfl⟩
    exact posLtb_iff.2 (Or.inl hr)

theorem cellsOf_pairwise (b : Board) (l : Char) :
    (cellsOf b l).Pairwise (fun p q => posLtb p q = true) :=
  List.Pairwise.sublist (List.filter_sublist _) (allCells_pairwise b)

theorem sortPositions_eq_self :
    ∀ {ps : List Pos}, ps.Pairwise (fun p q => posLtb p q = true) →
      sortPositions ps = ps
  | [], _ => rfl
  | p :: ps, h => by
    have hhead := (List.pairwise_cons.1 h).1
    have htail := (List.pairwise_cons.1 h).2
    show insertSorted (fun p q => posLtb p q || p == q) p (sortPositions ps) = p :: ps
    rw [sortPositions_eq_self htail]
    cases ps with
    | nil => rfl
    | cons q rest =>
      have hle : (posLtb p q || p == q) = true := by
        rw [hhead q (List.mem_cons_self q rest), Bool.true_or]
      show (if (posLtb p q || p == q) = true then p :: q :: rest
        else q :: insertSorted _ p rest) = p :: q :: rest
      rw [if_pos hle]

theorem pieceKey_eq_snd {pc : Char × List Pos}
    (h : pc.2.Pairwise (fun p q => posLtb p q = true)) : pieceKey pc = pc.2 :=
  sortPositions_eq_self h

theorem map_snd_filter (p : List Pos → Bool) (info : List (Char × List Pos)) :
    (info.filter (fun pc => p pc.2)).map (fun pc => pc.2) =
      (info.map (fun pc => pc.2)).filter p := by
  induction info with
  | nil => rfl
  | cons pc rest ih => cases hp : p pc.2 <;> simp [List.filter_cons, hp, ih]

theorem info_map_snd (b : Board) :
    (get_piece_info b).map (fun pc => pc.2) = (labelsOf b).map (cellsOf b) := by
  rw [info_char, List.map_map]
  rfl

theorem cellsOf_inj_on {b : Board} {x y : Char} (hx : x ∈ labelsOf b)
    (hc : cellsOf b x = cellsOf b y) : x = y := by
  obtain ⟨q, hq⟩ := List.exists_mem_of_ne_nil _ (cellsOf_ne_nil hx)
  have hq2 : q ∈ cellsOf b y := hc ▸ hq
  exact (mem_cellsOf.1 hq).2.symm.trans (mem_cellsOf.1 hq2).2

theorem pieceLists_nodup (b : Board) : ((labelsOf b).map (cellsOf b)).Nodup :=
  (labelsOf_nodup b).map_on (fun _ hx _ _ hc => cellsOf_inj_on hx hc)

theorem pieceLists_perm {b c : Board}
    (hmem : ∀ l', (∃ x ∈ labelsOf b, l' = cellsOf b x) ↔
      (∃ y ∈ labelsOf c, l' = cellsOf c y)) :
    List.Perm ((labelsOf b).map (cellsOf b)) ((labelsOf c).map (cellsOf c)) := by
  refine List.perm_of_nodup_nodup_toFinset_eq (pieceLists_nodup b) (pieceLists_nodup c) ?_
  ext l'
  simp only [List.mem_toFinset, List.mem_map]
  constructor
  · rintro ⟨x, hx, rfl⟩
    obtain ⟨y, hy, he⟩ := (hmem _).1 ⟨x, hx, rfl⟩
    exact ⟨y, hy, he.symm⟩
  · rintro ⟨y, hy, rfl⟩
    obtain ⟨x, hx, he⟩ := (hmem _).2 ⟨y, hy, rfl⟩
    exact ⟨x, hx, he.symm⟩

theorem sortGroup_snd_congr {b c : Board} (s : Nat × Nat)
    (hmem : ∀ l', (∃ x ∈ labelsOf b, l' = cellsOf b x) ↔
      (∃ y ∈ labelsOf c, l' = cellsOf c y)) :
    (sortGroup ((get_piece_info b).filter (fun pc => decide (shapeOf pc.2 = s)))).map
        (fun pc => pc.2) =
      (sortGroup ((get_piece_info c).filter (fun pc => decide (shapeOf pc.2 = s)))).map
        (fun pc => pc.2) := by
  have hsortmem : ∀ (B : Board) pc,
      pc ∈ sortGroup ((get_piece_info B).filter (fun pc => decide (shapeOf pc.2 = s))) →
      pc.2.Pairwise (fun p q => posLtb p q = true) := by
    intro B pc hpc
    have hmemB : pc ∈ get_piece_info B :=
      (List.mem_filter.1 (((sortGroup_perm _).mem_iff).1 hpc)).1
    obtain ⟨hx, he⟩ := mem_info.1 hmemB
    rw [he]
    exact cellsOf_pairwise B pc.1
  have hkeys : ∀ B : Board,
      (sortGroup ((get_piece_info B).filter (fun pc => decide (shapeOf pc.2 = s)))).map
          pieceKey =
        (sortGroup ((get_piece_info B).filter (fun pc => decide (shapeOf pc.2 = s)))).map
          (fun pc => pc.2) :=
    fun B => List.map_congr_left (fun pc hpc => pieceKey_eq_snd (hsortmem B pc hpc))
  have hperm : List.Perm
      ((sortGroup ((get_piece_info b).filter
        (fun pc => decide (shapeOf pc.2 = s)))).map (fun pc => pc.2))
      ((sortGroup ((get_piece_info c).filter
        (fun pc => decide (shapeOf pc.2 = s)))).map (fun pc => pc.2)) := by
    have p1 := (sortGroup_perm
      ((get_piece_info b).filter (fun pc => decide (shapeOf pc.2 = s)))).map
      (fun pc : Char × List Pos => pc.2)
    have p2 := (sortGroup_perm
      ((get_piece_info c).filter (fun pc => decide (shapeOf pc.2 = s)))).map
      (fun pc : Char × List Pos => pc.2)
    refine p1.trans (List.Perm.trans ?_ p2.symm)
    rw [map_snd_filter (fun l => decide (shapeOf l = s)),
      map_snd_filter (fun l => decide (shapeOf l = s)), info_map_snd, info_map_snd]
    exact (pieceLists_perm hmem).filter _
  have hsorted : ∀ B : Board,
      ((sortGroup ((get_piece_info B).filter
        (fun pc => decide (shapeOf pc.2 = s)))).map (fun pc => pc.2)).Pairwise
        (fun k1 k2 => keyLt k1 k2 = true ∨ k1 = k2) := by
    intro B
    rw [← hkeys B, List.pairwise_map]
    refine List.Pairwise.imp ?_ (sortGroup_sorted _)
    intro a b hab
    unfold keyLe at hab
    rw [Bool.or_eq_true] at hab
    rcases hab with h | h
    · exact Or.inl h
    · exact Or.inr (beq_iff_eq.1 h)
  haveI : IsAntisymm (List Pos) (fun k1 k2 => keyLt k1 k2 = true ∨ k1 = k2) :=
    ⟨fun a b h1 h2 => by
      rcases h1 with h1 | h1
      · rcases h2 with h2 | h2
        · exact absurd h1 (fun hh => keyLt_asymm hh h2)
        · exact h2.symm
      · exact h1⟩
  exact List.eq_of_perm_of_sorted hperm (hsorted b) (hsorted c)

theorem zipLabels_eq_snd (labels : List Char) (pieces : List (Char × List Pos)) :
    zipLabels labels pieces =
      (pieces.map (fun pc => pc.2)).enum.map (fun ie => (canonLabel labels ie.1, ie.2)) := by
  unfold zipLabels
  rw [List.enum_map, List.map_map]
  exact List.map_congr_left (fun ie _ => rfl)

theorem zipLabels_congr (labels : List Char) {p1 p2 : List (Char × List Pos)}
    (h : p1.map (fun pc => pc.2) = p2.map (fun pc => pc.2)) :
    zipLabels labels p1 = zipLabels labels p2 := by
  rw [zipLabels_eq_snd, zipLabels_eq_snd, h]

/-- Two boards of equal dimensions whose pieces occupy exactly the same
cell lists have the same canonical board: the canonicalisation discards
the original labels entirely. -/
theorem sig_eq_of_same_pieces {b c : Board}
    (hh : height b = height c) (hw : width b = width c)
    (hmem : ∀ l', (∃ x ∈ labelsOf b, l' = cellsOf b x) ↔
      (∃ y ∈ labelsOf c, l' = cellsOf c y))
    {gsb : ShapeGroups} (hgb : buildGroups (get_piece_info b) = some gsb) :
    get_canonical_board b = get_canonical_board c := by
  obtain ⟨hb22, hb12, hb21, hb11, hball⟩ := buildGroups_some_spec hgb
  have hcall : ((get_piece_info c).all fun pc => decide (shapeOf pc.2 ∈ shapeTable)) = true := by
    rw [List.all_eq_true]
    intro pc hpc
    obtain ⟨hy, he⟩ := mem_info.1 hpc
    obtain ⟨x, hx, he2⟩ := (hmem pc.2).2 ⟨pc.1, hy, he⟩
    refine decide_eq_true ?_
    have hbx : (x, cellsOf b x) ∈ get_piece_info b := mem_info.2 ⟨hx, rfl⟩
    have hsh := hball _ hbx
    rw [he2]
    exact hsh
  have hgc' : ∃ gsc, buildGroups (get_piece_info c) = some gsc := by
    rw [buildGroups, if_pos hcall]
    exact ⟨_, rfl⟩
  obtain ⟨gsc, hgc⟩ := hgc'
  obtain ⟨hc22, hc12, hc21, hc11, -⟩ := buildGroups_some_spec hgc
  rw [sig_eq_paint hgb, sig_eq_paint hgc, hh, hw]
  have hCP : canonPieces gsb = canonPieces gsc := by
    have e22 : zipLabels ['A'] (sortGroup gsb.s22) = zipLabels ['A'] (sortGroup gsc.s22) := by
      rw [hb22, hc22]
      exact zipLabels_congr _ (sortGroup_snd_congr (2, 2) hmem)
    have e12 : zipLabels ['B', 'C', 'D', 'E'] (sortGroup gsb.s12) =
        zipLabels ['B', 'C', 'D', 'E'] (sortGroup gsc.s12) := by
      rw [hb12, hc12]
      exact zipLabels_congr _ (sortGroup_snd_congr (1, 2) hmem)
    have e21 : zipLabels ['F'] (sortGroup gsb.s21) = zipLabels ['F'] (sortGroup gsc.s21) := by
      rw [hb21, hc21]
      exact zipLabels_congr _ (sortGroup_snd_congr (2, 1) hmem)
    have e11 : zipLabels ['G', 'H', 'I', 'J'] (sortGroup gsb.s11) =
        zipLabels ['G', 'H', 'I', 'J'] (sortGroup gsc.s11) := by
      rw [hb11, hc11]
      exact zipLabels_congr _ (sortGroup_snd_congr (1, 1) hmem)
    unfold canonPieces
    rw [e22, e12, e21, e11]
  rw [hCP]

theorem inBounds_congr {b1 b2 : Board} (hh : height b2 = height b1)
    (hw : width b2 = width b1) (q : Int × Int) : InBounds b2 q ↔ InBounds b1 q := by
  unfold InBounds
  rw [hh, hw]

/-- After corresponding moves on two sig-equal boards, every piece of the
first result has a partner piece of the second on the same cells. -/
theorem move_pieces_sub {b1 b2 cb : Board} {x y : Char} {d : Int × Int} {s1 s2 : Board}
    (hwf1 : wellFormed b1) (hwf2 : wellFormed b2)
    (h1 : get_canonical_board b1 = some cb) (h2 : get_canonical_board b2 = some cb)
    (hx : x ∈ labelsOf b1) (hy : y ∈ labelsOf b2)
    (hcells : cellsOf b2 y = cellsOf b1 x)
    (hcan1 : can_move_piece b1 x d = some true) (hcan2 : can_move_piece b2 y d = some true)
    (hmv1 : move_piece b1 x d = some s1) (hmv2 : move_piece b2 y d = some s2) :
    ∀ z ∈ labelsOf s1, ∃ w ∈ labelsOf s2, cellsOf s2 w = cellsOf s1 z := by
  obtain ⟨hlen1, hrow1, hcl1, hcx1, hlab1⟩ := move_cells_facts hwf1.1 hx hcan1 hmv1
  obtain ⟨hlen2, hrow2, hcl2, hcx2, hlab2⟩ := move_cells_facts hwf2.1 hy hcan2 hmv2
  obtain ⟨-, hH1, hW1⟩ := rect_of_dims hwf1.1 hlen1 hrow1
  obtain ⟨-, hH2, hW2⟩ := rect_of_dims hwf2.1 hlen2 hrow2
  have hh1 : 0 < height b1 := by have := hwf1.2.1; omega
  have hh2 : 0 < height b2 := by have := hwf2.2.1; omega
  obtain ⟨hh, hw⟩ := dims_of_sig hh1 hh2 h1 h2
  have hACs : allCells s2 = allCells s1 :=
    allCells_congr (hH2.trans (hh.trans hH1.symm)) (hW2.trans (hw.trans hW1.symm))
  have hmoved : movedCells b2 y d = movedCells b1 x d := by
    unfold movedCells
    rw [hcells]
  intro z hz
  have hz1 : z ∈ labelsOf b1 := (hlab1 z).1 hz
  have hzdot : z ≠ '.' := labelsOf_ne_dot s1 z hz
  by_cases hzx : z = x
  · subst hzx
    refine ⟨y, (hlab2 y).2 hy, ?_⟩
    unfold cellsOf
    rw [hACs]
    refine List.filter_congr fun p hp => decide_eq_decide.mpr ?_
    have hp2 : p ∈ allCells s2 := by rw [hACs]; exact hp
    constructor
    · intro hc
      have hmem2 : p ∈ cellsOf s2 y := mem_cellsOf.2 ⟨hp2, hc⟩
      have hm : p ∈ movedCells b1 z d := by rw [← hmoved]; exact (hcl2 p).1 hmem2
      exact (mem_cellsOf.1 ((hcl1 p).2 hm)).2
    · intro hc
      have hmem1 : p ∈ cellsOf s1 z := mem_cellsOf.2 ⟨hp, hc⟩
      have hm : p ∈ movedCells b2 y d := by rw [hmoved]; exact (hcl1 p).1 hmem1
      exact (mem_cellsOf.1 ((hcl2 p).2 hm)).2
  · obtain ⟨w, hw2, hwz⟩ := partner hwf1 hwf2 h1 h2 z hz1
    have hwy : w ≠ y := by
      intro he
      rw [he] at hwz
      exact hzx (cellsOf_inj_on hz1 (hwz.symm.trans hcells))
    have hwdot : w ≠ '.' := labelsOf_ne_dot b2 w hw2
    refine ⟨w, (hlab2 w).2 hw2, ?_⟩
    rw [hcx2 w hwy hwdot, hwz, ← hcx1 z hzx hzdot]

/-- Corresponding moves on two sig-equal well-formed boards land in
sig-equal boards. -/
theorem move_sig_eq {b1 b2 cb : Board} {x y : Char} {d : Int × Int} {s1 s2 : Board}
    (hwf1 : wellFormed b1) (hwf2 : wellFormed b2)
    (h1 : get_canonical_board b1 = some cb) (h2 : get_canonical_board b2 = some cb)
    (hx : x ∈ labelsOf b1) (hy : y ∈ labelsOf b2)
    (hcells : cellsOf b2 y = cellsOf b1 x) (hd : d ∈ directions)
    (hcan1 : can_move_piece b1 x d = some true) (hcan2 : can_move_piece b2 y d = some true)
    (hmv1 : move_piece b1 x d = some s1) (hmv2 : move_piece b2 y d = some s2) :
    get_canonical_board s1 = get_canonical_board s2 := by
  have hwfs1 : wellFormed s1 := (step_wf hwf1 ⟨x, d, hd, hcan1, hmv1⟩).1
  obtain ⟨hlen1, hrow1, -, -, -⟩ := move_cells_facts hwf1.1 hx hcan1 hmv1
  obtain ⟨hlen2, hrow2, -, -, -⟩ := move_cells_facts hwf2.1 hy hcan2 hmv2
  obtain ⟨-, hH1, hW1⟩ := rect_of_dims hwf1.1 hlen1 hrow1
  obtain ⟨-, hH2, hW2⟩ := rect_of_dims hwf2.1 hlen2 hrow2
  have hh1 : 0 < height b1 := by have := hwf1.2.1; omega
  have hh2 : 0 < height b2 := by have := hwf2.2.1; omega
  obtain ⟨hh, hw⟩ := dims_of_sig hh1 hh2 h1 h2
  have sub1 := move_pieces_sub hwf1 hwf2 h1 h2 hx hy hcells hcan1 hcan2 hmv1 hmv2
  have sub2 := move_pieces_sub hwf2 hwf1 h2 h1 hy hx hcells.symm hcan2 hcan1 hmv2 hmv1
  have hmem : ∀ l', (∃ z ∈ labelsOf s1, l' = cellsOf s1 z) ↔
      (∃ w ∈ labelsOf s2, l' = cellsOf s2 w) := by
    intro l'
    constructor
    · rintro ⟨z, hz, rfl⟩
      obtain ⟨w, hw', he⟩ := sub1 z hz
      exact ⟨w, hw', he.symm⟩
    · rintro ⟨w, hw', rfl⟩
      obtain ⟨z, hz, he⟩ := sub2 w hw'
      exact ⟨z, hz, he.symm⟩
  obtain ⟨cs1, hcs1⟩ := sig_some_of_wf s1 hwfs1
  obtain ⟨gs1, hgs1⟩ := buildGroups_of_sig hcs1
  exact sig_eq_of_same_pieces (hH1.trans (hh.symm.trans hH2.symm))
    (hW1.trans (hw.symm.trans hW2.symm)) hmem hgs1

/-- Every legal move on a well-formed board has an image move, landing in
a sig-equal board, on every sig-equal well-formed board. -/
theorem step_transfer {b1 b2 cb : Board} (hwf1 : wellFormed b1) (hwf2 : wellFormed b2)
    (h1 : get_canonical_board b1 = some cb) (h2 : get_canonical_board b2 = some cb)
    {s1 : Board} (hstep : Step b1 s1) :
    ∃ s2, Step b2 s2 ∧ get_canonical_board s1 = get_canonical_board s2 := by
  obtain ⟨x, d, hd, hcan1, hmv1⟩ := hstep
  have hx := labelsOf_of_canMove hcan1
  obtain ⟨y, hy, hcells⟩ := partner hwf1 hwf2 h1 h2 x hx
  obtain ⟨gs1, hbg1⟩ := buildGroups_of_sig h1
  obtain ⟨gs2, hbg2⟩ := buildGroups_of_sig h2
  have hh1 : 0 < height b1 := by have := hwf1.2.1; omega
  have hh2 : 0 < height b2 := by have := hwf2.2.1; omega
  obtain ⟨hh, hw⟩ := dims_of_sig hh1 hh2 h1 h2
  have hAC : allCells b2 = allCells b1 := allCells_congr hh hw
  have hspec1 : canMoveSpec b1 x d := (can_move_true_iff hx).1 hcan1
  have hspec2 : canMoveSpec b2 y d := by
    intro p hp hcell
    have hpc2 : p ∈ cellsOf b2 y := mem_cellsOf.2 ⟨hp, hcell⟩
    have hpc1 : p ∈ cellsOf b1 x := by rw [← hcells]; exact hpc2
    obtain ⟨hib, hland⟩ := hspec1 p (mem_cellsOf.1 hpc1).1 (mem_cellsOf.1 hpc1).2
    refine ⟨(inBounds_congr hh hw _).2 hib, ?_⟩
    have ht1 : toPos (shift d p) ∈ allCells b1 := toPos_mem_allCells hib
    have ht2 : toPos (shift d p) ∈ allCells b2 := by rw [hAC]; exact ht1
    rcases hland with hdot | hlab
    · left
      exact (occupied_cb hbg2 h2 ht2).2 ((occupied_cb hbg1 h1 ht1).1 hdot)
    · right
      have hm1 : toPos (shift d p) ∈ cellsOf b1 x := mem_cellsOf.2 ⟨ht1, hlab⟩
      have hm2 : toPos (shift d p) ∈ cellsOf b2 y := by rw [hcells]; exact hm1
      exact (mem_cellsOf.1 hm2).2
  have hcan2 : can_move_piece b2 y d = some true := (can_move_true_iff hy).2 hspec2
  obtain ⟨s2, hmv2, -⟩ := move_result_spec b2 y d hwf2.1 hy hcan2
  exact ⟨s2, ⟨y, d, hd, hcan2, hmv2⟩,
    move_sig_eq hwf1 hwf2 h1 h2 hx hy hcells hd hcan1 hcan2 hmv1 hmv2⟩

theorem movesFor_sound {b : Board} {l : Char} :
    ∀ {ds : List (Int × Int)} {ms : List (Char × String × Board)},
      movesFor b l ds = some ms →
      ∀ e ∈ ms, ∃ d ∈ ds, can_move_piece b l d = some true ∧
        move_piece b l d = some e.2.2
  | [], ms, h, e, he => by
    rw [movesFor] at h
    obtain rfl := Option.some.inj h
    exact absurd he (List.not_mem_nil e)
  | d :: ds, ms, h, e, he => by
    rw [movesFor] at h
    cases hcan : can_move_piece b l d with
    | none => rw [hcan] at h; exact Option.noConfusion h
    | some c =>
      rw [hcan] at h
      simp only [Option.bind_eq_bind, Option.some_bind] at h
      cases c with
      | false =>
        rw [if_neg (by simp)] at h
        obtain ⟨d', hd', hc', hm'⟩ := movesFor_sound h e he
        exact ⟨d', List.mem_cons_of_mem d hd', hc', hm'⟩
      | true =>
        rw [if_pos rfl] at h
        cases hmv : move_piece b l d with
        | none => rw [hmv] at h; exact Option.noConfusion h
        | some b2 =>
          rw [hmv] at h
          simp only [Option.bind_eq_bind, Option.some_bind] at h
          cases hrest : movesFor b l ds with
          | none => rw [hrest] at h; exact Option.noConfusion h
          | some rest =>
            rw [hrest] at h
            simp only [Option.bind_eq_bind, Option.some_bind] at h
            obtain rfl := Option.some.inj h
            rcases List.mem_cons.1 he with rfl | he2
            · exact ⟨d, List.mem_cons_self d ds, hcan, hmv⟩
            · obtain ⟨d', hd', hc', hm'⟩ := movesFor_sound hrest e he2
              exact ⟨d', List.mem_cons_of_mem d hd', hc', hm'⟩

theorem movesAll_sound {b : Board} :
    ∀ {ls : List Char} {ms : List (Char × String × Board)},
      movesAll b ls = some ms →
      ∀ e ∈ ms, ∃ l ∈ ls, ∃ d ∈ directions, can_move_piece b l d = some true ∧
        move_piece b l d = some e.2.2
  | [], ms, h, e, he => by
    rw [movesAll] at h
    obtain rfl := Option.some.inj h
    exact absurd he (List.not_mem_nil e)
  | l :: ls, ms, h, e, he => by
    rw [movesAll] at h
    cases hfor : movesFor b l directions with
    | none => rw [hfor] at h; exact Option.noConfusion h
    | some msl =>
      rw [hfor] at h
      simp only [Option.bind_eq_bind, Option.some_bind] at h
      cases hrest : movesAll b ls with
      | none => rw [hrest] at h; exact Option.noConfusion h
      | some rest =>
        rw [hrest] at h
        simp only [Option.bind_eq_bind, Option.some_bind] at h
        obtain rfl := Option.some.inj h
        rcases List.mem_append.1 he with he1 | he2
        · obtain ⟨d, hd, hc, hm⟩ := movesFor_sound hfor e he1
          exact ⟨l, List.mem_cons_self l ls, d, hd, hc, hm⟩
        · obtain ⟨l', hl', rest'⟩ := movesAll_sound hrest e he2
          exact ⟨l', List.mem_cons_of_mem l hl', rest'⟩

theorem get_all_moves_sound {b : Board} {ms : List (Char × String × Board)}
    (h : get_all_moves b = some ms) : ∀ e ∈ ms, Step b e.2.2 := by
  intro e he
  obtain ⟨l, -, d, hd, hc, hm⟩ := movesAll_sound h e he
  exact ⟨l, d, hd, hc, hm⟩

theorem movesFor_complete {b : Board} {l : Char} :
    ∀ {ds : List (Int × Int)} {ms : List (Char × String × Board)},
      movesFor b l ds = some ms →
      ∀ d ∈ ds, can_move_piece b l d = some true →
        ∀ {s2 : Board}, move_piece b l d = some s2 → (l, dirName d, s2) ∈ ms
  | [], _, _, _, hd, _, _, _ => absurd hd (List.not_mem_nil _)
  | d0 :: ds, ms, h, d, hd, hcan, s2, hmv => by
    rw [movesFor] at h
    cases hcan0 : can_move_piece b l d0 with
    | none => rw [hcan0] at h; exact Option.noConfusion h
    | some c =>
      rw [hcan0] at h
      simp only [Option.bind_eq_bind, Option.some_bind] at h
      cases c with
      | false =>
        rw [if_neg (by simp)] at h
        rcases List.mem_cons.1 hd with rfl | hd2
        · rw [hcan] at hcan0
          exact absurd (Option.some.inj hcan0) (by simp)
        · exact movesFor_complete h d hd2 hcan hmv
      | true =>
        rw [if_pos rfl] at h
        cases hmv0 : move_piece b l d0 with
        | none => rw [hmv0] at h; exact Option.noConfusion h
        | some b2 =>
          rw [hmv0] at h
          simp only [Option.bind_eq_bind, Option.some_bind] at h
          cases hrest : movesFor b l ds with
          | none => rw [hrest] at h; exact Option.noConfusion h
          | some rest =>
            rw [hrest] at h
            simp only [Option.bind_eq_bind, Option.some_bind] at h
            obtain rfl := Option.some.inj h
            rcases List.mem_cons.1 hd with rfl | hd2
            · rw [hmv] at hmv0
              obtain rfl := Option.some.inj hmv0
              exact List.mem_cons_self _ _
            · exact List.mem_cons_of_mem _ (movesFor_complete hrest d hd2 hcan hmv)

theorem movesAll_complete {b : Board} :
    ∀ {ls : List Char} {ms : List (Char × String × Board)},
      movesAll b ls = some ms →
      ∀ l ∈ ls, ∀ d ∈ directions, can_move_piece b l d = some true →
        ∀ {s2 : Board}, move_piece b l d = some s2 → (l, dirName d, s2) ∈ ms
  | [], _, _, _, hl, _, _, _, _, _ => absurd hl (List.not_mem_nil _)
  | l0 :: ls, ms, h, l, hl, d, hd, hcan, s2, hmv => by
    rw [movesAll] at h
    cases hfor : movesFor b l0 directions with
    | none => rw [hfor] at h; exact Option.noConfusion h
    | some msl =>
      rw [hfor] at h
      simp only [Option.bind_eq_bind, Option.some_bind] at h
      cases hrest : movesAll b ls with
      | none => rw [hrest] at h; exact Option.noConfusion h
      | some rest =>
        rw [hrest] at h
        simp only [Option.bind_eq_bind, Option.some_bind] at h
        obtain rfl := Option.some.inj h
        rcases List.mem_cons.1 hl with rfl | hl2
        · exact List.mem_append_left _ (movesFor_complete hfor d hd hcan hmv)
        · exact List.mem_append_right _ (movesAll_complete hrest l hl2 d hd hcan hmv)

theorem info_map_fst (b : Board) :
    (get_piece_info b).map Prod.fst = labelsOf b := by
  rw [info_char, List.map_map]
  exact List.map_id (labelsOf b)

theorem mem_labelsSorted {b : Board} {l : Char} (h : l ∈ labelsOf b) :
    l ∈ labelsSorted b := by
  unfold labelsSorted
  rw [(sortByKey_perm _ _).mem_iff, info_map_fst]
  exact h

theorem get_all_moves_complete {b : Board} {ms : List (Char × String × Board)}
    (h : get_all_moves b = some ms) {l : Char} {d : Int × Int} {s2 : Board}
    (hlm : LegalMove b l d s2) : (l, dirName d, s2) ∈ ms := by
  obtain ⟨hd, hcan, hmv⟩ := hlm
  have hl : l ∈ labelsOf b := labelsOf_of_canMove hcan
  exact movesAll_complete h l (mem_labelsSorted hl) d hd hcan hmv

theorem reach_zero {b s : Board} (h : Reach 0 b s) : s = b := by
  cases h
  rfl

theorem reach_snoc {n : Nat} {b s s2 : Board} (h : Reach n b s) (hs : Step s s2) :
    Reach (n + 1) b s2 := by
  induction h with
  | refl b => exact Reach.step hs (Reach.refl _)
  | step h1 _ ih => exact Reach.step h1 (ih hs)

theorem reach_succ_iff {n : Nat} {b s2 : Board} :
    Reach (n + 1) b s2 ↔ ∃ s, Reach n b s ∧ Step s s2 := by
  constructor
  · intro h
    induction n generalizing b with
    | zero =>
      cases h with
      | step hs hr =>
        obtain rfl := reach_zero hr
        exact ⟨b, Reach.refl b, hs⟩
    | succ m ih =>
      cases h with
      | step hs hr =>
        obtain ⟨u, hu, hstep⟩ := ih hr
        exact ⟨u, Reach.step hs hu, hstep⟩
  · rintro ⟨s, hr, hs⟩
    exact reach_snoc hr hs

theorem expand_found {path : List (Char × String × Board)} :
    ∀ {ms : List (Char × String × Board)} {visited : List Board} {adds : List Entry}
      {p : List (Char × String × Board)},
      expand path ms visited adds = StepOut.found p →
      ∃ pc dn ns, (pc, dn, ns) ∈ ms ∧ p = path ++ [(pc, dn, ns)] ∧
        is_goal ns = some true
  | [], _, _, _, h => by
    rw [expand] at h
    exact StepOut.noConfusion h
  | (pc, dn, ns) :: rest, visited, adds, p, h => by
    rw [expand] at h
    split at h
    · exact StepOut.noConfusion h
    · split at h
      · obtain ⟨pc', dn', ns', hmem, hp, hg⟩ := expand_found h
        exact ⟨pc', dn', ns', List.mem_cons_of_mem _ hmem, hp, hg⟩
      · split at h
        · exact StepOut.noConfusion h
        · rename_i hg
          injection h with h1
          exact ⟨pc, dn, ns, List.mem_cons_self _ _, h1.symm, hg⟩
        · obtain ⟨pc', dn', ns', hmem, hp, hg'⟩ := expand_found h
          exact ⟨pc', dn', ns', List.mem_cons_of_mem _ hmem, hp, hg'⟩

theorem expand_next {path : List (Char × String × Board)} :
    ∀ {ms : List (Char × String × Board)} {visited : List Board} {adds : List Entry}
      {visited2 : List Board} {adds2 : List Entry},
      expand path ms visited adds = StepOut.next visited2 adds2 →
      (∀ c ∈ visited, c ∈ visited2) ∧
      (∀ e ∈ adds, e ∈ adds2) ∧
      (∀ c ∈ visited2, c ∈ visited ∨ ∃ pc dn ns, (pc, dn, ns) ∈ ms ∧
        get_canonical_board ns = some c ∧ is_goal ns = some false ∧
        (⟨ns, path ++ [(pc, dn, ns)]⟩ : Entry) ∈ adds2) ∧
      (∀ e2 ∈ adds2, e2 ∈ adds ∨ ∃ pc dn ns, (pc, dn, ns) ∈ ms ∧
        e2 = ⟨ns, path ++ [(pc, dn, ns)]⟩ ∧ is_goal ns = some false ∧
        ∃ c, get_canonical_board ns = some c ∧ c ∈ visited2) ∧
      (∀ pc dn ns, (pc, dn, ns) ∈ ms →
        ∃ c, get_canonical_board ns = some c ∧ c ∈ visited2)
  | [], visited, adds, visited2, adds2, h => by
    rw [expand] at h
    injection h with h1 h2
    subst h1
    subst h2
    refine ⟨fun c hc => hc, fun e he => he, fun c hc => Or.inl hc,
      fun e he => Or.inl he, ?_⟩
    intro pc dn ns hmem
    exact absurd hmem (List.not_mem_nil _)
  | (pc0, dn0, ns0) :: rest, visited, adds, visited2, adds2, h => by
    rw [expand] at h
    split at h
    · exact StepOut.noConfusion h
    · rename_i sg hsg
      split at h
      · rename_i hv
        obtain ⟨hVm, hAm, hVn, hAn, hcompl⟩ := expand_next h
        refine ⟨hVm, hAm, ?_, ?_, ?_⟩
        · intro c hc
          rcases hVn c hc with hc' | ⟨pc', dn', ns', hmem, rest'⟩
          · exact Or.inl hc'
          · exact Or.inr ⟨pc', dn', ns', List.mem_cons_of_mem _ hmem, rest'⟩
        · intro e2 he2
          rcases hAn e2 he2 with he' | ⟨pc', dn', ns', hmem, rest'⟩
          · exact Or.inl he'
          · exact Or.inr ⟨pc', dn', ns', List.mem_cons_of_mem _ hmem, rest'⟩
        · intro pc dn ns hmem
          rcases List.mem_cons.1 hmem with heq | hmem2
          · cases heq
            exact ⟨sg, hsg, hVm sg hv⟩
          · exact hcompl pc dn ns hmem2
      · rename_i hv
        split at h
        · exact StepOut.noConfusion h
        · exact StepOut.noConfusion h
        · rename_i hg
          obtain ⟨hVm, hAm, hVn, hAn, hcompl⟩ := expand_next h
          have hsgv2 : sg ∈ visited2 :=
            hVm sg (List.mem_append_right _ (List.mem_cons_self _ _))
          have hentry : (⟨ns0, path ++ [(pc0, dn0, ns0)]⟩ : Entry) ∈ adds2 :=
            hAm _ (List.mem_append_right _ (List.mem_cons_self _ _))
          refine ⟨?_, ?_, ?_, ?_, ?_⟩
          · intro c hc
            exact hVm c (List.mem_append_left _ hc)
          · intro e he
            exact hAm e (List.mem_append_left _ he)
          · intro c hc
            rcases hVn c hc with hc' | ⟨pc', dn', ns', hmem, rest'⟩
            · rcases List.mem_append.1 hc' with hc'' | hc''
              · exact Or.inl hc''
              · rcases List.mem_cons.1 hc'' with rfl | hc3
                · exact Or.inr ⟨pc0, dn0, ns0, List.mem_cons_self _ _, hsg, hg, hentry⟩
                · exact absurd hc3 (List.not_mem_nil _)
            · exact Or.inr ⟨pc', dn', ns', List.mem_cons_of_mem _ hmem, rest'⟩
          · intro e2 he2
            rcases hAn e2 he2 with he' | ⟨pc', dn', ns', hmem, rest'⟩
            · rcases List.mem_append.1 he' with he'' | he''
              · exact Or.inl he''
              · rcases List.mem_cons.1 he'' with rfl | he3
                · exact Or.inr ⟨pc0, dn0, ns0, List.mem_cons_self _ _, rfl, hg,
                    sg, hsg, hsgv2⟩
                · exact absurd he3 (List.not_mem_nil _)
            · exact Or.inr ⟨pc', dn', ns', List.mem_cons_of_mem _ hmem, rest'⟩
          · intro pc dn ns hmem
            rcases List.mem_cons.1 hmem with heq | hmem2
            · cases heq
              exact ⟨sg, hsg, hsgv2⟩
            · exact hcompl pc dn ns hmem2

/-- Depth shift of the BFS invariants: when every queue entry is at depth
`d + 1`, the completeness-to-depth, frontier and representation invariants
advance from `d` to `d + 1`. -/
theorem inv_shift (b0 : Board) (hwf0 : wellFormed b0) (d : Nat)
    (qb : List Entry) (visited : List Board)
    (hqb : ∀ e ∈ qb, e.path.length = d + 1)
    (hQ : ∀ e ∈ qb, wellFormed e.state ∧ Reach e.path.length b0 e.state)
    (hC : ∀ k, k ≤ d → ∀ s, Reach k b0 s →
      ∃ c, get_canonical_board s = some c ∧ c ∈ visited)
    (hF : ∀ s', Reach (d + 1) b0 s' → ∃ c, get_canonical_board s' = some c ∧
      (c ∈ visited ∨ ∃ e ∈ ([] : List Entry), ∃ u, Step e.state u ∧
        get_canonical_board u = some c))
    (hVr : ∀ c ∈ visited,
      (∃ k, k ≤ d ∧ ∃ s, Reach k b0 s ∧ get_canonical_board s = some c) ∨
      (∃ e ∈ qb, get_canonical_board e.state = some c)) :
    (∀ k, k ≤ d + 1 → ∀ s, Reach k b0 s →
      ∃ c, get_canonical_board s = some c ∧ c ∈ visited) ∧
    (∀ s', Reach (d + 2) b0 s' → ∃ c, get_canonical_board s' = some c ∧
      (c ∈ visited ∨ ∃ e ∈ qb, ∃ u, Step e.state u ∧ get_canonical_board u = some c)) ∧
    (∀ c ∈ visited,
      (∃ k, k ≤ d + 1 ∧ ∃ s, Reach k b0 s ∧ get_canonical_board s = some c) ∨
      (∃ e ∈ ([] : List Entry), get_canonical_board e.state = some c)) := by
  have hC' : ∀ k, k ≤ d + 1 → ∀ s, Reach k b0 s →
      ∃ c, get_canonical_board s = some c ∧ c ∈ visited := by
    intro k hk s hs
    by_cases hk' : k ≤ d
    · exact hC k hk' s hs
    · have hke : k = d + 1 := by omega
      subst hke
      obtain ⟨c, hc, hcv⟩ := hF s hs
      rcases hcv with hcv | ⟨e, he, -⟩
      · exact ⟨c, hc, hcv⟩
      · exact absurd he (List.not_mem_nil _)
  refine ⟨hC', ?_, ?_⟩
  · intro s' hs'
    obtain ⟨u, hu, hstep⟩ := reach_succ_iff.1 hs'
    have hwfu : wellFormed u := reach_wf hwf0 hu
    obtain ⟨cu, hcu, hcuv⟩ := hC' (d + 1) (le_refl _) u hu
    rcases hVr cu hcuv with ⟨k, hk, s, hrs, hss⟩ | ⟨e, he, hes⟩
    · have hwfs : wellFormed s := reach_wf hwf0 hrs
      obtain ⟨s2, hstep2, hsig2⟩ := step_transfer hwfu hwfs hcu hss hstep
      have hr2 : Reach (k + 1) b0 s2 := reach_snoc hrs hstep2
      obtain ⟨c2, hc2, hc2v⟩ := hC' (k + 1) (by omega) s2 hr2
      have hs'c2 : get_canonical_board s' = some c2 := by rw [hsig2]; exact hc2
      exact ⟨c2, hs'c2, Or.inl hc2v⟩
    · have hwfe : wellFormed e.state := (hQ e he).1
      obtain ⟨s2, hstep2, hsig2⟩ := step_transfer hwfu hwfe hcu hes hstep
      have hwfs2 : wellFormed s2 := (step_wf hwfe hstep2).1
      obtain ⟨c2, hc2⟩ := sig_some_of_wf s2 hwfs2
      have hs'c2 : get_canonical_board s' = some c2 := by rw [hsig2]; exact hc2
      exact ⟨c2, hs'c2, Or.inr ⟨e, he, s2, hstep2, hc2⟩⟩
  · intro c hcv
    rcases hVr c hcv with ⟨k, hk, rest'⟩ | ⟨e, he, hes⟩
    · exact Or.inl ⟨k, by omega, rest'⟩
    · left
      refine ⟨d + 1, le_refl _, e.state, ?_, hes⟩
      have hre := (hQ e he).2
      rw [hqb e he] at hre
      exact hre

/-- The BFS loop invariant argument: under the depth-split queue,
visited-nongoal, completeness, frontier and representation invariants,
a returned solution has minimal length among all goal-reaching move
sequences from the initial board. -/
theorem solveLoop_sol (b0 : Board) (hwf0 : wellFormed b0) :
    ∀ (fuel : Nat) (queue : List Entry) (visited : List Board) (d : Nat)
      (qa qb : List Entry),
      queue = qa ++ qb →
      (∀ e ∈ qa, e.path.length = d) →
      (∀ e ∈ qb, e.path.length = d + 1) →
      (∀ e ∈ queue, wellFormed e.state ∧ Reach e.path.length b0 e.state) →
      (∀ c ∈ visited, ∀ s, wellFormed s → get_canonical_board s = some c →
        is_goal s = some false) →
      (∀ k, k ≤ d → ∀ s, Reach k b0 s →
        ∃ c, get_canonical_board s = some c ∧ c ∈ visited) →
      (∀ s', Reach (d + 1) b0 s' → ∃ c, get_canonical_board s' = some c ∧
        (c ∈ visited ∨ ∃ e ∈ qa, ∃ u, Step e.state u ∧ get_canonical_board u = some c)) →
      (∀ c ∈ visited,
        (∃ k, k ≤ d ∧ ∃ s, Reach k b0 s ∧ get_canonical_board s = some c) ∨
        (∃ e ∈ qb, get_canonical_board e.state = some c)) →
      ∀ p, solveLoop fuel queue visited = SolveResult.solution p →
        GoalDist b0 p.length := by
  intro fuel
  induction fuel with
  | zero =>
    intro queue visited d qa qb _ _ _ _ _ _ _ _ p hrun
    rw [solveLoop] at hrun
    exact SolveResult.noConfusion hrun
  | succ fuel ih =>
    intro queue visited d qa qb hsplit hqa hqb hQ hVng hC hF hVr p hrun
    obtain ⟨d2, qa2, qb2, hsplit2, hqa2, hqb2, hC2, hF2, hVr2, hnil⟩ :
        ∃ d2 qa2 qb2, queue = qa2 ++ qb2 ∧
          (∀ e ∈ qa2, e.path.length = d2) ∧
          (∀ e ∈ qb2, e.path.length = d2 + 1) ∧
          (∀ k, k ≤ d2 → ∀ s, Reach k b0 s →
            ∃ c, get_canonical_board s = some c ∧ c ∈ visited) ∧
          (∀ s', Reach (d2 + 1) b0 s' → ∃ c, get_canonical_board s' = some c ∧
            (c ∈ visited ∨ ∃ e ∈ qa2, ∃ u, Step e.state u ∧
              get_canonical_board u = some c)) ∧
          (∀ c ∈ visited,
            (∃ k, k ≤ d2 ∧ ∃ s, Reach k b0 s ∧ get_canonical_board s = some c) ∨
            (∃ e ∈ qb2, get_canonical_board e.state = some c)) ∧
          (qa2 = [] → queue = []) := by
      rcases qa with _ | ⟨e0, qa'⟩
      · rw [List.nil_append] at hsplit
        subst hsplit
        obtain ⟨hC', hF', hVr'⟩ := inv_shift b0 hwf0 d queue visited hqb hQ hC hF hVr
        exact ⟨d + 1, queue, [], (List.append_nil queue).symm, hqb,
          fun e he => absurd he (List.not_mem_nil e), hC', hF', hVr', fun h => h⟩
      · refine ⟨d, e0 :: qa', qb, hsplit, hqa, hqb, hC, hF, hVr, ?_⟩
        intro h
        exact absurd h (by simp)
    rcases qa2 with _ | ⟨e0, qa'⟩
    · rw [hnil rfl] at hrun
      rw [solveLoop] at hrun
      exact SolveResult.noConfusion hrun
    · have hqform : queue = e0 :: (qa' ++ qb2) := by rw [hsplit2]; rfl
      rw [hqform] at hrun
      rw [solveLoop] at hrun
      have he0q : e0 ∈ queue := by rw [hqform]; exact List.mem_cons_self _ _
      obtain ⟨hwfe0, hre0⟩ := hQ e0 he0q
      have hd0 : e0.path.length = d2 := hqa2 e0 (List.mem_cons_self _ _)
      have hre0d : Reach d2 b0 e0.state := by rw [hd0] at hre0; exact hre0
      split at hrun
      · exact SolveResult.noConfusion hrun
      · rename_i moves hms
        split at hrun
        · exact SolveResult.noConfusion hrun
        · rename_i p' hexp
          injection hrun with hp'
          subst hp'
          obtain ⟨pc, dn, ns, hmem, hpeq, hgoal⟩ := expand_found hexp
          have hstep : Step e0.state ns := get_all_moves_sound hms (pc, dn, ns) hmem
          have hlen : p'.length = d2 + 1 := by
            rw [hpeq, List.length_append, hd0]
            rfl
          rw [hlen]
          constructor
          · exact ⟨ns, reach_snoc hre0d hstep, hgoal⟩
          · intro m g hrg hgg
            by_contra hlt
            push_neg at hlt
            obtain ⟨c, hcg, hcv⟩ := hC2 m (by omega) g hrg
            have hfalse := hVng c hcv g (reach_wf hwf0 hrg) hcg
            have hgg' : is_goal g = some true := hgg
            have hcontra := Option.some.inj (hgg'.symm.trans hfalse)
            exact Bool.noConfusion hcontra
        · rename_i visited2 adds hexp
          obtain ⟨hVm, hAm, hVn, hAn, hcompl⟩ := expand_next hexp
          have haddfact : ∀ e2 ∈ adds, ∃ pc dn ns, (pc, dn, ns) ∈ moves ∧
              e2 = (⟨ns, e0.path ++ [(pc, dn, ns)]⟩ : Entry) ∧ is_goal ns = some false ∧
              ∃ c, get_canonical_board ns = some c ∧ c ∈ visited2 := by
            intro e2 he2
            rcases hAn e2 he2 with he' | hnew
            · exact absurd he' (List.not_mem_nil _)
            · exact hnew
          refine ih ((qa' ++ qb2) ++ adds) visited2 d2 qa' (qb2 ++ adds)
            (List.append_assoc _ _ _) (fun e he => hqa2 e (List.mem_cons_of_mem _ he))
            ?_ ?_ ?_ ?_ ?_ ?_ p hrun
          · intro e he
            rcases List.mem_append.1 he with he' | he'
            · exact hqb2 e he'
            · obtain ⟨pc', dn', ns', -, rfl, -, -⟩ := haddfact e he'
              show (e0.path ++ [(pc', dn', ns')]).length = d2 + 1
              rw [List.length_append, hd0]
              rfl
          · intro e he
            rcases List.mem_append.1 he with he' | he'
            · refine hQ e ?_
              rw [hqform]
              exact List.mem_cons_of_mem _ he'
            · obtain ⟨pc', dn', ns', hmem', rfl, -, -⟩ := haddfact e he'
              have hstep' : Step e0.state ns' :=
                get_all_moves_sound hms (pc', dn', ns') hmem'
              refine ⟨(step_wf hwfe0 hstep').1, ?_⟩
              show Reach (e0.path ++ [(pc', dn', ns')]).length b0 ns'
              rw [List.length_append, hd0]
              exact reach_snoc hre0d hstep'
          · intro c hcv s hwfs hcs
            rcases hVn c hcv with hcv' | ⟨pc', dn', ns', hmem', hcns', hgns', -⟩
            · exact hVng c hcv' s hwfs hcs
            · have hstep' : Step e0.state ns' :=
                get_all_moves_sound hms (pc', dn', ns') hmem'
              have hwfns' : wellFormed ns' := (step_wf hwfe0 hstep').1
              rw [goal_transfer hwfs hwfns' hcs hcns']
              exact hgns'
          · intro k hk s hs
            obtain ⟨c, hc, hcv⟩ := hC2 k hk s hs
            exact ⟨c, hc, hVm c hcv⟩
          · intro s' hs'
            obtain ⟨c, hc, hcase⟩ := hF2 s' hs'
            rcases hcase with hcv | ⟨e, he, u, hsu, hcu⟩
            · exact ⟨c, hc, Or.inl (hVm c hcv)⟩
            · rcases List.mem_cons.1 he with rfl | he'
              · obtain ⟨l, dd, hlm⟩ := hsu
                have hmvmem : (l, dirName dd, u) ∈ moves := get_all_moves_complete hms hlm
                obtain ⟨c', hc', hc'v⟩ := hcompl l (dirName dd) u hmvmem
                have hcc : c = c' := Option.some.inj (hcu.symm.trans hc')
                subst hcc
                exact ⟨c, hc, Or.inl hc'v⟩
              · exact ⟨c, hc, Or.inr ⟨e, he', u, hsu, hcu⟩⟩
          · intro c hcv
            rcases hVn c hcv with hcv' | ⟨pc', dn', ns', hmem', hcns', hgns', hentry⟩
            · rcases hVr2 c hcv' with ⟨k, hk, rest'⟩ | ⟨e, he, hes⟩
              · exact Or.inl ⟨k, hk, rest'⟩
              · exact Or.inr ⟨e, List.mem_append_left _ he, hes⟩
            · exact Or.inr ⟨⟨ns', e0.path ++ [(pc', dn', ns')]⟩,
                List.mem_append_right _ hentry, hcns'⟩

/-- Claim C1: on every well-formed initial board on which `solve_puzzle`
returns a non-empty move list, the length of that list is the minimum over
all sequences of legal single-piece single-step moves that transform the
initial board into any board satisfying `is_goal` — the BFS with
canonical-signature deduplication is optimal. -/
theorem solve_puzzle_optimal (b : Board) (fuel : Nat)
    (p : List (Char × String × Board)) (hwf : wellFormed b)
    (hrun : solve_puzzle fuel b = SolveResult.solution p) (hne : p ≠ []) :
    GoalDist b p.length := by
  rw [solve_puzzle] at hrun
  split at hrun
  · exact SolveResult.noConfusion hrun
  · rename_i sg hcb
    split at hrun
    · exact SolveResult.noConfusion hrun
    · injection hrun with hp
      exact absurd hp.symm hne
    · rename_i hg
      refine solveLoop_sol b hwf fuel [⟨b, []⟩] [sg] 0 [⟨b, []⟩] [] rfl
        ?_ ?_ ?_ ?_ ?_ ?_ ?_ p hrun
      · intro e he
        rcases List.mem_cons.1 he with rfl | he'
        · rfl
        · exact absurd he' (List.not_mem_nil _)
      · intro e he
        exact absurd he (List.not_mem_nil _)
      · intro e he
        rcases List.mem_cons.1 he with rfl | he'
        · exact ⟨hwf, Reach.refl b⟩
        · exact absurd he' (List.not_mem_nil _)
      · intro c hcv s hwfs hcs
        rcases List.mem_cons.1 hcv with rfl | h'
        · rw [goal_transfer hwfs hwf hcs hcb]
          exact hg
        · exact absurd h' (List.not_mem_nil _)
      · intro k hk s hs
        have hk0 : k = 0 := by omega
        subst hk0
        obtain rfl := reach_zero hs
        exact ⟨sg, hcb, List.mem_cons_self _ _⟩
      · intro s' hs'
        obtain ⟨u, hu, hstep⟩ := reach_succ_iff.1 hs'
        obtain rfl := (reach_zero hu).symm
        have hwfs' : wellFormed s' := (step_wf hwf hstep).1
        obtain ⟨c', hc'⟩ := sig_some_of_wf s' hwfs'
        exact ⟨c', hc', Or.inr ⟨⟨b, []⟩, List.mem_cons_self _ _, s', hstep, hc'⟩⟩
      · intro c hcv
        rcases List.mem_cons.1 hcv with rfl | h'
        · exact Or.inl ⟨0, le_refl _, b, Reach.refl b, hcb⟩
        · exact absurd h' (List.not_mem_nil _)

/-- Witness for the claim C1 theorem: on the demonstration board the run
returns the single move `B right` and 1 is indeed the optimal distance. -/
theorem solve_puzzle_optimal_witness :
    wellFormed demoStartBoard ∧
      solve_puzzle 1 demoStartBoard =
        SolveResult.solution [('B', "right", demoGoalBoard)] ∧
      ([('B', "right", demoGoalBoard)] : List (Char × String × Board)) ≠ [] ∧
      GoalDist demoStartBoard ([('B', "right", demoGoalBoard)]).length :=
  ⟨by decide, by decide, by decide,
    solve_puzzle_optimal demoStartBoard 1 [('B', "right", demoGoalBoard)]
      (by decide) (by decide) (by decide)⟩

end Huarong
